import Mathlib

/-!
Verification of the move-selection core of an ICFP 2017 "punter" player
(`src/punter.rs`).  The Rust code is shallowly embedded: `usize`/`u64`
values become `Nat` (the distance sentinel `usize::max_value()` becomes the
explicit constant `INF`; the arithmetic performed by the program on these
values is proved to stay far below the wrap-around point, so plain `Nat`
arithmetic coincides with machine arithmetic), `f64` accumulators that only
ever hold sums of integer game scores and divisions by player counts become
`ℚ`, the `f64` UCT value (which uses `sqrt`/`ln`) becomes `ℝ`, fallible
code (Rust `panic!`/`assert!`/`unwrap`) returns `Option`, and the
`thread_rng` draws together with the unspecified `HashSet` iteration order
are abstracted into an explicit oracle that every theorem either quantifies
over or instantiates concretely.  `Vec` becomes `List`, `HashSet<RiverIdx>`
becomes `Finset ℕ`, and the `HashMap<SiteId, SiteIdx>` built by
`Punter::new` becomes a lookup function with the same
last-insertion-wins semantics.
-/

set_option allowUnsafeReducibility true

attribute [semireducible] Rat.add Rat.sub Rat.mul Rat.inv Rat.ofScientific

namespace Icfp

/-- The sentinel `usize::max_value()` used by `compute_shortest_paths` for
unreachable sites. -/
def INF : ℕ := 2 ^ 64 - 1

/-- The constant `SIMULATION_DEPTH` from `punter.rs`. -/
def SIMULATION_DEPTH : ℕ := 1000

/-- Mirror of `struct Site`. -/
structure Site where
  id : ℕ
deriving DecidableEq, Repr

instance : Inhabited Site := ⟨⟨0⟩⟩

/-- Mirror of `struct River`: endpoints as referee site ids, optional
`owner` and `renter`, and the dense endpoint indices filled in by
`Input::index_rivers`. -/
structure River where
  source : ℕ
  target : ℕ
  owner : Option ℕ := none
  renter : Option ℕ := none
  source_idx : ℕ := 0
  target_idx : ℕ := 0
deriving DecidableEq, Repr

instance : Inhabited River := ⟨{ source := 0, target := 0 }⟩

/-- Mirror of `River::add_owner`.  The Rust method asserts; a failed
assertion (setting a third holder) is modelled by `none`. -/
def River.add_owner (r : River) (punter : ℕ) : Option River :=
  if r.owner.isSome then
    if r.renter.isSome then none
    else some { r with renter := some punter }
  else
    some { r with owner := some punter }

/-- Mirror of `River::other_index`.  The Rust method asserts
`site == target_idx` in the `else` branch; all call sites reach it only
with `site` an endpoint, so the embedding is total. -/
def River.other_index (r : River) (site : ℕ) : ℕ :=
  if site = r.source_idx then r.target_idx else r.source_idx

/-- Mirror of `struct InputMap`. -/
structure InputMap where
  sites : List Site
  rivers : List River
  mines : List ℕ
deriving DecidableEq, Repr

/-- Mirror of `struct Input` (the `settings` field is deserialisation-only
and never read by the core, so it is omitted). -/
structure Input where
  punter : ℕ
  punters : ℕ
  map : InputMap
deriving DecidableEq, Repr

/-- The `site_index` HashMap is built by
`sites.iter().enumerate().map(|(idx, site)| (site.id, idx)).collect()`;
on duplicate ids the last insertion wins.  We model the map as this
lookup function (callers panic on missing ids; theorems assume the id is
present, under which the `getD` default is never used). -/
def siteIndexFn (sites : List Site) (id : ℕ) : ℕ :=
  (sites.enum.foldl (fun acc p => if p.2.id = id then some p.1 else acc) none).getD 0

/-- Membership of an id in the site list, i.e. the HashMap lookup
succeeding. -/
def siteIdPresent (sites : List Site) (id : ℕ) : Prop :=
  ∃ s ∈ sites, s.id = id

instance (sites : List Site) (id : ℕ) : Decidable (siteIdPresent sites id) := by
  unfold siteIdPresent; infer_instance

/-- Mirror of `Input::index_rivers`: rewrite each river's endpoints to
dense indices. -/
def indexRivers (m : InputMap) : InputMap :=
  { m with rivers := m.rivers.map (fun r =>
      { r with source_idx := siteIndexFn m.sites r.source,
               target_idx := siteIndexFn m.sites r.target }) }

/-- Stable sort embedding `sort_by_key` (Rust's `sort_by_key` is stable;
insertion sort placing each element before the first strictly greater
key is stable too, and agrees with it). -/
def sortByKey (key : ℕ → ℕ) (l : List ℕ) : List ℕ :=
  l.insertionSort (fun a b => key a ≤ key b)

/-- Helper mirroring `Input::river_other_index`. -/
def riverOtherIndex (rivers : List River) (river : ℕ) (site : ℕ) : ℕ :=
  (rivers.getD river default).other_index site

/-- The bucketing loop of `Input::compute_edges`: push each river's index
into the incidence lists of both its endpoints, in river order. -/
def bucketRivers (rivers : List River) (idx : ℕ) (edges : List (List ℕ)) :
    List (List ℕ) :=
  match rivers with
  | [] => edges
  | r :: rs =>
      bucketRivers rs (idx + 1)
        ((edges.modify (fun l => l ++ [idx]) r.source_idx).modify
          (fun l => l ++ [idx]) r.target_idx)

/-- Mirror of `Input::compute_edges`: bucket, then sort each incidence
list by the index of the opposite endpoint. -/
def computeEdges (m : InputMap) : List (List ℕ) :=
  let edges := bucketRivers m.rivers 0 (List.replicate m.sites.length [])
  edges.enum.map (fun p => sortByKey (fun r => riverOtherIndex m.rivers r p.1) p.2)

/-- One relaxation of the BFS inner `for` loop of
`Input::compute_shortest_paths`: for a popped site `s` at distance `sd`,
process one incident river. -/
def spRelax (rivers : List River) (s sd : ℕ) (st : List ℕ × List ℕ) (ridx : ℕ) :
    List ℕ × List ℕ :=
  let nb := (rivers.getD ridx default).other_index s
  if st.1.getD nb 0 = INF then (st.1.set nb (sd + 1), st.2 ++ [nb]) else st

/-- The `while let Some(site_idx) = que.pop_front()` loop of
`Input::compute_shortest_paths`, with explicit fuel (the loop pops each
site at most once, so the fuel supplied by `computeShortestPaths` is
provably enough for the queue to empty). -/
def spBfs (rivers : List River) (edges : List (List ℕ)) :
    ℕ → List ℕ → List ℕ → List ℕ × List ℕ
  | 0, dists, que => (dists, que)
  | _ + 1, dists, [] => (dists, [])
  | fuel + 1, dists, s :: rest =>
      let sd := dists.getD s 0
      let st := (edges.getD s []).foldl (spRelax rivers s sd) (dists, rest)
      spBfs rivers edges fuel st.1 st.2

/-- Mirror of `Input::compute_shortest_paths`: one BFS row per mine over
the unowned topology. -/
def computeShortestPaths (m : InputMap) (edges : List (List ℕ)) : List (List ℕ) :=
  m.mines.map (fun mine =>
    let mineIdx := siteIndexFn m.sites mine
    let dists := (List.replicate m.sites.length INF).set mineIdx 0
    (spBfs m.rivers edges (2 * m.sites.length + 1) dists [mineIdx]).1)

/-- Mirror of `enum PunterType`. -/
inductive PunterType where
  | Random
  | MCTS
deriving DecidableEq, Repr

/-- Mirror of `struct Punter` (the `site_index` HashMap is recomputed by
`siteIndexFn` rather than stored). -/
structure Punter where
  input : Input
  edges : List (List ℕ)
  shortest_paths : List (List ℕ)
  ai : PunterType
deriving DecidableEq, Repr

/-- Mirror of `Punter::new`. -/
def Punter.new (input : Input) (ai : PunterType) : Punter :=
  let indexed : Input := { input with map := indexRivers input.map }
  let edges := computeEdges indexed.map
  { input := indexed,
    edges := edges,
    shortest_paths := computeShortestPaths indexed.map edges,
    ai := ai }

/-- Mirror of `Punter::id`. -/
def Punter.id (p : Punter) : ℕ := p.input.punter

/-- The loop body of Rust slice `binary_search_by_key` (probe index
`base + len/2`; identical probe sequence in every std implementation).
Returns the absolute index of a matching element, `none` for `Err`.
Each round strictly shrinks the slice, so the explicit fuel
(`length + 1` at the call site) is provably enough. -/
def bsearchGo (key : ℕ → ℕ) (target : ℕ) : ℕ → List ℕ → ℕ → Option ℕ
  | 0, _, _ => none
  | fuel + 1, s, base =>
    match s.get? (s.length / 2) with
    | none => none
    | some x =>
        if key x < target then
          bsearchGo key target fuel (s.drop (s.length / 2 + 1)) (base + s.length / 2 + 1)
        else if target < key x then bsearchGo key target fuel (s.take (s.length / 2)) base
        else some (base + s.length / 2)

/-- Mirror of `Punter::find_river`: binary search the incidence list of
`source` for an entry whose opposite endpoint is `target`. -/
def Punter.find_river (p : Punter) (source target : ℕ) : Option ℕ :=
  let source_idx := siteIndexFn p.input.map.sites source
  let target_idx := siteIndexFn p.input.map.sites target
  let list := p.edges.getD source_idx []
  (bsearchGo (fun river => riverOtherIndex p.input.map.rivers river source_idx)
      target_idx (list.length + 1) list 0).map
    (fun river => list.getD river 0)

/-- Mirror of `Punter::river`. -/
def Punter.river (p : Punter) (id : ℕ) : River :=
  p.input.map.rivers.getD id default

/-- Mirror of `Punter::add_move` (`find_river(..).unwrap()` and the
`add_owner` assertions become `Option`). -/
def Punter.add_move (p : Punter) (punter source target : ℕ) : Option Punter :=
  match p.find_river source target with
  | none => none
  | some id =>
      match (p.river id).add_owner punter with
      | none => none
      | some r =>
          some { p with input := { p.input with map :=
            { p.input.map with rivers := p.input.map.rivers.set id r } } }

/-- Mirror of `protocol::Move` as consumed/produced by the core. -/
inductive PMove where
  | claim (punter source target : ℕ)
  | pass (punter : ℕ)
  | splurge (punter : ℕ) (route : List ℕ)
  | option (punter source target : ℕ)
deriving DecidableEq, Repr

/-- The splurge loop of `Punter::process_turn`: consecutive claims along
the route (`route[0]` on an empty route panics, modelled by `none`). -/
def Punter.add_splurge (p : Punter) (punter : ℕ) : ℕ → List ℕ → Option Punter
  | _, [] => some p
  | source, target :: rest => do
      let p' ← p.add_move punter source target
      p'.add_splurge punter target rest

/-- Mirror of `Punter::process_turn` for a `TurnS::turn` payload. -/
def Punter.process_turn (p : Punter) (moves : List PMove) : Option Punter :=
  match moves with
  | [] => some p
  | m :: rest => do
      let p' ← (match m with
        | .claim punter source target => p.add_move punter source target
        | .option punter source target => p.add_move punter source target
        | .splurge punter route =>
            match route with
            | [] => none
            | source :: rest => p.add_splurge punter source rest
        | .pass _ => some p)
      p'.process_turn rest

/-- State of the scorer BFS of `Punter::compute_scores`: current score
accumulator, visited mask, queue. -/
structure ScState where
  acc : ℕ
  visited : List Bool
  que : List ℕ
deriving Repr

/-- The inner `for ridx in &self.edges[site_idx]` loop of
`Punter::compute_scores`: traverse a river only if this punter owns or
rents it. -/
def scRelax (rivers : List River) (punter s : ℕ) (st : List Bool × List ℕ)
    (ridx : ℕ) : List Bool × List ℕ :=
  let river := rivers.getD ridx default
  if river.owner.all (fun o => o ≠ punter) && river.renter.all (fun o => o ≠ punter)
  then st
  else
    let nb := river.other_index s
    if st.1.getD nb false then st else (st.1.set nb true, st.2 ++ [nb])

/-- The `while let Some(site_idx) = que.pop_front()` loop of
`Punter::compute_scores`.  The `assert!(dist != usize::max_value())`
failing is modelled by `none`. -/
def scBfs (p : Punter) (rivers : List River) (punter mine_idx : ℕ) :
    ℕ → ScState → Option ScState
  | 0, st => some st
  | _ + 1, ⟨acc, visited, []⟩ => some ⟨acc, visited, []⟩
  | fuel + 1, ⟨acc, visited, s :: rest⟩ =>
      let dist := (p.shortest_paths.getD mine_idx []).getD s 0
      if dist = INF then none
      else
        let st := (p.edges.getD s []).foldl (scRelax rivers punter s) (visited, rest)
        scBfs p rivers punter mine_idx fuel ⟨acc + dist * dist, st.1, st.2⟩

/-- The per-mine body of `Punter::compute_scores`: clear the queue and the
visited mask, seed with the mine, run the BFS. -/
def scoreMine (p : Punter) (rivers : List River) (punter : ℕ)
    (mine_idx : ℕ) (mine : ℕ) : Option ℕ := do
  let mine_site_idx := siteIndexFn p.input.map.sites mine
  let visited := (List.replicate p.input.map.sites.length false).set mine_site_idx true
  let st ← scBfs p rivers punter mine_idx (2 * p.input.map.sites.length + 1)
    ⟨0, visited, [mine_site_idx]⟩
  pure st.acc

/-- The per-punter loop of `Punter::compute_scores`: zero the punter's
score, then accumulate every mine's BFS contribution. -/
def scorePunter (p : Punter) (rivers : List River) (punter : ℕ) :
    ℕ → List ℕ → Option ℕ
  | _, [] => some 0
  | mine_idx, mine :: rest => do
      let s ← scoreMine p rivers punter mine_idx mine
      let r ← scorePunter p rivers punter (mine_idx + 1) rest
      pure (s + r)

/-- Mirror of `Punter::compute_scores`: `scores` is resized to `punters`
entries and entry `punter` receives the squared-distance sum over that
punter's owned-subgraph BFS from every mine. -/
def Punter.compute_scores (p : Punter) (rivers : List River) : Option (List ℕ) :=
  (List.range p.input.punters).mapM (fun punter =>
    scorePunter p rivers punter 0 p.input.map.mines)

/-- Mirror of `enum GameStatus`. -/
inductive GameStatus where
  | NotStarted
  | Playing
  | Finished
deriving DecidableEq, Repr

/-- Mirror of `struct InternalGameState` (the immutable `state: &Punter`
back-reference is passed explicitly to each operation; the reusable
`scores` buffer is fully overwritten by every `compute_scores` call and
carries no state, so it is omitted). -/
structure Harness where
  status : GameStatus
  current_punter : ℕ
  rivers : List River
  available_rivers : Finset ℕ
deriving DecidableEq

/-- Mirror of `InternalGameState::new`. -/
def Harness.new (p : Punter) : Harness :=
  { status := .NotStarted,
    current_punter := p.id,
    rivers := [],
    available_rivers := ∅ }

/-- Mirror of `InternalGameState::reset_game`: copy ownership from the
authoritative board, recompute the unowned set, reset the cursor. -/
def Harness.reset_game (p : Punter) (_g : Harness) : Harness :=
  { status := .Playing,
    current_punter := p.id,
    rivers := p.input.map.rivers,
    available_rivers := (Finset.range p.input.map.rivers.length).filter
      (fun x => (p.input.map.rivers.getD x default).owner = none) }

/-- Mirror of `InternalGameState::available_actions` (the
`status != NotStarted` assertion is modelled by `none`). -/
def Harness.available_actions (g : Harness) : Option (Finset ℕ) :=
  if g.status = .NotStarted then none else some g.available_rivers

/-- Mirror of `<InternalGameState as Game>::make_move`: claim (or rent)
the river for the current punter, remove it from the available set,
advance the cursor, finish the game when no river remains. -/
def Harness.make_move (p : Punter) (g : Harness) (river : ℕ) : Option Harness := do
  if g.status = .Playing then
    let r ← g.rivers.get? river
    let r' ← r.add_owner g.current_punter
    let rivers := g.rivers.set river r'
    let avail := g.available_rivers.erase river
    pure { status := if avail = ∅ then .Finished else g.status,
           current_punter := (g.current_punter + 1) % p.input.punters,
           rivers := rivers,
           available_rivers := avail }
  else none

/-- Mirror of `<InternalGameState as Game>::score`: the mean over
opponents of (my score − their score), in exact rationals. -/
def Harness.score (p : Punter) (g : Harness) : Option ℚ := do
  if g.status = .NotStarted then none
  else
    let scores ← p.compute_scores g.rivers
    let my ← scores.get? p.id
    let total := (scores.enum.foldl
      (fun acc pr => if pr.1 ≠ p.id then acc + ((my : ℚ) - (pr.2 : ℚ)) else acc) 0)
    pure (total / ((scores.length - 1 : ℕ) : ℚ))

/-- Mirror of `enum NodeStatus`. -/
inductive NodeStatus where
  | Done
  | Expanded
  | Expandable
deriving DecidableEq, Repr

/-- Mirror of `struct MCTSNode<RiverIdx>`.  The `Rc<RefCell<..>>` tree
with `Weak` parent back-references is embedded as a pure tree; a node is
addressed by its path of child positions from the root, and
`backpropagate`'s parent walk becomes an update along that path. -/
inductive MNode where
  | mk (play : Option ℕ) (children : List MNode) (status : NodeStatus)
       (score : ℚ) (count : ℚ)

/-- Field accessor for `MCTSNode::play`. -/
def MNode.play : MNode → Option ℕ
  | .mk p _ _ _ _ => p

/-- Field accessor for `MCTSNode::children`. -/
def MNode.children : MNode → List MNode
  | .mk _ c _ _ _ => c

/-- Field accessor for `MCTSNode::status`. -/
def MNode.status : MNode → NodeStatus
  | .mk _ _ s _ _ => s

/-- Field accessor for `MCTSNode::score`. -/
def MNode.score : MNode → ℚ
  | .mk _ _ _ s _ => s

/-- Field accessor for `MCTSNode::count`. -/
def MNode.count : MNode → ℚ
  | .mk _ _ _ _ c => c

/-- Mirror of `MCTSNode::new`. -/
def MNode.new (play : Option ℕ) : MNode :=
  .mk play [] .Expandable 0 0

/-- Sum of the visit counts of a list of nodes. -/
def sumCounts (l : List MNode) : ℚ := (l.map MNode.count).sum

/-- The oracle that stands in for `thread_rng` and for the unspecified
iteration order of `HashSet`: `selCh` is the child position chosen by
`select_uct` (the f64 UCT comparison chain, parameterised by the
exploration constant), `pick` is the uniformly random element drawn from
a nonempty `HashSet` by `gen_range` + `nth`. -/
structure Oracle where
  selCh : ℝ → MNode → Option ℕ
  pick : Finset ℕ → ℕ

/-- An oracle is valid when `pick` really returns a member of every
nonempty set (as `nth(gen_range(0, len))` does). -/
def ValidOracle (o : Oracle) : Prop :=
  ∀ s : Finset ℕ, s.Nonempty → o.pick s ∈ s

/-- Replace the status field of a node. -/
def MNode.withStatus : MNode → NodeStatus → MNode
  | .mk pl ch _ sc cnt, s => .mk pl ch s sc cnt

/-- Replace the children field of a node. -/
def MNode.withChildren : MNode → List MNode → MNode
  | .mk pl _ st sc cnt, ch => .mk pl ch st sc cnt

mutual

/-- Executable size of a search tree, used as provably sufficient fuel
for the descent loop. -/
def MNode.size : MNode → ℕ
  | .mk _ ch _ _ _ => 1 + MNode.sizeList ch

/-- Total size of a list of search trees. -/
def MNode.sizeList : List MNode → ℕ
  | [] => 0
  | t :: ts => MNode.size t + MNode.sizeList ts

end

/-- Mirror of `MCTSNode::select` (the descent loop), with explicit fuel.
Starting at a node, while the current node is `Expanded`, ask the
selector for a child, apply that child's action to the harness, and
continue from the child; the result is the path of child positions to
the leaf together with the mutated harness.  `node.play.unwrap()` on a
playless child is `none`.  The loop strictly descends the finite tree,
so the `MNode.size` fuel supplied by `selectPath` never runs out. -/
def selectGo (p : Punter) (o : Oracle) (c : ℝ) :
    ℕ → MNode → Harness → Option (List ℕ × Harness)
  | 0, _, _ => none
  | fuel + 1, t, g =>
      match t.status with
      | .Expanded =>
          match o.selCh c t with
          | none => some ([], g)
          | some i =>
              if h : i < t.children.length then
                match (t.children.get ⟨i, h⟩).play with
                | none => none
                | some a => do
                    let g' ← Harness.make_move p g a
                    let pg ← selectGo p o c fuel (t.children.get ⟨i, h⟩) g'
                    pure (i :: pg.1, pg.2)
              else none
      | _ => some ([], g)

/-- Mirror of `MCTSNode::select`. -/
def selectPath (p : Punter) (o : Oracle) (c : ℝ) (t : MNode) (g : Harness) :
    Option (List ℕ × Harness) :=
  selectGo p o c t.size t g

/-- Mirror of `MCTSNode::expand`, acting on the leaf node's value.
Returns the updated leaf and `some childPos` when a new child was pushed
(`childPos` is its position, i.e. the old children count), or `none` in
the second component when the leaf was marked `Done`.  An overall `none`
models the `assert!(available_moves.len() > 0)` panic. -/
def expandNode (o : Oracle) (t : MNode) (g : Harness) :
    Option (MNode × Option ℕ) := do
  let moves ← g.available_actions
  if moves.card = 0 then
    pure (t.withStatus .Done, none)
  else do
    let plays ← t.children.mapM MNode.play
    let available_moves := plays.foldl Finset.erase moves
    let t1 := if available_moves.card = 1 then t.withStatus .Expanded else t
    if available_moves.card = 0 then none
    else
      let a := o.pick available_moves
      pure (t1.withChildren (t1.children ++ [MNode.new (some a)]),
            some t1.children.length)

/-- Mirror of the playout loop of `MCTSNode::simulate`: up to
`SIMULATION_DEPTH` uniformly random moves, stopping early when no action
remains. -/
def simulateFuel (p : Punter) (o : Oracle) : ℕ → Harness → Option Harness
  | 0, g => some g
  | fuel + 1, g => do
      let choices ← g.available_actions
      if choices.card = 0 then pure g
      else do
        let g' ← Harness.make_move p g (o.pick choices)
        simulateFuel p o fuel g'

/-- Mirror of `MCTSNode::backpropagate` in path form: add 1 to `count`
and `v` to `score` at the focus node (the end of `path`) and at every
ancestor up to and including the root. -/
def addAlong (v : ℚ) : List ℕ → MNode → MNode
  | [], .mk pl ch st sc cnt => .mk pl ch st (sc + v) (cnt + 1)
  | i :: rest, .mk pl ch st sc cnt =>
      .mk pl (ch.modify (addAlong v rest) i) st (sc + v) (cnt + 1)

/-- The node addressed by a path of child positions. -/
def nodeAt : List ℕ → MNode → Option MNode
  | [], t => some t
  | i :: rest, t => (t.children.get? i).bind (nodeAt rest)

/-- Replace the node addressed by a path. -/
def updateAt (f : MNode → MNode) : List ℕ → MNode → MNode
  | [], t => f t
  | i :: rest, .mk pl ch st sc cnt => .mk pl (ch.modify (updateAt f rest) i) st sc cnt

/-- The observable outcome of one `MCTS::step`, exposing the locals of
the Rust function: the updated tree, the harness as the step left it,
the path to the focus node (`child_ref` when a child was expanded,
`leaf` when the leaf was terminal), the value backpropagated, and which
of the two branches ran. -/
structure StepResult where
  tree : MNode
  game : Harness
  focus : List ℕ
  value : ℚ
  expanded : Bool

/-- Mirror of `MCTS::step`: select a leaf, try to expand it; on success
link the child (implicit in the path embedding), simulate and
backpropagate the playout score from the child; otherwise backpropagate
the terminal leaf's own cumulative score from the leaf. -/
def step (p : Punter) (o : Oracle) (c : ℝ) (t : MNode) (g : Harness) :
    Option StepResult := do
  let pg ← selectPath p o c t g
  let leaf ← nodeAt pg.1 t
  let ex ← expandNode o leaf pg.2
  match ex with
  | (leaf', some ci) => do
      let g2 ← simulateFuel p o SIMULATION_DEPTH pg.2
      let v ← Harness.score p g2
      pure ⟨addAlong v (pg.1 ++ [ci]) (updateAt (fun _ => leaf') pg.1 t), g2,
            pg.1 ++ [ci], v, true⟩
  | (leaf', none) =>
      if leaf'.status = .Done then
        pure ⟨addAlong leaf'.score pg.1 (updateAt (fun _ => leaf') pg.1 t), pg.2,
              pg.1, leaf'.score, false⟩
      else none

/-- Mirror of `struct MCTS` (the `punter` back-reference is passed
explicitly). -/
structure MCTS where
  root : MNode
  c : ℝ

/-- Mirror of `MCTS::new`. -/
def MCTS.new (c : ℝ) : MCTS :=
  { root := MNode.new none, c := c }

/-- The fresh-then-reset harness every iteration of `move_mcts` starts
from (`reset_game` overwrites every mutable field). -/
def resetHarness (p : Punter) : Harness :=
  Harness.reset_game p (Harness.new p)

/-- The `while begin_time.elapsed() < ...` loop of `Punter::move_mcts`,
with the wall-clock deadline abstracted into the number of completed
iterations. -/
def mctsLoop (p : Punter) (o : Oracle) (m : MCTS) : ℕ → Option MCTS
  | 0 => some m
  | k + 1 => do
      let m' ← mctsLoop p o m k
      let r ← step p o m'.c m'.root (resetHarness p)
      pure { root := r.tree, c := m'.c }

/-- The tree grown by `k` completed MCTS iterations of `move_mcts`. -/
def mctsIter (p : Punter) (o : Oracle) (k : ℕ) : Option MNode :=
  (mctsLoop p o (MCTS.new 1.4) k).map MCTS.root

/-- Mirror of `MCTSNode::best_move`: highest visit count among the
children, ties to the first inserted, falling back to the node's own
`play`; `best.unwrap()` on `None` (a childless root) is `none`. -/
def MNode.best_move (t : MNode) : Option ℕ :=
  (t.children.foldl
    (fun (best : Option ℕ × Option ℚ) child =>
      match best.2 with
      | none => (child.play, some child.count)
      | some bv =>
          if child.count > bv then (child.play, some child.count) else best)
    (t.play, none)).1

/-- Mirror of `struct Play`. -/
structure Play where
  punter : ℕ
  source : ℕ
  target : ℕ
deriving DecidableEq, Repr

/-- Mirror of `MCTS::best_move`. -/
def MCTS.best_move (p : Punter) (m : MCTS) : Option Play := do
  let a ← m.root.best_move
  let river := p.river a
  pure { punter := p.id, source := river.source, target := river.target }

/-- Mirror of `Punter::move_mcts`. -/
def Punter.move_mcts (p : Punter) (o : Oracle) (iters : ℕ) : Option Play := do
  let m ← mctsLoop p o (MCTS.new 1.4) iters
  m.best_move p

/-- Mirror of `Punter::move_random`: a uniformly random unowned river
(`rng.choose` on an empty slice gives `None`, whose `unwrap` panics). -/
def Punter.move_random (p : Punter) (o : Oracle) : Option Play :=
  let choices := p.input.map.rivers.filter (fun r => r.owner = none)
  if choices.length = 0 then none
  else
    let idx := o.pick (Finset.range choices.length)
    let choice := choices.getD idx default
    some { punter := p.id, source := choice.source, target := choice.target }

/-- Mirror of `Punter::make_move`: run the configured AI and wrap the
play in a `claim` envelope (this is the only move shape ever emitted). -/
def Punter.make_move (p : Punter) (o : Oracle) (iters : ℕ) : Option PMove := do
  let play ← match p.ai with
    | .Random => p.move_random o
    | .MCTS => p.move_mcts o iters
  pure (PMove.claim play.punter play.source play.target)

/-- The UCT1 value `child.score / child.count +
c * sqrt(2 * ln(parent.count) / child.count)` from
`MCTSNode::select_uct`, with `f64` read as `ℝ`. -/
noncomputable def uctValue (c : ℝ) (parentCount : ℚ) (child : MNode) : ℝ :=
  (child.score : ℝ) / (child.count : ℝ) +
    c * Real.sqrt (2 * Real.log (parentCount : ℝ) / (child.count : ℝ))

/-- Mirror of `MCTSNode::select_uct`, returning the position of the
chosen child (the Rust function returns the child's `Rc`; positions
identify children uniquely in the path embedding).  `best_value` starts
at `NEG_INFINITY`, embedded as `(⊥ : EReal)`; `best_child` starts at
position 0. -/
noncomputable def MNode.select_uct (t : MNode) (c : ℝ) : Option ℕ :=
  if t.children.length = 0 then none
  else
    some (t.children.enum.foldl
      (fun (best : ℕ × EReal) pr =>
        if best.2 < (uctValue c t.count pr.2 : EReal) then
          (pr.1, (uctValue c t.count pr.2 : EReal))
        else best)
      (0, ⊥)).1

instance : Inhabited MNode := ⟨MNode.new none⟩

/-- Mirror of the `&self` receiver of `Punter::make_move`: the Turn API
threads the punter state through, and `make_move` borrows it immutably,
so the state handed to the next turn is the unchanged input state. -/
def Punter.make_move_state (p : Punter) (o : Oracle) (iters : ℕ) :
    Option PMove × Punter :=
  (p.make_move o iters, p)

/-- The endpoint data of a river: everything except its ownership. -/
def riverEndpoints (r : River) : ℕ × ℕ × ℕ × ℕ :=
  (r.source, r.target, r.source_idx, r.target_idx)

/-- Two river vectors describe the same static topology (they may differ
in `owner`/`renter` only). -/
def sameEndpoints (l₁ l₂ : List River) : Prop :=
  l₁.map riverEndpoints = l₂.map riverEndpoints

/-!
Concrete instances used by witnesses and counterexamples: the sample
8-site map of the specification's concrete scenarios, a 2-site board, an
exhausted board, and a multigraph; plus a deterministic valid oracle.
-/

/-- The setup graph of the specification's concrete scenarios. -/
def sampleMap : InputMap :=
  { sites := [⟨0⟩,⟨1⟩,⟨2⟩,⟨3⟩,⟨4⟩,⟨5⟩,⟨6⟩,⟨7⟩],
    rivers := [ {source:=3,target:=4}, {source:=0,target:=1}, {source:=2,target:=3},
                {source:=1,target:=3}, {source:=5,target:=6}, {source:=4,target:=5},
                {source:=3,target:=5}, {source:=6,target:=7}, {source:=5,target:=7},
                {source:=1,target:=7}, {source:=0,target:=7}, {source:=1,target:=2} ],
    mines := [1, 5] }

/-- The sample punter: id 1 of 2, MCTS player, on `sampleMap`. -/
def samplePunter : Punter :=
  Punter.new { punter := 1, punters := 2, map := sampleMap } .MCTS

/-- The ownership configuration of concrete scenario 3: punter 1 owns
only the river (1,3) (river index 3). -/
def scen3Rivers : List River :=
  samplePunter.input.map.rivers.set 3
    { (samplePunter.input.map.rivers.getD 3 default) with owner := some 1 }

/-- A 2-site, 1-river board with a mine, punter 0 of 2. -/
def tinyPunter : Punter :=
  Punter.new
    { punter := 0, punters := 2,
      map := { sites := [⟨0⟩,⟨1⟩], rivers := [{source:=0,target:=1}], mines := [0] } }
    .MCTS

/-- A board whose only river is already owned: no move is available. -/
def ownedPunter : Punter :=
  Punter.new
    { punter := 1, punters := 2,
      map := { sites := [⟨0⟩,⟨1⟩], rivers := [{source:=0,target:=1, owner := some 0}],
               mines := [0] } }
    .MCTS

/-- A multigraph: one river (0,2) and two parallel rivers (1,2). -/
def multiPunter : Punter :=
  Punter.new
    { punter := 0, punters := 2,
      map := { sites := [⟨0⟩,⟨1⟩,⟨2⟩],
               rivers := [ {source:=0,target:=2}, {source:=1,target:=2},
                           {source:=1,target:=2} ],
               mines := [0] } }
    .MCTS

/-- A deterministic oracle: always descend into the first child, always
pick the smallest available element. -/
def detOracle : Oracle :=
  { selCh := fun _ t => if t.children.length = 0 then none else some 0,
    pick := fun s => if h : s.Nonempty then s.min' h else 0 }

/-- A river joins the (unordered) endpoint pair `{a, b}`, stated on
referee site ids as the spec does. -/
def riverJoins (r : River) (a b : ℕ) : Prop :=
  (r.source = a ∧ r.target = b) ∨ (r.source = b ∧ r.target = a)

/-- Number of already-computed (non-sentinel) entries of a distance row. -/
def finCount (d : List ℕ) : ℕ := d.countP (fun v => v != INF)

/-- One step of adjacency as the BFS loops see it: some river in `s`'s
incidence list has the neighbour as its opposite endpoint. -/
def bfsAdj (rivers : List River) (edges : List (List ℕ)) (s nb : ℕ) : Prop :=
  ∃ ridx ∈ edges.getD s [], (rivers.getD ridx default).other_index s = nb

/-- All of a site's incident rivers are relaxed in the distance row `d`:
every neighbour is computed, at most one hop further. -/
def Relaxed (rivers : List River) (edges : List (List ℕ)) (d : List ℕ) (s : ℕ) :
    Prop :=
  ∀ ridx ∈ edges.getD s [],
    d.getD ((rivers.getD ridx default).other_index s) 0 ≠ INF ∧
    d.getD ((rivers.getD ridx default).other_index s) 0 ≤ d.getD s 0 + 1

/-- Computed entries never change. -/
def DistMono (d d' : List ℕ) : Prop :=
  ∀ s : ℕ, d.getD s 0 ≠ INF → d'.getD s 0 = d.getD s 0

/-- The invariant of the `compute_shortest_paths` BFS loop. -/
structure SpInv (rivers : List River) (edges : List (List ℕ)) (n root : ℕ)
    (d : List ℕ) (q : List ℕ) : Prop where
  rootlt : root < n
  len : d.length = n
  root_zero : d.getD root 0 = 0
  qlt : ∀ s ∈ q, s < n
  qfin : ∀ s ∈ q, d.getD s 0 ≠ INF
  fin_reach : ∀ s, s < n → d.getD s 0 ≠ INF →
    Relation.ReflTransGen (bfsAdj rivers edges) root s
  fin_bound : ∀ s, s < n → d.getD s 0 ≠ INF → d.getD s 0 < finCount d
  relaxed : ∀ s, s < n → d.getD s 0 ≠ INF → s ∈ q ∨ Relaxed rivers edges d s
  qsorted : List.Pairwise (fun a b => d.getD a 0 ≤ d.getD b 0) q
  fin_le : ∀ x, x < n → d.getD x 0 ≠ INF → ∀ y ∈ q,
    d.getD x 0 ≤ d.getD y 0 + 1

/-- Adjacency in the underlying multigraph on dense indices: some river
joins `u` and `v` (in either orientation), ownership ignored. -/
def riverAdj (rivers : List River) (u v : ℕ) : Prop :=
  ∃ k, k < rivers.length ∧
    (((rivers.getD k default).source_idx = u ∧
      (rivers.getD k default).target_idx = v) ∨
     ((rivers.getD k default).target_idx = u ∧
      (rivers.getD k default).source_idx = v))

/-- A river with its ownership fields erased: two rivers with equal
`strip`s agree on endpoints and dense indices. -/
def River.strip (r : River) : River :=
  { r with owner := none, renter := none }

/-- Number of sites marked in a visited mask. -/
def trueCount (v : List Bool) : ℕ := v.countP (fun b => b)

/-- Sum of squared distances over the marked sites of a visited mask. -/
def visSum (dist : ℕ → ℕ) (n : ℕ) (visited : List Bool) : ℕ :=
  ∑ x ∈ Finset.range n, if visited.getD x false then dist x * dist x else 0

/-- One step of the scorer BFS as the code takes it: an incident river of
`s` that this punter owns or rents leads to the opposite endpoint. -/
def scAdj (p : Punter) (rivers : List River) (punter s x : ℕ) : Prop :=
  ∃ ridx ∈ p.edges.getD s [],
    ((rivers.getD ridx default).owner.all (fun o => o ≠ punter) &&
     (rivers.getD ridx default).renter.all (fun o => o ≠ punter)) = false ∧
    (rivers.getD ridx default).other_index s = x

/-- Adjacency through a river owned or rented by the punter, stated on
the rivers list as the spec does. -/
def ownedAdj (rivers : List River) (punter u v : ℕ) : Prop :=
  ∃ k, k < rivers.length ∧
    ((rivers.getD k default).owner = some punter ∨
     (rivers.getD k default).renter = some punter) ∧
    (((rivers.getD k default).source_idx = u ∧
      (rivers.getD k default).target_idx = v) ∨
     ((rivers.getD k default).target_idx = u ∧
      (rivers.getD k default).source_idx = v))

/-- The invariant of the scorer BFS loop of `Punter::compute_scores`. -/
structure ScInv (p : Punter) (rivers : List River)
    (punter mine_idx root n : ℕ) (visited : List Bool) (q : List ℕ) :
    Prop where
  rootlt : root < n
  vlen : visited.length = n
  root_vis : visited.getD root false = true
  qlt : ∀ s ∈ q, s < n
  qvis : ∀ s ∈ q, visited.getD s false = true
  qfin : ∀ s ∈ q, (p.shortest_paths.getD mine_idx []).getD s 0 ≠ INF
  nodup : q.Nodup
  vis_reach : ∀ x, x < n → visited.getD x false = true →
    Relation.ReflTransGen (scAdj p rivers punter) root x
  vis_closed : ∀ x, x < n → visited.getD x false = true → x ∈ q ∨
    (∀ y, scAdj p rivers punter x y → visited.getD y false = true)

/-- The plays of a node's children, in insertion order. -/
def playsOf (node : MNode) : List ℕ :=
  (node.children.map MNode.play).reduceOption

/-- Well-formedness of a harness state as the search reaches it: the
game is `Playing` unless the available set is exhausted, and every
available river index is a real, unowned river. -/
def HOk (g : Harness) : Prop :=
  (g.status = .Playing ∨ (g.status = .Finished ∧ g.available_rivers = ∅)) ∧
  ∀ x ∈ g.available_rivers, x < g.rivers.length ∧
    (g.rivers.getD x default).owner = none

/-- Replay a path of child positions: apply each traversed child's play
to the harness.  This is exactly the harness evolution `select`
performs. -/
def descend (p : Punter) : List ℕ → MNode → Harness → Option Harness
  | [], _, g => some g
  | i :: rest, t, g => do
      let ch ← t.children.get? i
      let a ← ch.play
      let g' ← Harness.make_move p g a
      descend p rest ch g'

/-- The invariant tying each node of the MCTS tree to the harness state
reached by replaying its path: children correspond to successful moves
on distinct available rivers, the status flags summarise how much of the
available set the children cover, and the visit counts satisfy the
corrected identities (the root never receives a creation visit). -/
def TreeInv (p : Punter) (b : Bool) (g : Harness) (node : MNode) : Prop :=
  HOk g ∧
  (∀ i (h : i < node.children.length), ∃ a g',
    (node.children[i]).play = some a ∧
    a ∈ g.available_rivers ∧
    Harness.make_move p g a = some g' ∧
    TreeInv p false g' (node.children[i])) ∧
  (playsOf node).Nodup ∧
  (node.status = .Done → node.children = [] ∧ g.available_rivers = ∅) ∧
  (node.status = .Expanded →
    (∀ x ∈ g.available_rivers, x ∈ playsOf node) ∧
    g.available_rivers ≠ ∅) ∧
  (node.status = .Expandable → node.children ≠ [] →
    ∃ x ∈ g.available_rivers, x ∉ playsOf node) ∧
  (b = false → 1 ≤ node.count) ∧
  (node.children ≠ [] →
    node.count = (if b then 0 else 1) + sumCounts node.children) ∧
  (node.children = [] → node.status ≠ .Done →
    node.count = if b then 0 else 1)
termination_by node.size
decreasing_by
  have hmem : node.children[i] ∈ node.children := List.getElem_mem h
  generalize node.children[i] = c at hmem ⊢
  rcases node with ⟨pl, ch, st, sc, cnt⟩
  clear h
  clear i
  simp only [MNode.children] at hmem
  simp only [MNode.size]
  induction ch with
  | nil => cases hmem
  | cons x xs ih =>
      cases hmem with
      | head => simp [MNode.sizeList]; omega
      | tail _ hm2 =>
          have := ih hm2
          simp [MNode.sizeList] at *
          omega

theorem detOracle_valid : ValidOracle detOracle := by
  intro s hs
  simp [detOracle, hs, Finset.min'_mem]

/-!
Claim C1 — behaviour at an exhausted search.
-/

theorem reset_avail_empty (p : Punter)
    (hown : ∀ r ∈ p.input.map.rivers, r.owner.isSome) :
    (resetHarness p).available_rivers = ∅ := by
  ext x
  simp only [resetHarness, Harness.reset_game, Finset.mem_filter, Finset.mem_range,
    Finset.not_mem_empty, iff_false, not_and]
  intro hx
  have hmem : p.input.map.rivers.getD x default ∈ p.input.map.rivers := by
    rw [List.getD_eq_getElem?_getD, List.getElem?_eq_getElem hx]
    exact List.getElem_mem hx
  have := hown _ hmem
  intro hnone
  rw [hnone] at this
  simp at this

theorem step_on_exhausted (p : Punter) (o : Oracle) (c : ℝ)
    (hav : (resetHarness p).available_rivers = ∅)
    (pl : Option ℕ) (st : NodeStatus) (sc cnt : ℚ) (hst : st ≠ .Expanded) :
    step p o c (.mk pl [] st sc cnt) (resetHarness p) =
      some ⟨.mk pl [] .Done (sc + sc) (cnt + 1), resetHarness p, [], sc, false⟩ := by
  have hstat : (resetHarness p).status = .Playing := rfl
  cases st with
  | Expanded => exact absurd rfl hst
  | Done =>
      simp [step, selectPath, selectGo, MNode.size, MNode.sizeList, MNode.status,
        nodeAt, expandNode, Harness.available_actions, hstat, hav, updateAt,
        MNode.withStatus, addAlong, MNode.score, Option.bind]
  | Expandable =>
      simp [step, selectPath, selectGo, MNode.size, MNode.sizeList, MNode.status,
        nodeAt, expandNode, Harness.available_actions, hstat, hav, updateAt,
        MNode.withStatus, addAlong, MNode.score, Option.bind]

theorem mctsLoop_exhausted (p : Punter) (o : Oracle)
    (hav : (resetHarness p).available_rivers = ∅) :
    ∀ k : ℕ, ∃ (st : NodeStatus) (sc cnt : ℚ), st ≠ .Expanded ∧
      mctsLoop p o (MCTS.new 1.4) k = some ⟨.mk none [] st sc cnt, 1.4⟩ := by
  intro k
  induction k with
  | zero => exact ⟨.Expandable, 0, 0, by simp, rfl⟩
  | succ n ih =>
      obtain ⟨st, sc, cnt, hst, hloop⟩ := ih
      refine ⟨.Done, sc + sc, cnt + 1, by simp, ?_⟩
      simp only [mctsLoop, hloop, Option.bind_eq_bind, Option.some_bind]
      rw [step_on_exhausted p o 1.4 hav none st sc cnt hst]
      rfl

/-- C1, counterexample: on a board whose only river is already owned, and
likewise when the deadline allows zero iterations on the sample board
(root has no children), `make_move` produces no move at all — the
`best.unwrap()` in `MCTSNode::best_move` panics — instead of the claimed
pass or uniformly random fallback river. -/
theorem C1_counterexample :
    ownedPunter.make_move detOracle 1 = none ∧
    samplePunter.make_move detOracle 0 = none := by
  constructor <;> decide

/-- C1 (amended): if the root has no children when the deadline arrives,
`make_move` does not fall back to a random river and never emits a pass:
`MCTSNode::best_move` returns the root's own `play`, which is `None`,
and the `unwrap` panics (modelled `none`).  With an empty available set
at search start the tree is indeed never grown (the root stays
childless), but the turn ends in a panic, not a `Pass`; and with zero
completed iterations the same panic occurs on any board. -/
theorem C1_no_pass_no_fallback (p : Punter) (o : Oracle) (k : ℕ)
    (hai : p.ai = .MCTS)
    (hown : ∀ r ∈ p.input.map.rivers, r.owner.isSome) :
    (∃ t, mctsIter p o k = some t ∧ t.children = []) ∧
    p.make_move o k = none ∧
    (∀ p' : Punter, p'.ai = .MCTS → p'.make_move o 0 = none) := by
  have hav := reset_avail_empty p hown
  obtain ⟨st, sc, cnt, hst, hloop⟩ := mctsLoop_exhausted p o hav k
  refine ⟨⟨.mk none [] st sc cnt, ?_, rfl⟩, ?_, ?_⟩
  · simp [mctsIter, hloop, MCTS.root]
  · simp [Punter.make_move, hai, Punter.move_mcts, hloop, MCTS.best_move,
      MNode.best_move, MNode.children, MNode.play, Option.bind]
  · intro p' hai'
    simp [Punter.make_move, hai', Punter.move_mcts, mctsLoop, MCTS.best_move,
      MCTS.new, MNode.best_move, MNode.new, MNode.children, MNode.play, Option.bind]

/-- C1, witness: the amended theorem evaluated on the concrete exhausted
board, `k = 2` iterations. -/
theorem C1_witness :
    ownedPunter.ai = .MCTS ∧
    ((∃ t, mctsIter ownedPunter detOracle 2 = some t ∧ t.children = []) ∧
     ownedPunter.make_move detOracle 2 = none ∧
     (∀ p' : Punter, p'.ai = .MCTS → p'.make_move detOracle 0 = none)) :=
  ⟨rfl, C1_no_pass_no_fallback ownedPunter detOracle 2 rfl (by decide)⟩

/-!
Claim C9 — `make_move` does not mutate the board.
-/

theorem add_owner_endpoints {r r' : River} {pu : ℕ} (h : r.add_owner pu = some r') :
    riverEndpoints r' = riverEndpoints r := by
  unfold River.add_owner at h
  split at h
  · split at h
    · cases h
    · cases h; rfl
  · cases h; rfl

theorem map_endpoints_set {l : List River} {i : ℕ} {r r' : River}
    (hg : l.get? i = some r) (he : riverEndpoints r' = riverEndpoints r) :
    (l.set i r').map riverEndpoints = l.map riverEndpoints := by
  induction l generalizing i with
  | nil => simp at hg
  | cons x xs ih =>
      cases i with
      | zero =>
          simp only [List.get?] at hg
          cases hg
          simp [he]
      | succ n =>
          simp only [List.get?] at hg
          simp [ih hg]

theorem harness_move_endpoints {p : Punter} {g g' : Harness} {a : ℕ}
    (h : Harness.make_move p g a = some g') :
    g'.rivers.map riverEndpoints = g.rivers.map riverEndpoints := by
  unfold Harness.make_move at h
  split at h
  · simp only [Option.bind_eq_bind, Option.bind_eq_some, Option.pure_def,
      Option.some_inj] at h
    obtain ⟨r, hr, r', hr', hg'⟩ := h
    subst hg'
    exact map_endpoints_set hr (add_owner_endpoints hr')
  · cases h

theorem selectGo_endpoints (p : Punter) (o : Oracle) (c : ℝ) :
    ∀ (fuel : ℕ) (t : MNode) (g : Harness) (pg : List ℕ × Harness),
      selectGo p o c fuel t g = some pg →
      pg.2.rivers.map riverEndpoints = g.rivers.map riverEndpoints := by
  intro fuel
  induction fuel with
  | zero => intro t g pg h; cases h
  | succ n ih =>
      intro t g pg h
      unfold selectGo at h
      split at h
      · split at h
        · cases h; rfl
        · split at h
          · split at h
            · cases h
            · simp only [Option.bind_eq_bind, Option.bind_eq_some, Option.pure_def,
                Option.some_inj] at h
              obtain ⟨g1, hg1, pg', hpg', hpg⟩ := h
              subst hpg
              rw [ih _ _ _ hpg', harness_move_endpoints hg1]
          · cases h
      · cases h; rfl

theorem simulateFuel_endpoints (p : Punter) (o : Oracle) :
    ∀ (fuel : ℕ) (g g' : Harness), simulateFuel p o fuel g = some g' →
      g'.rivers.map riverEndpoints = g.rivers.map riverEndpoints := by
  intro fuel
  induction fuel with
  | zero => intro g g' h; cases h; rfl
  | succ n ih =>
      intro g g' h
      unfold simulateFuel at h
      simp only [Option.bind_eq_bind, Option.bind_eq_some] at h
      obtain ⟨choices, hch, h⟩ := h
      split at h
      · simp only [Option.pure_def, Option.some_inj] at h
        subst h; rfl
      · simp only [Option.bind_eq_some] at h
        obtain ⟨g1, hg1, h⟩ := h
        rw [ih _ _ h, harness_move_endpoints hg1]

theorem step_game_endpoints {p : Punter} {o : Oracle} {c : ℝ} {t : MNode}
    {g : Harness} {res : StepResult} (h : step p o c t g = some res) :
    res.game.rivers.map riverEndpoints = g.rivers.map riverEndpoints := by
  unfold step at h
  simp only [Option.bind_eq_bind, Option.bind_eq_some] at h
  obtain ⟨pg, hpg, leaf, hleaf, ex, hex, h⟩ := h
  have hsel := selectGo_endpoints p o c _ _ _ _ hpg
  split at h
  · simp only [Option.bind_eq_bind, Option.bind_eq_some] at h
    obtain ⟨g2, hg2, v, hv, h⟩ := h
    simp only [Option.pure_def, Option.some_inj] at h
    subst h
    rw [simulateFuel_endpoints p o _ _ _ hg2, hsel]
  · split at h
    · simp only [Option.pure_def, Option.some_inj] at h
      subst h
      exact hsel
    · cases h

/-- C9: `make_move` is a read-only operation on the punter state.  The
`&self` receiver is mirrored by `make_move_state`, which hands the turn
loop back the board it was given; `reset_game` starts every iteration
from a *copy* of the authoritative river vector; and any completed
search step leaves the harness's private copy agreeing with the
authoritative board on every river's endpoints and indices (the search
touches ownership of the copy only, never the graph index or the
distance oracle, which remain the fields of the unchanged punter). -/
theorem C9_board_frame (p : Punter) (o : Oracle) (iters : ℕ) :
    (p.make_move_state o iters).2 = p ∧
    (resetHarness p).rivers = p.input.map.rivers ∧
    (∀ (c : ℝ) (t : MNode) (res : StepResult),
      step p o c t (resetHarness p) = some res →
      sameEndpoints res.game.rivers p.input.map.rivers) := by
  refine ⟨rfl, rfl, ?_⟩
  intro c t res h
  exact step_game_endpoints h

/-- C9, witness: the frame theorem applied to a concrete completed step
on the 2-site board. -/
theorem C9_witness :
    ∃ res, step tinyPunter detOracle 1.4 (MNode.new none) (resetHarness tinyPunter)
        = some res ∧
      sameEndpoints res.game.rivers tinyPunter.input.map.rivers ∧
      (tinyPunter.make_move_state detOracle 1).2 = tinyPunter := by
  have h : (step tinyPunter detOracle 1.4 (MNode.new none)
      (resetHarness tinyPunter)).isSome = true := by decide
  refine ⟨Option.get _ h, (Option.some_get h).symm, ?_, ?_⟩
  · exact (C9_board_frame tinyPunter detOracle 1).2.2 1.4 (MNode.new none) _
      (Option.some_get h).symm
  · exact (C9_board_frame tinyPunter detOracle 1).1

/-!
Claims C2 and C3 — counterexamples from a concrete run.
-/

/-- C2, counterexample: on the 2-site board, the third step selects the
terminal leaf and backpropagates the leaf's cumulative score field
(`2`), while the terminal score computed from the harness at that point
is `1` — the backpropagated value is *not* `terminal_score()` in the
terminal-leaf case. -/
theorem C2_counterexample :
    ((mctsIter tinyPunter detOracle 2).bind
        (fun t => step tinyPunter detOracle 1.4 t (resetHarness tinyPunter))).map
        (fun r => (r.value, r.expanded, Harness.score tinyPunter r.game))
      = some (2, false, some 1) ∧ (2 : ℚ) ≠ 1 := by
  constructor
  · decide
  · decide

/-- C3, counterexample: after one completed step on the 2-site board the
root has one child and visit count 1, but `1 + Σ children.n = 2`: the
root (a node with at least one child) violates the claimed
`n = 1 + Σ children.n`. -/
theorem C3_counterexample :
    (mctsIter tinyPunter detOracle 1).map
        (fun t => (t.count, sumCounts t.children, t.children.length))
      = some (1, 1, 1) ∧ (1 : ℚ) ≠ 1 + 1 := by
  constructor
  · decide
  · decide

/-!
Claim C4 — river ownership lifecycle.
-/

/-- C4, counterexample: the code never compares the claiming and the
opting punter, so a claim followed by an option by the *same* punter
(punter 1 on river (0,1)) leaves `owner = renter = 1`, violating the
claimed invariant `owner ≠ renter`. -/
theorem C4_counterexample :
    (tinyPunter.process_turn [.claim 1 0 1, .option 1 0 1]).map
        (fun p' => ((p'.input.map.rivers.getD 0 default).owner,
                    (p'.input.map.rivers.getD 0 default).renter))
      = some (some 1, some 1) := by
  decide

/-- C4 (amended): for every sequence of holders applied to an initially
unowned river via `add_owner` (the single mutation path used by real
turns and by simulations alike): the first application sets `owner` and
`owner` is never overwritten; the second sets `renter` (so `renter` is
only ever set after `owner`); a third application panics
(`assert!(renter.is_none())`), so each field is set at most once; and
`owner ≠ renter` holds whenever the two holders are distinct — but
nothing prevents them from being equal. -/
theorem C4_ownership_lifecycle (r₀ : River)
    (h₀ : r₀.owner = none ∧ r₀.renter = none) (ps : List ℕ) :
    (∀ r', ps.foldlM River.add_owner r₀ = some r' →
        r'.owner = ps.get? 0 ∧ r'.renter = ps.get? 1) ∧
    (2 < ps.length → ps.foldlM River.add_owner r₀ = none) ∧
    (∀ p q r', [p, q].foldlM River.add_owner r₀ = some r' → p ≠ q →
        r'.owner ≠ r'.renter) := by
  obtain ⟨ho, hr⟩ := h₀
  refine ⟨?_, ?_, ?_⟩
  · intro r' h
    match ps with
    | [] =>
        simp only [List.foldlM] at h
        cases h
        simp [ho, hr]
    | [p] =>
        simp [List.foldlM, River.add_owner, ho, hr] at h
        subst h
        simp [hr]
    | [p, q] =>
        simp [List.foldlM, River.add_owner, ho, hr] at h
        subst h
        simp
    | p :: q :: x :: rest =>
        simp [List.foldlM, River.add_owner, ho, hr] at h
  · intro hlen
    match ps with
    | p :: q :: x :: rest =>
        simp [List.foldlM, River.add_owner, ho, hr]
  · intro p q r' h hpq
    simp [List.foldlM, River.add_owner, ho, hr] at h
    subst h
    simpa using fun he => hpq he

/-- C4, witness: the lifecycle theorem evaluated on a concrete river and
the holder sequence `[3, 7]`. -/
theorem C4_witness :
    (({ source := 0, target := 1 } : River).owner = none ∧
     ({ source := 0, target := 1 } : River).renter = none) ∧
    ((∀ r', ([3, 7] : List ℕ).foldlM River.add_owner
          ({ source := 0, target := 1 } : River) = some r' →
        r'.owner = ([3, 7] : List ℕ).get? 0 ∧
        r'.renter = ([3, 7] : List ℕ).get? 1) ∧
     (2 < ([3, 7] : List ℕ).length → ([3, 7] : List ℕ).foldlM River.add_owner
          ({ source := 0, target := 1 } : River) = none) ∧
     (∀ p q r', [p, q].foldlM River.add_owner
          ({ source := 0, target := 1 } : River) = some r' → p ≠ q →
        r'.owner ≠ r'.renter)) :=
  ⟨by decide, C4_ownership_lifecycle _ (by decide) [3, 7]⟩

end Icfp

namespace Icfp

/-!
Claim C7 — UCT1 selection.
-/

theorem getD_append_last {α : Type} [Inhabited α] (l : List α) (x : α) :
    (l ++ [x]).getD l.length default = x := by
  rw [List.getD_eq_getElem?_getD]
  simp

theorem getD_append_left {α : Type} [Inhabited α] (l l' : List α) (j : ℕ)
    (h : j < l.length) : (l ++ l').getD j default = l.getD j default :=
  List.getD_append l l' default j h

/-- Invariant-carrying characterisation of the `for child_ref in
&self.children` fold of `select_uct`: processing the tail from an
accumulator that holds the earliest strict maximum of the prefix yields
the earliest maximum of the whole list. -/
theorem select_uct_fold (v : MNode → ℝ) :
    ∀ (l pre : List MNode) (bi : ℕ),
      bi < pre.length →
      (∀ j < pre.length, v (pre.getD j default) ≤ v (pre.getD bi default)) →
      (∀ j < bi, v (pre.getD j default) < v (pre.getD bi default)) →
      (let r := (l.enumFrom pre.length).foldl
          (fun (best : ℕ × EReal) pr =>
            if best.2 < (v pr.2 : EReal) then (pr.1, (v pr.2 : EReal)) else best)
          (bi, (v (pre.getD bi default) : EReal));
        r.1 < (pre ++ l).length ∧
        (∀ j < (pre ++ l).length,
          v ((pre ++ l).getD j default) ≤ v ((pre ++ l).getD r.1 default)) ∧
        (∀ j < r.1,
          v ((pre ++ l).getD j default) < v ((pre ++ l).getD r.1 default))) := by
  intro l
  induction l with
  | nil =>
      intro pre bi hbi hmax hstrict
      simp only [List.enumFrom, List.foldl_nil, List.append_nil]
      exact ⟨hbi, hmax, hstrict⟩
  | cons x xs ih =>
      intro pre bi hbi hmax hstrict
      simp only [List.enumFrom, List.foldl_cons]
      by_cases hlt : ((v (pre.getD bi default) : EReal) < (v x : EReal))
      · rw [if_pos hlt]
        have hlt' : v (pre.getD bi default) < v x := EReal.coe_lt_coe_iff.mp hlt
        have hx : (pre ++ [x]).getD pre.length default = x := getD_append_last pre x
        have h1 : pre.length < (pre ++ [x]).length := by simp
        have h2 : ∀ j < (pre ++ [x]).length,
            v ((pre ++ [x]).getD j default) ≤ v ((pre ++ [x]).getD pre.length default) := by
          intro j hj
          rw [hx]
          simp only [List.length_append, List.length_cons, List.length_nil] at hj
          rcases Nat.lt_or_ge j pre.length with hj' | hj'
          · rw [getD_append_left pre [x] j hj']
            exact le_trans (hmax j hj') (le_of_lt hlt')
          · have : j = pre.length := by omega
            subst this
            rw [hx]
        have h3 : ∀ j < pre.length,
            v ((pre ++ [x]).getD j default) < v ((pre ++ [x]).getD pre.length default) := by
          intro j hj
          rw [hx, getD_append_left pre [x] j hj]
          exact lt_of_le_of_lt (hmax j hj) hlt'
        have := ih (pre ++ [x]) pre.length (by simp) h2 h3
        simp only [List.length_append, List.length_cons, List.length_nil,
          List.append_assoc, List.cons_append, List.nil_append] at this ⊢
        rw [hx] at this
        convert this using 3
      · rw [if_neg hlt]
        have hle' : v x ≤ v (pre.getD bi default) := by
          have := not_lt.mp hlt
          exact EReal.coe_le_coe_iff.mp this
        have hx : (pre ++ [x]).getD pre.length default = x := getD_append_last pre x
        have hbi' : (pre ++ [x]).getD bi default = pre.getD bi default :=
          getD_append_left pre [x] bi hbi
        have h2 : ∀ j < (pre ++ [x]).length,
            v ((pre ++ [x]).getD j default) ≤ v ((pre ++ [x]).getD bi default) := by
          intro j hj
          rw [hbi']
          simp only [List.length_append, List.length_cons, List.length_nil] at hj
          rcases Nat.lt_or_ge j pre.length with hj' | hj'
          · rw [getD_append_left pre [x] j hj']
            exact hmax j hj'
          · have : j = pre.length := by omega
            subst this
            rw [hx]
            exact hle'
        have h3 : ∀ j < bi,
            v ((pre ++ [x]).getD j default) < v ((pre ++ [x]).getD bi default) := by
          intro j hj
          rw [hbi', getD_append_left pre [x] j (lt_trans hj hbi)]
          exact hstrict j hj
        have := ih (pre ++ [x]) bi (by simp; omega) h2 h3
        simp only [List.length_append, List.length_cons, List.length_nil,
          List.append_assoc, List.cons_append, List.nil_append] at this ⊢
        rw [hbi'] at this
        convert this using 3

theorem mctsLoop_c_const (p : Punter) (o : Oracle) (m : MCTS) :
    ∀ (k : ℕ) (m' : MCTS), mctsLoop p o m k = some m' → m'.c = m.c := by
  intro k
  induction k with
  | zero => intro m' h; cases h; rfl
  | succ n ih =>
      intro m' h
      unfold mctsLoop at h
      simp only [Option.bind_eq_bind, Option.bind_eq_some] at h
      obtain ⟨m1, hm1, r, hr, h⟩ := h
      simp only [Option.pure_def, Option.some_inj] at h
      subst h
      exact ih m1 hm1

/-- C7: `select_uct` picks the child maximising the UCT1 value
`c.s / c.n + C * sqrt(2 * ln(p.n) / c.n)` (read over ℝ: the `f64`
expression verbatim), breaking ties in favour of the earliest-inserted
child, and the exploration constant threaded through the whole search by
`move_mcts` is the literal 1.4. -/
theorem C7_uct_selection (t : MNode) (c : ℝ) :
    (t.children = [] → t.select_uct c = none) ∧
    (t.children ≠ [] → ∃ i, t.select_uct c = some i ∧ i < t.children.length ∧
      (∀ j < t.children.length,
        uctValue c t.count (t.children.getD j default) ≤
          uctValue c t.count (t.children.getD i default)) ∧
      (∀ j < i,
        uctValue c t.count (t.children.getD j default) <
          uctValue c t.count (t.children.getD i default))) ∧
    (MCTS.new 1.4).c = 1.4 ∧
    (∀ (p : Punter) (o : Oracle) (k : ℕ) (m : MCTS),
      mctsLoop p o (MCTS.new 1.4) k = some m → m.c = 1.4) := by
  refine ⟨?_, ?_, rfl, ?_⟩
  · intro h
    simp [MNode.select_uct, h]
  · intro h
    match hch : t.children with
    | [] => exact absurd hch h
    | c0 :: rest =>
        have hfold := select_uct_fold (uctValue c t.count) rest [c0] 0
          (by simp)
          (by intro j hj
              simp only [List.length_cons, List.length_nil] at hj
              have : j = 0 := by omega
              subst this
              exact le_refl _)
          (by omega)
        simp only [List.getD_cons_zero, Nat.zero_add, List.length_cons,
          List.length_nil, List.singleton_append] at hfold
        have hsel : t.select_uct c = some ((List.enumFrom 1 rest).foldl
            (fun (best : ℕ × EReal) pr =>
              if best.2 < ((uctValue c t.count pr.2 : ℝ) : EReal) then
                (pr.1, ((uctValue c t.count pr.2 : ℝ) : EReal))
              else best)
            (0, ((uctValue c t.count c0 : ℝ) : EReal))).1 := by
          unfold MNode.select_uct
          rw [hch]
          rw [if_neg (by simp)]
          simp only [List.enum, List.enumFrom, List.foldl_cons, Nat.zero_add]
          rw [if_pos (EReal.bot_lt_coe _)]
        refine ⟨_, hsel, ?_, ?_, ?_⟩
        · simpa using hfold.1
        · simpa using hfold.2.1
        · simpa using hfold.2.2
  · exact fun p o k m hm => mctsLoop_c_const p o _ k m hm

end Icfp

namespace Icfp

/-- C7, witness: the selection theorem evaluated on a childless node, on
a concrete two-child node, and on a concrete one-iteration search. -/
theorem C7_witness :
    ((MNode.new none).select_uct 1.4 = none) ∧
    (∃ i, (MNode.mk none [MNode.new (some 5), MNode.new (some 6)]
        .Expanded 3 2).select_uct 1.4 = some i ∧
      i < (MNode.mk none [MNode.new (some 5), MNode.new (some 6)]
        .Expanded 3 2).children.length ∧
      (∀ j < (MNode.mk none [MNode.new (some 5), MNode.new (some 6)]
          .Expanded 3 2).children.length,
        uctValue 1.4 (MNode.mk none [MNode.new (some 5), MNode.new (some 6)]
            .Expanded 3 2).count
            ((MNode.mk none [MNode.new (some 5), MNode.new (some 6)]
              .Expanded 3 2).children.getD j default) ≤
          uctValue 1.4 (MNode.mk none [MNode.new (some 5), MNode.new (some 6)]
            .Expanded 3 2).count
            ((MNode.mk none [MNode.new (some 5), MNode.new (some 6)]
              .Expanded 3 2).children.getD i default)) ∧
      (∀ j < i,
        uctValue 1.4 (MNode.mk none [MNode.new (some 5), MNode.new (some 6)]
            .Expanded 3 2).count
            ((MNode.mk none [MNode.new (some 5), MNode.new (some 6)]
              .Expanded 3 2).children.getD j default) <
          uctValue 1.4 (MNode.mk none [MNode.new (some 5), MNode.new (some 6)]
            .Expanded 3 2).count
            ((MNode.mk none [MNode.new (some 5), MNode.new (some 6)]
              .Expanded 3 2).children.getD i default))) ∧
    (∃ m, mctsLoop tinyPunter detOracle (MCTS.new 1.4) 1 = some m ∧ m.c = 1.4) := by
  have h : (mctsLoop tinyPunter detOracle (MCTS.new 1.4) 1).isSome = true := by decide
  refine ⟨(C7_uct_selection (MNode.new none) 1.4).1 rfl,
    (C7_uct_selection _ 1.4).2.1 (by simp [MNode.children]),
    Option.get _ h, (Option.some_get h).symm,
    (C7_uct_selection (MNode.new none) 1.4).2.2.2 tinyPunter detOracle 1 _
      (Option.some_get h).symm⟩

end Icfp

namespace Icfp

/-!
Claim C8 — symmetry of `find_river`.
-/

theorem getD_drop_nat (l : List ℕ) (n i : ℕ) :
    (l.drop n).getD i 0 = l.getD (n + i) 0 := by
  rw [List.getD_eq_getElem?_getD, List.getD_eq_getElem?_getD, List.getElem?_drop]

theorem getD_take_nat (l : List ℕ) (n i : ℕ) (h : i < n) :
    (l.take n).getD i 0 = l.getD i 0 := by
  rw [List.getD_eq_getElem?_getD, List.getD_eq_getElem?_getD,
    List.getElem?_take_of_lt h]

theorem getD_of_get? {l : List ℕ} {i x : ℕ} (h : l.get? i = some x) :
    l.getD i 0 = x := by
  rw [List.getD_eq_getElem?_getD, ← List.get?_eq_getElem?, h]
  rfl

/-- Soundness of the binary-search loop: a found position is in range
and its key matches the target. -/
theorem bsearchGo_some (key : ℕ → ℕ) (target : ℕ) :
    ∀ (fuel : ℕ) (s : List ℕ) (base j : ℕ), s.length < fuel →
      bsearchGo key target fuel s base = some j →
      base ≤ j ∧ j - base < s.length ∧ key (s.getD (j - base) 0) = target := by
  intro fuel
  induction fuel with
  | zero => intro s base j hf h; cases h
  | succ n ih =>
      intro s base j hf h
      unfold bsearchGo at h
      split at h
      · cases h
      · rename_i x hx
        have hhl : s.length / 2 < s.length := by
          rcases List.get?_eq_some.mp hx with ⟨hlt, _⟩
          exact hlt
        split at h
        · have hdl : (s.drop (s.length / 2 + 1)).length < n := by
            rw [List.length_drop]; omega
          obtain ⟨h1, h2, h3⟩ := ih _ _ _ hdl h
          rw [List.length_drop] at h2
          rw [getD_drop_nat] at h3
          refine ⟨by omega, by omega, ?_⟩
          have : s.length / 2 + 1 + (j - (base + s.length / 2 + 1)) = j - base := by
            omega
          rwa [this] at h3
        · split at h
          · have htl : (s.take (s.length / 2)).length < n := by
              rw [List.length_take]; omega
            obtain ⟨h1, h2, h3⟩ := ih _ _ _ htl h
            rw [List.length_take] at h2
            rw [getD_take_nat _ _ _ (by omega)] at h3
            exact ⟨h1, by omega, h3⟩
          · cases h
            rename_i hlt hgt
            have hkey : key x = target := by omega
            refine ⟨by omega, by simpa using hhl, ?_⟩
            have : base + s.length / 2 - base = s.length / 2 := by omega
            rw [this, getD_of_get? hx, hkey]

/-- Completeness of the binary-search loop on a key-sorted list: if some
position holds the target key, the search succeeds. -/
theorem bsearchGo_complete (key : ℕ → ℕ) (target : ℕ) :
    ∀ (fuel : ℕ) (s : List ℕ) (base : ℕ), s.length < fuel →
      (∀ i j : ℕ, i ≤ j → j < s.length → key (s.getD i 0) ≤ key (s.getD j 0)) →
      (∃ r, r < s.length ∧ key (s.getD r 0) = target) →
      (bsearchGo key target fuel s base).isSome = true := by
  intro fuel
  induction fuel with
  | zero =>
      intro s base hf hsort ⟨r, hr, _⟩
      omega
  | succ n ih =>
      intro s base hf hsort ⟨r, hr, hkr⟩
      unfold bsearchGo
      split
      · rename_i hx
        have := List.get?_eq_none.mp hx
        omega
      · rename_i x hx
        have hhl : s.length / 2 < s.length := by
          rcases List.get?_eq_some.mp hx with ⟨hlt, _⟩
          exact hlt
        have hxval : s.getD (s.length / 2) 0 = x := getD_of_get? hx
        split
        · rename_i hlt
          apply ih
          · rw [List.length_drop]; omega
          · intro i j hij hj
            rw [List.length_drop] at hj
            rw [getD_drop_nat, getD_drop_nat]
            exact hsort _ _ (by omega) (by omega)
          · have hrgt : s.length / 2 < r := by
              by_contra hle
              have := hsort r (s.length / 2) (by omega) hhl
              rw [hxval, hkr] at this
              omega
            refine ⟨r - (s.length / 2 + 1), ?_, ?_⟩
            · rw [List.length_drop]; omega
            · rw [getD_drop_nat]
              have : s.length / 2 + 1 + (r - (s.length / 2 + 1)) = r := by omega
              rw [this, hkr]
        · split
          · rename_i hlt hgt
            apply ih
            · rw [List.length_take]; omega
            · intro i j hij hj
              rw [List.length_take] at hj
              rw [getD_take_nat _ _ _ (by omega), getD_take_nat _ _ _ (by omega)]
              exact hsort _ _ hij (by omega)
            · have hrlt : r < s.length / 2 := by
                by_contra hle
                have := hsort (s.length / 2) r (by omega) hr
                rw [hxval, hkr] at this
                omega
              refine ⟨r, ?_, ?_⟩
              · rw [List.length_take]; omega
              · rw [getD_take_nat _ _ _ hrlt, hkr]
          · rfl

end Icfp

namespace Icfp

theorem sortByKey_sorted (key : ℕ → ℕ) (l : List ℕ) :
    ∀ i j : ℕ, i ≤ j → j < (sortByKey key l).length →
      key ((sortByKey key l).getD i 0) ≤ key ((sortByKey key l).getD j 0) := by
  haveI : IsTotal ℕ (fun a b => key a ≤ key b) :=
    ⟨fun a b => Nat.le_total (key a) (key b)⟩
  haveI : IsTrans ℕ (fun a b => key a ≤ key b) :=
    ⟨fun a b c h1 h2 => le_trans h1 h2⟩
  have hs := List.sorted_insertionSort (fun a b => key a ≤ key b) l
  intro i j hij hj
  rcases Nat.lt_or_ge i j with hlt | hge
  · have hi : i < (sortByKey key l).length := lt_trans hlt hj
    have := List.Sorted.rel_get_of_lt (l := sortByKey key l) hs
      (a := ⟨i, hi⟩) (b := ⟨j, hj⟩) hlt
    rw [List.getD_eq_getElem?_getD, List.getD_eq_getElem?_getD,
      List.getElem?_eq_getElem hi, List.getElem?_eq_getElem hj]
    simpa [List.get_eq_getElem] using this
  · have : i = j := by omega
    subst this
    exact le_refl _

theorem mem_sortByKey (key : ℕ → ℕ) (l : List ℕ) (x : ℕ) :
    x ∈ sortByKey key l ↔ x ∈ l :=
  (List.perm_insertionSort _ l).mem_iff

theorem mem_modify_append (edges : List (List ℕ)) (i v s x : ℕ)
    (hs : s < edges.length) :
    (x ∈ (edges.modify (fun l => l ++ [v]) i).getD s [] ↔
      x ∈ edges.getD s [] ∨ (i = s ∧ x = v)) := by
  rw [List.getD_eq_getElem?_getD, List.getD_eq_getElem?_getD,
    List.getElem?_modify, List.getElem?_eq_getElem hs]
  by_cases his : i = s
  · simp [his]
  · simp [his]

theorem length_bucketRivers :
    ∀ (rivers : List River) (idx : ℕ) (edges : List (List ℕ)),
      (bucketRivers rivers idx edges).length = edges.length := by
  intro rivers
  induction rivers with
  | nil => intro idx edges; rfl
  | cons r rs ih =>
      intro idx edges
      unfold bucketRivers
      rw [ih]
      simp [List.length_modify]

theorem mem_bucketRivers (s ridx : ℕ) :
    ∀ (rivers : List River) (idx : ℕ) (edges : List (List ℕ)), s < edges.length →
      (ridx ∈ (bucketRivers rivers idx edges).getD s [] ↔
        ridx ∈ edges.getD s [] ∨ ∃ k, k < rivers.length ∧ ridx = idx + k ∧
          ((rivers.getD k default).source_idx = s ∨
           (rivers.getD k default).target_idx = s)) := by
  intro rivers
  induction rivers with
  | nil =>
      intro idx edges hs
      simp [bucketRivers]
  | cons r rs ih =>
      intro idx edges hs
      unfold bucketRivers
      rw [ih _ _ (by simp [List.length_modify, hs])]
      rw [mem_modify_append _ _ _ _ _ (by simp [List.length_modify, hs]),
        mem_modify_append _ _ _ _ _ hs]
      constructor
      · rintro (((hm | ⟨hsrc, hx⟩) | ⟨htgt, hx⟩) | ⟨k, hk, hx, hP⟩)
        · exact Or.inl hm
        · exact Or.inr ⟨0, by simp, by omega, Or.inl (by simpa using hsrc)⟩
        · exact Or.inr ⟨0, by simp, by omega, Or.inr (by simpa using htgt)⟩
        · exact Or.inr ⟨k + 1, by simpa using hk, by omega, by simpa using hP⟩
      · rintro (hm | ⟨k, hk, hx, hP⟩)
        · exact Or.inl (Or.inl (Or.inl hm))
        · cases k with
          | zero =>
              simp only [List.getD_cons_zero] at hP
              rcases hP with hsrc | htgt
              · exact Or.inl (Or.inl (Or.inr ⟨hsrc, by omega⟩))
              · exact Or.inl (Or.inr ⟨htgt, by omega⟩)
          | succ k' =>
              refine Or.inr ⟨k', by simpa using hk, by omega, ?_⟩
              simpa using hP

theorem getD_enum_map_lists (l : List (List ℕ)) (f : ℕ → List ℕ → List ℕ) (s : ℕ)
    (hs : s < l.length) :
    (l.enum.map (fun p => f p.1 p.2)).getD s [] = f s (l.getD s []) := by
  rw [List.getD_eq_getElem?_getD, List.getD_eq_getElem?_getD,
    List.getElem?_map, List.getElem?_enum, List.getElem?_eq_getElem hs]
  rfl

theorem computeEdges_length (m : InputMap) :
    (computeEdges m).length = m.sites.length := by
  unfold computeEdges
  simp [length_bucketRivers]

theorem computeEdges_getD (m : InputMap) (s : ℕ) (hs : s < m.sites.length) :
    (computeEdges m).getD s [] =
      sortByKey (fun r => riverOtherIndex m.rivers r s)
        ((bucketRivers m.rivers 0 (List.replicate m.sites.length [])).getD s []) := by
  unfold computeEdges
  exact getD_enum_map_lists
    (bucketRivers m.rivers 0 (List.replicate m.sites.length []))
    (fun s l => sortByKey (fun r => riverOtherIndex m.rivers r s) l) s
    (by rw [length_bucketRivers]; simpa using hs)

theorem mem_computeEdges (m : InputMap) (s ridx : ℕ) (hs : s < m.sites.length) :
    ridx ∈ (computeEdges m).getD s [] ↔
      ridx < m.rivers.length ∧
        ((m.rivers.getD ridx default).source_idx = s ∨
         (m.rivers.getD ridx default).target_idx = s) := by
  rw [computeEdges_getD m s hs, mem_sortByKey,
    mem_bucketRivers s ridx m.rivers 0 _ (by simpa using hs)]
  constructor
  · rintro (hm | ⟨k, hk, hx, hP⟩)
    · exfalso
      rw [List.getD_eq_getElem?_getD] at hm
      rcases Nat.lt_or_ge s m.sites.length with h' | h'
      · rw [List.getElem?_eq_getElem (by simpa using h')] at hm
        simp at hm
      · omega
    · have : ridx = k := by omega
      subst this
      exact ⟨hk, hP⟩
  · intro ⟨hk, hP⟩
    exact Or.inr ⟨ridx, hk, by omega, hP⟩

end Icfp

namespace Icfp

theorem getD_mem {l : List ℕ} {j : ℕ} (h : j < l.length) : l.getD j 0 ∈ l := by
  rw [List.getD_eq_getElem?_getD, List.getElem?_eq_getElem h]
  exact List.getElem_mem h

theorem site_getD_append_last (l : List Site) (x : Site) :
    (l ++ [x]).getD l.length default = x := by
  rw [List.getD_eq_getElem?_getD]
  simp

theorem site_getD_append_left (l l' : List Site) (j : ℕ) (h : j < l.length) :
    (l ++ l').getD j default = l.getD j default :=
  List.getD_append l l' default j h

theorem siteFold_mem (id : ℕ) :
    ∀ sites : List Site, siteIdPresent sites id →
      ∃ i, sites.enum.foldl
          (fun acc p => if p.2.id = id then some p.1 else acc) none = some i ∧
        i < sites.length ∧ (sites.getD i default).id = id := by
  intro sites
  induction sites using List.reverseRecOn with
  | nil => rintro ⟨s, hs, _⟩; cases hs
  | append_singleton l x ih =>
      intro hpres
      rw [List.enum_append, List.foldl_append]
      show ∃ i, (if x.id = id then some l.length else _) = some i ∧ _
      by_cases hx : x.id = id
      · refine ⟨l.length, by rw [if_pos hx], by simp, ?_⟩
        rw [site_getD_append_last, hx]
      · rw [if_neg hx]
        obtain ⟨s, hs, hsid⟩ := hpres
        rcases List.mem_append.mp hs with hsl | hsx
        · obtain ⟨i, hfold, hi, hgd⟩ := ih ⟨s, hsl, hsid⟩
          refine ⟨i, hfold, by simp; omega, ?_⟩
          rw [site_getD_append_left _ _ _ hi]
          exact hgd
        · exfalso
          rw [List.mem_singleton.mp hsx] at hsid
          exact hx hsid

theorem siteIndexFn_spec (sites : List Site) (id : ℕ) (h : siteIdPresent sites id) :
    siteIndexFn sites id < sites.length ∧
    (sites.getD (siteIndexFn sites id) default).id = id := by
  obtain ⟨i, hfold, hi, hgd⟩ := siteFold_mem id sites h
  unfold siteIndexFn
  rw [hfold]
  exact ⟨hi, hgd⟩

theorem siteIndexFn_inj (sites : List Site) (a b : ℕ)
    (ha : siteIdPresent sites a) (hb : siteIdPresent sites b)
    (h : siteIndexFn sites a = siteIndexFn sites b) : a = b := by
  have h1 := (siteIndexFn_spec sites a ha).2
  have h2 := (siteIndexFn_spec sites b hb).2
  rw [h] at h1
  rw [h1] at h2
  exact h2

theorem other_index_endpoints (r : River) (si ti : ℕ) :
    ((r.source_idx = si ∨ r.target_idx = si) ∧ r.other_index si = ti) ↔
      ((r.source_idx = si ∧ r.target_idx = ti) ∨
       (r.target_idx = si ∧ r.source_idx = ti)) := by
  unfold River.other_index
  by_cases h : si = r.source_idx
  · rw [if_pos h]
    constructor
    · rintro ⟨_, hother⟩
      exact Or.inl ⟨h.symm, hother⟩
    · rintro (⟨hsrc, htgt⟩ | ⟨htgt, hsrc⟩)
      · exact ⟨Or.inl hsrc, htgt⟩
      · refine ⟨Or.inr htgt, ?_⟩
        rw [htgt, h]
        exact hsrc
  · rw [if_neg h]
    constructor
    · rintro ⟨hinc, hother⟩
      rcases hinc with hsrc | htgt
      · exact absurd hsrc.symm h
      · exact Or.inr ⟨htgt, hother⟩
    · rintro (⟨hsrc, htgt⟩ | ⟨htgt, hsrc⟩)
      · exact absurd hsrc.symm h
      · exact ⟨Or.inr htgt, hsrc⟩

theorem indexRivers_getD (m : InputMap) (k : ℕ) (hk : k < m.rivers.length) :
    (indexRivers m).rivers.getD k default =
      { m.rivers.getD k default with
        source_idx := siteIndexFn m.sites (m.rivers.getD k default).source,
        target_idx := siteIndexFn m.sites (m.rivers.getD k default).target } := by
  unfold indexRivers
  rw [List.getD_eq_getElem?_getD, List.getD_eq_getElem?_getD, List.getElem?_map,
    List.getElem?_eq_getElem hk]
  rfl

theorem idx_joins_iff_id_joins (m : InputMap) (k : ℕ) (hk : k < m.rivers.length)
    (hriv : ∀ r ∈ m.rivers, siteIdPresent m.sites r.source ∧
      siteIdPresent m.sites r.target)
    (a b : ℕ) (ha : siteIdPresent m.sites a) (hb : siteIdPresent m.sites b) :
    ((((indexRivers m).rivers.getD k default).source_idx = siteIndexFn m.sites a ∧
      ((indexRivers m).rivers.getD k default).target_idx = siteIndexFn m.sites b) ∨
     (((indexRivers m).rivers.getD k default).target_idx = siteIndexFn m.sites a ∧
      ((indexRivers m).rivers.getD k default).source_idx = siteIndexFn m.sites b)) ↔
      riverJoins (m.rivers.getD k default) a b := by
  have hmem : m.rivers.getD k default ∈ m.rivers := by
    rw [List.getD_eq_getElem?_getD, List.getElem?_eq_getElem hk]
    exact List.getElem_mem hk
  obtain ⟨hps, hpt⟩ := hriv _ hmem
  rw [indexRivers_getD m k hk]
  unfold riverJoins
  constructor
  · rintro (⟨h1, h2⟩ | ⟨h1, h2⟩)
    · exact Or.inl ⟨siteIndexFn_inj _ _ _ hps ha h1, siteIndexFn_inj _ _ _ hpt hb h2⟩
    · exact Or.inr ⟨siteIndexFn_inj _ _ _ hps hb h2, siteIndexFn_inj _ _ _ hpt ha h1⟩
  · rintro (⟨h1, h2⟩ | ⟨h1, h2⟩)
    · exact Or.inl ⟨by rw [h1], by rw [h2]⟩
    · exact Or.inr ⟨by rw [h2], by rw [h1]⟩

end Icfp

namespace Icfp

theorem find_river_sound (input : Input) (ai : PunterType)
    (hriv : ∀ r ∈ input.map.rivers,
      siteIdPresent input.map.sites r.source ∧ siteIdPresent input.map.sites r.target)
    (x y : ℕ) (hx : siteIdPresent input.map.sites x)
    (hy : siteIdPresent input.map.sites y) (k : ℕ)
    (h : (Punter.new input ai).find_river x y = some k) :
    k < input.map.rivers.length ∧ riverJoins (input.map.rivers.getD k default) x y := by
  have hsx := siteIndexFn_spec input.map.sites x hx
  have hsy := siteIndexFn_spec input.map.sites y hy
  unfold Punter.find_river at h
  simp only [Option.map_eq_some'] at h
  obtain ⟨j, hj, hk⟩ := h
  have hsound := bsearchGo_some _ _ _ _ _ _ (by omega) hj
  rw [Nat.sub_zero] at hsound
  obtain ⟨-, hjlt, hkey⟩ := hsound
  subst hk
  have hmem : ((Punter.new input ai).edges.getD
      (siteIndexFn (Punter.new input ai).input.map.sites x) []).getD j 0 ∈
      (Punter.new input ai).edges.getD
        (siteIndexFn (Punter.new input ai).input.map.sites x) [] := getD_mem hjlt
  have hsites : (Punter.new input ai).input.map.sites = input.map.sites := rfl
  rw [hsites] at hmem hkey ⊢
  have hedges : (Punter.new input ai).edges = computeEdges (indexRivers input.map) :=
    rfl
  rw [hedges] at hmem hkey
  have hsx' : siteIndexFn input.map.sites x < (indexRivers input.map).sites.length := by
    simpa [indexRivers] using hsx.1
  rw [mem_computeEdges _ _ _ hsx'] at hmem
  obtain ⟨hklen, hinc⟩ := hmem
  have hklen' : (((computeEdges (indexRivers input.map)).getD
      (siteIndexFn input.map.sites x) []).getD j 0) < input.map.rivers.length := by
    simpa [indexRivers] using hklen
  refine ⟨hklen', ?_⟩
  have hrr : (Punter.new input ai).input.map.rivers = (indexRivers input.map).rivers :=
    rfl
  rw [hrr] at hkey
  have hoth : (((indexRivers input.map).rivers.getD
      (((computeEdges (indexRivers input.map)).getD
        (siteIndexFn input.map.sites x) []).getD j 0) default).other_index
      (siteIndexFn input.map.sites x)) = siteIndexFn input.map.sites y := hkey
  have hidx := (other_index_endpoints _ _ _).mp ⟨by simpa [indexRivers] using hinc, hoth⟩
  exact (idx_joins_iff_id_joins input.map _ hklen' hriv x y hx hy).mp hidx

theorem find_river_complete (input : Input) (ai : PunterType)
    (hriv : ∀ r ∈ input.map.rivers,
      siteIdPresent input.map.sites r.source ∧ siteIdPresent input.map.sites r.target)
    (x y : ℕ) (hx : siteIdPresent input.map.sites x)
    (hy : siteIdPresent input.map.sites y) (k : ℕ)
    (hk : k < input.map.rivers.length)
    (hjoin : riverJoins (input.map.rivers.getD k default) x y) :
    ((Punter.new input ai).find_river x y).isSome = true := by
  have hsx := siteIndexFn_spec input.map.sites x hx
  have hidx := (idx_joins_iff_id_joins input.map k hk hriv x y hx hy).mpr hjoin
  have hoth := (other_index_endpoints
      ((indexRivers input.map).rivers.getD k default)
      (siteIndexFn input.map.sites x) (siteIndexFn input.map.sites y)).mpr hidx
  unfold Punter.find_river
  simp only [Option.isSome_map']
  have hsites : (Punter.new input ai).input.map.sites = input.map.sites := rfl
  have hedges : (Punter.new input ai).edges = computeEdges (indexRivers input.map) :=
    rfl
  have hrr : (Punter.new input ai).input.map.rivers = (indexRivers input.map).rivers :=
    rfl
  rw [hsites, hedges, hrr]
  have hsx' : siteIndexFn input.map.sites x < (indexRivers input.map).sites.length := by
    simpa [indexRivers] using hsx.1
  have hmem : k ∈ (computeEdges (indexRivers input.map)).getD
      (siteIndexFn input.map.sites x) [] := by
    rw [mem_computeEdges _ _ _ hsx']
    refine ⟨by simpa [indexRivers] using hk, hoth.1⟩
  obtain ⟨⟨r, hr⟩, hrk⟩ := List.mem_iff_get.mp hmem
  apply bsearchGo_complete
  · omega
  · -- sortedness of the incidence list
    intro i j hij hj
    have := sortByKey_sorted
      (fun rr => riverOtherIndex (indexRivers input.map).rivers rr
        (siteIndexFn input.map.sites x))
      ((bucketRivers (indexRivers input.map).rivers 0
        (List.replicate (indexRivers input.map).sites.length [])).getD
          (siteIndexFn input.map.sites x) []) i j hij
    rw [← computeEdges_getD _ _ hsx'] at this
    exact this hj
  · refine ⟨r, hr, ?_⟩
    have : ((computeEdges (indexRivers input.map)).getD
        (siteIndexFn input.map.sites x) []).getD r 0 = k := by
      rw [List.getD_eq_getElem?_getD, List.getElem?_eq_getElem hr]
      simpa [List.get_eq_getElem] using hrk
    rw [this]
    exact hoth.2

end Icfp

namespace Icfp

/-- C8, counterexample: with two parallel rivers (1,2) (indices 1 and 2)
and a river (0,2), the two binary searches probe differently sized
incidence lists and land on *different* parallel duplicates:
`find(1,2) = Ok(2)` while `find(2,1) = Ok(1)`. -/
theorem C8_counterexample :
    multiPunter.find_river 1 2 = some 2 ∧ multiPunter.find_river 2 1 = some 1 ∧
    (2 : ℕ) ≠ 1 := by
  refine ⟨by decide, by decide, by decide⟩

/-- C8 (amended): for site ids `a`, `b` present in the setup's site list
(with all river endpoints present), `find(a,b)` succeeds exactly when
some river joins the endpoint pair `{a,b}` — so existence of a result is
always symmetric — and `find(a,b) = find(b,a)` holds whenever at most
one river joins that pair; parallel rivers may make the two searches
return different (equally valid) river indices. -/
theorem C8_find_symmetric (input : Input) (ai : PunterType)
    (hriv : ∀ r ∈ input.map.rivers,
      siteIdPresent input.map.sites r.source ∧ siteIdPresent input.map.sites r.target)
    (a b : ℕ) (ha : siteIdPresent input.map.sites a)
    (hb : siteIdPresent input.map.sites b) :
    (((Punter.new input ai).find_river a b).isSome = true ↔
      ∃ k, k < input.map.rivers.length ∧
        riverJoins (input.map.rivers.getD k default) a b) ∧
    ((∀ k₁ k₂, k₁ < input.map.rivers.length → k₂ < input.map.rivers.length →
        riverJoins (input.map.rivers.getD k₁ default) a b →
        riverJoins (input.map.rivers.getD k₂ default) a b → k₁ = k₂) →
      (Punter.new input ai).find_river a b = (Punter.new input ai).find_river b a) := by
  have hsymm : ∀ k, riverJoins (input.map.rivers.getD k default) b a ↔
      riverJoins (input.map.rivers.getD k default) a b := by
    intro k
    unfold riverJoins
    exact Or.comm
  constructor
  · constructor
    · intro hsome
      obtain ⟨k, hk⟩ := Option.isSome_iff_exists.mp hsome
      obtain ⟨hlen, hjoin⟩ := find_river_sound input ai hriv a b ha hb k hk
      exact ⟨k, hlen, hjoin⟩
    · rintro ⟨k, hk, hjoin⟩
      exact find_river_complete input ai hriv a b ha hb k hk hjoin
  · intro huniq
    rcases hab : (Punter.new input ai).find_river a b with _ | k₁
    · rcases hba : (Punter.new input ai).find_river b a with _ | k₂
      · rfl
      · exfalso
        obtain ⟨hlen, hjoin⟩ := find_river_sound input ai hriv b a hb ha k₂ hba
        have := find_river_complete input ai hriv a b ha hb k₂ hlen
          ((hsymm k₂).mp hjoin)
        rw [hab] at this
        cases this
    · obtain ⟨hlen₁, hjoin₁⟩ := find_river_sound input ai hriv a b ha hb k₁ hab
      have hsome := find_river_complete input ai hriv b a hb ha k₁ hlen₁
        ((hsymm k₁).mpr hjoin₁)
      obtain ⟨k₂, hk₂⟩ := Option.isSome_iff_exists.mp hsome
      obtain ⟨hlen₂, hjoin₂⟩ := find_river_sound input ai hriv b a hb ha k₂ hk₂
      rw [hk₂]
      have := huniq k₁ k₂ hlen₁ hlen₂ hjoin₁ ((hsymm k₂).mp hjoin₂)
      rw [this]

/-- C8, witness: the symmetry theorem applied to the sample graph (whose
rivers have pairwise distinct endpoint pairs) at the pair (1, 3). -/
theorem C8_witness :
    (∀ r ∈ sampleMap.rivers,
      siteIdPresent sampleMap.sites r.source ∧ siteIdPresent sampleMap.sites r.target) ∧
    ((((Punter.new { punter := 1, punters := 2, map := sampleMap } .MCTS).find_river
        1 3).isSome = true ↔
      ∃ k, k < sampleMap.rivers.length ∧
        riverJoins (sampleMap.rivers.getD k default) 1 3) ∧
     ((∀ k₁ k₂, k₁ < sampleMap.rivers.length → k₂ < sampleMap.rivers.length →
        riverJoins (sampleMap.rivers.getD k₁ default) 1 3 →
        riverJoins (sampleMap.rivers.getD k₂ default) 1 3 → k₁ = k₂) →
      (Punter.new { punter := 1, punters := 2, map := sampleMap } .MCTS).find_river
          1 3 =
        (Punter.new { punter := 1, punters := 2, map := sampleMap } .MCTS).find_river
          3 1)) :=
  ⟨by decide, C8_find_symmetric { punter := 1, punters := 2, map := sampleMap } .MCTS
    (by decide) 1 3 (by decide) (by decide)⟩

end Icfp

namespace Icfp

/-!
Claims C5, C6, C10 — the distance oracle and the scorer.

The two BFS loops are verified through preserved invariants: queue
members are in range and marked; marked entries are reachable; every
marked entry is either still queued or already relaxed; and a counting
measure shows the supplied fuel always drains the queue.
-/

theorem getD_set_self {l : List ℕ} {i v : ℕ} (h : i < l.length) :
    (l.set i v).getD i 0 = v := by
  rw [List.getD_eq_getElem?_getD, List.getElem?_set_self h]
  rfl

theorem getD_set_other {l : List ℕ} {i j v : ℕ} (h : i ≠ j) :
    (l.set i v).getD j 0 = l.getD j 0 := by
  rw [List.getD_eq_getElem?_getD, List.getD_eq_getElem?_getD,
    List.getElem?_set_ne h]

theorem finCount_le_length (d : List ℕ) : finCount d ≤ d.length :=
  List.countP_le_length _

theorem finCount_set {d : List ℕ} {i v : ℕ} (hi : i < d.length)
    (hold : d.getD i 0 = INF) (hnew : v ≠ INF) :
    finCount (d.set i v) = finCount d + 1 := by
  induction d generalizing i with
  | nil => simp at hi
  | cons x xs ih =>
      cases i with
      | zero =>
          simp only [List.getD_cons_zero] at hold
          subst hold
          simp [finCount, List.countP_cons, hnew]
      | succ n =>
          simp only [List.getD_cons_succ] at hold
          have := ih (by simpa using hi) hold
          show finCount (x :: xs.set n v) = _
          simp only [finCount, List.countP_cons] at this ⊢
          omega

theorem finCount_pos_of_fin {d : List ℕ} {i : ℕ} (hi : i < d.length)
    (hfin : d.getD i 0 ≠ INF) : 0 < finCount d := by
  induction d generalizing i with
  | nil => simp at hi
  | cons x xs ih =>
      cases i with
      | zero =>
          simp only [List.getD_cons_zero] at hfin
          simp [finCount, List.countP_cons, hfin]
      | succ n =>
          have := ih (by simpa using hi) (by simpa using hfin)
          simp only [finCount, List.countP_cons] at this ⊢
          omega

theorem DistMono.rfl (d : List ℕ) : DistMono d d := fun _ _ => Eq.refl _

theorem DistMono.comp {d₁ d₂ d₃ : List ℕ} (h₁ : DistMono d₁ d₂)
    (h₂ : DistMono d₂ d₃) : DistMono d₁ d₃ := by
  intro s hfin
  rw [h₂ s (by rw [h₁ s hfin]; exact hfin), h₁ s hfin]

theorem Relaxed.mono {rivers : List River} {edges : List (List ℕ)}
    {d d' : List ℕ} {s : ℕ} (hm : DistMono d d')
    (hr : Relaxed rivers edges d s) (hsfin : d.getD s 0 ≠ INF) :
    Relaxed rivers edges d' s := by
  intro ridx hridx
  obtain ⟨hnb, hle⟩ := hr ridx hridx
  rw [hm _ hnb, hm _ hsfin]
  exact ⟨hnb, hle⟩

end Icfp

namespace Icfp

theorem INF_pos : 0 < INF := by decide

theorem distMono_set {d : List ℕ} {nb v : ℕ} (h : d.getD nb 0 = INF) :
    DistMono d (d.set nb v) := by
  intro x hx
  have : x ≠ nb := fun he => hx (he ▸ h)
  exact getD_set_other (fun he => this he.symm)

/-- Effect of the inner relaxation `for` loop of the oracle BFS on one
popped site `s` at distance `sd`: every processed neighbour ends up
computed within `sd + 1`; newly computed entries are exactly the pushed
sites, all neighbours of `s` holding `sd + 1`. -/
theorem spRelax_fold (rivers : List River) (edges : List (List ℕ))
    (n root s sd : ℕ) (hn : n < INF)
    (hreach : Relation.ReflTransGen (bfsAdj rivers edges) root s) (hs : s < n) :
    ∀ (lst : List ℕ) (d : List ℕ) (rest : List ℕ),
      d.length = n →
      (∀ ridx ∈ lst, ridx ∈ edges.getD s []) →
      (∀ ridx ∈ lst, (rivers.getD ridx default).other_index s < n) →
      d.getD s 0 = sd → sd ≠ INF → sd < finCount d →
      d.getD root 0 = 0 →
      (∀ x ∈ rest, x < n) →
      (∀ x ∈ rest, d.getD x 0 ≠ INF) →
      (∀ x, x < n → d.getD x 0 ≠ INF →
        Relation.ReflTransGen (bfsAdj rivers edges) root x) →
      (∀ x, x < n → d.getD x 0 ≠ INF → d.getD x 0 < finCount d) →
      (∀ x, x < n → d.getD x 0 ≠ INF → d.getD x 0 ≤ sd + 1) →
      (∀ y ∈ rest, sd ≤ d.getD y 0) →
      (∀ x, x < n → d.getD x 0 ≠ INF →
        x ∈ s :: rest ∨ Relaxed rivers edges d x) →
      ∃ pushed,
        (lst.foldl (spRelax rivers s sd) (d, rest)).1.length = n ∧
        (lst.foldl (spRelax rivers s sd) (d, rest)).2 = rest ++ pushed ∧
        DistMono d (lst.foldl (spRelax rivers s sd) (d, rest)).1 ∧
        finCount (lst.foldl (spRelax rivers s sd) (d, rest)).1 =
          finCount d + pushed.length ∧
        (∀ x ∈ pushed, x < n ∧
          (lst.foldl (spRelax rivers s sd) (d, rest)).1.getD x 0 = sd + 1 ∧
          bfsAdj rivers edges s x) ∧
        (∀ x, (lst.foldl (spRelax rivers s sd) (d, rest)).1.getD x 0 ≠ INF →
          d.getD x 0 ≠ INF ∨ x ∈ pushed) ∧
        (∀ ridx ∈ lst,
          (lst.foldl (spRelax rivers s sd) (d, rest)).1.getD
            ((rivers.getD ridx default).other_index s) 0 ≠ INF ∧
          (lst.foldl (spRelax rivers s sd) (d, rest)).1.getD
            ((rivers.getD ridx default).other_index s) 0 ≤ sd + 1) ∧
        (∀ x, x < n →
          (lst.foldl (spRelax rivers s sd) (d, rest)).1.getD x 0 ≠ INF →
          x ∈ rest ++ pushed ∨ x = s ∨
            Relaxed rivers edges (lst.foldl (spRelax rivers s sd) (d, rest)).1 x) := by
  intro lst
  induction lst with
  | nil =>
      intro d rest hdlen hsub hrange hsd hsdINF hsdb hroot0 hrlt hrfin hfre hfbd hfle
        hrge hrel
      refine ⟨[], hdlen, by simp, DistMono.rfl d, by simp, by simp, ?_, by simp, ?_⟩
      · intro x hx
        exact Or.inl hx
      · intro x hxn hxfin
        rcases hrel x hxn hxfin with hmem | hrx
        · rcases List.mem_cons.mp hmem with he | hm
          · exact Or.inr (Or.inl he)
          · exact Or.inl (by simpa using hm)
        · exact Or.inr (Or.inr hrx)
  | cons ridx rxs ih =>
      intro d rest hdlen hsub hrange hsd hsdINF hsdb hroot0 hrlt hrfin hfre hfbd hfle
        hrge hrel
      rw [List.foldl_cons]
      by_cases hnb : d.getD ((rivers.getD ridx default).other_index s) 0 = INF
      · -- the neighbour is new: set it to sd + 1 and push it
        have hstep : spRelax rivers s sd (d, rest) ridx =
            (d.set ((rivers.getD ridx default).other_index s) (sd + 1),
             rest ++ [(rivers.getD ridx default).other_index s]) := by
          unfold spRelax
          rw [if_pos hnb]
        rw [hstep]
        set nb := (rivers.getD ridx default).other_index s with hnbdef
        have hnbn : nb < n := hrange ridx (by simp)
        have hnbs : nb ≠ s := by
          intro he
          rw [he, hsd] at hnb
          exact hsdINF hnb
        have hfinle : finCount d ≤ d.length := finCount_le_length d
        have hsd1INF : sd + 1 ≠ INF := by omega
        have hmono2 : DistMono d (d.set nb (sd + 1)) := distMono_set hnb
        have hd2s : (d.set nb (sd + 1)).getD s 0 = sd := by
          rw [getD_set_other hnbs, hsd]
        have hfin2 : finCount (d.set nb (sd + 1)) = finCount d + 1 :=
          finCount_set (by omega) hnb hsd1INF
        have hval_nb : (d.set nb (sd + 1)).getD nb 0 = sd + 1 :=
          getD_set_self (by omega)
        have hnbroot : nb ≠ root := by
          intro he
          rw [he, hroot0] at hnb
          exact absurd hnb.symm (by omega)
        have hroot2 : (d.set nb (sd + 1)).getD root 0 = 0 := by
          rw [getD_set_other hnbroot, hroot0]
        have hadj_nb : bfsAdj rivers edges s nb :=
          ⟨ridx, hsub ridx (by simp), rfl⟩
        have hset_other : ∀ x : ℕ, x ≠ nb →
            (d.set nb (sd + 1)).getD x 0 = d.getD x 0 := by
          intro x hx
          exact getD_set_other (fun he => hx he.symm)
        obtain ⟨pushed', c1', c2', c3', c4', c5', c6', c7', c10'⟩ :=
          ih (d.set nb (sd + 1)) (rest ++ [nb])
            (by rw [List.length_set]; exact hdlen)
            (fun r hr => hsub r (by simp [hr]))
            (fun r hr => hrange r (by simp [hr]))
            hd2s hsdINF (by omega) hroot2
            (by
              intro x hx
              rcases List.mem_append.mp hx with hm | hm
              · exact hrlt x hm
              · rw [List.mem_singleton.mp hm]; exact hnbn)
            (by
              intro x hx
              rcases List.mem_append.mp hx with hm | hm
              · rw [hmono2 x (hrfin x hm)]; exact hrfin x hm
              · rw [List.mem_singleton.mp hm, hval_nb]; exact hsd1INF)
            (by
              intro x hxn hxfin
              by_cases hxnb : x = nb
              · subst hxnb
                exact hreach.tail hadj_nb
              · rw [hset_other x hxnb] at hxfin
                exact hfre x hxn hxfin)
            (by
              intro x hxn hxfin
              rw [hfin2]
              by_cases hxnb : x = nb
              · subst hxnb
                rw [hval_nb]
                omega
              · rw [hset_other x hxnb] at hxfin ⊢
                have := hfbd x hxn hxfin
                omega)
            (by
              intro x hxn hxfin
              by_cases hxnb : x = nb
              · subst hxnb
                rw [hval_nb]
              · rw [hset_other x hxnb] at hxfin ⊢
                exact hfle x hxn hxfin)
            (by
              intro y hy
              rcases List.mem_append.mp hy with hm | hm
              · rw [hmono2 y (hrfin y hm)]
                exact hrge y hm
              · rw [List.mem_singleton.mp hm, hval_nb]
                omega)
            (by
              intro x hxn hxfin
              by_cases hxnb : x = nb
              · subst hxnb
                exact Or.inl (by simp)
              · rw [hset_other x hxnb] at hxfin
                rcases hrel x hxn hxfin with hmem | hrx
                · rcases List.mem_cons.mp hmem with he | hm
                  · exact Or.inl (by simp [he])
                  · exact Or.inl (by simp [hm])
                · exact Or.inr (Relaxed.mono hmono2 hrx hxfin))
        refine ⟨nb :: pushed', c1', ?_, hmono2.comp c3', ?_, ?_, ?_, ?_, ?_⟩
        · rw [c2']
          simp
        · rw [c4', hfin2]
          simp
          omega
        · intro x hx
          rcases List.mem_cons.mp hx with he | hm
          · subst he
            refine ⟨hnbn, ?_, hadj_nb⟩
            rw [c3' nb (by rw [hval_nb]; exact hsd1INF), hval_nb]
          · exact c5' x hm
        · intro x hxfin
          rcases c6' x hxfin with hfin2x | hm
          · by_cases hxnb : x = nb
            · exact Or.inr (by simp [hxnb])
            · rw [hset_other x hxnb] at hfin2x
              exact Or.inl hfin2x
          · exact Or.inr (by simp [hm])
        · intro r hr
          rcases List.mem_cons.mp hr with he | hm
          · subst he
            have hgd : (rxs.foldl (spRelax rivers s sd)
                (d.set nb (sd + 1), rest ++ [nb])).1.getD nb 0 = sd + 1 := by
              rw [c3' nb (by rw [hval_nb]; exact hsd1INF), hval_nb]
            rw [← hnbdef, hgd]
            exact ⟨hsd1INF, le_refl _⟩
          · exact c7' r hm
        · intro x hxn hxfin
          rcases c10' x hxn hxfin with hm | h
          · refine Or.inl ?_
            rcases List.mem_append.mp hm with hm2 | hm2
            · rcases List.mem_append.mp hm2 with hm3 | hm3
              · exact List.mem_append.mpr (Or.inl hm3)
              · exact List.mem_append.mpr (Or.inr (by simp [List.mem_singleton.mp hm3]))
            · exact List.mem_append.mpr (Or.inr (by simp [hm2]))
          · exact Or.inr h
      · -- the neighbour is already computed: nothing changes
        have hstep : spRelax rivers s sd (d, rest) ridx = (d, rest) := by
          unfold spRelax
          rw [if_neg hnb]
        rw [hstep]
        obtain ⟨pushed, c1, c2, c3, c4, c5, c6, c7, c10⟩ :=
          ih d rest hdlen (fun r hr => hsub r (by simp [hr]))
            (fun r hr => hrange r (by simp [hr])) hsd hsdINF hsdb hroot0 hrlt hrfin
            hfre hfbd hfle hrge hrel
        refine ⟨pushed, c1, c2, c3, c4, c5, c6, ?_, c10⟩
        intro r hr
        rcases List.mem_cons.mp hr with he | hm
        · subst he
          have hfin' : (rxs.foldl (spRelax rivers s sd) (d, rest)).1.getD
              ((rivers.getD r default).other_index s) 0 =
              d.getD ((rivers.getD r default).other_index s) 0 := c3 _ hnb
          rw [hfin']
          exact ⟨hnb, hfle _ (hrange r (by simp)) hnb⟩
        · exact c7 r hm

theorem pairwise_le_of_const {l : List ℕ} {f : ℕ → ℕ} {c : ℕ}
    (h : ∀ x ∈ l, f x = c) : l.Pairwise (fun a b => f a ≤ f b) := by
  induction l with
  | nil => exact List.Pairwise.nil
  | cons x xs ih =>
      refine List.Pairwise.cons ?_ (ih (fun y hy => h y (by simp [hy])))
      intro y hy
      rw [h x (by simp), h y (by simp [hy])]

/-- Running the oracle BFS to completion: when the invariant holds and the
fuel covers the counting measure, the queue drains and the final row is
zero at the root, relaxed at every computed site, and computed exactly at
the sites reachable from the root. -/
theorem spBfs_run (rivers : List River) (edges : List (List ℕ)) (n root : ℕ)
    (hn : n < INF)
    (hedge : ∀ s, s < n → ∀ ridx ∈ edges.getD s [],
      (rivers.getD ridx default).other_index s < n) :
    ∀ fuel d q, SpInv rivers edges n root d q →
      2 * (n - finCount d) + q.length ≤ fuel →
      (spBfs rivers edges fuel d q).2 = [] ∧
      (spBfs rivers edges fuel d q).1.length = n ∧
      DistMono d (spBfs rivers edges fuel d q).1 ∧
      (spBfs rivers edges fuel d q).1.getD root 0 = 0 ∧
      (∀ x, x < n → (spBfs rivers edges fuel d q).1.getD x 0 ≠ INF →
        Relation.ReflTransGen (bfsAdj rivers edges) root x) ∧
      (∀ x, x < n → (spBfs rivers edges fuel d q).1.getD x 0 ≠ INF →
        Relaxed rivers edges (spBfs rivers edges fuel d q).1 x) ∧
      (∀ x, Relation.ReflTransGen (bfsAdj rivers edges) root x →
        x < n ∧ (spBfs rivers edges fuel d q).1.getD x 0 ≠ INF) := by
  have hterm : ∀ (d : List ℕ) (res : List ℕ × List ℕ), res = (d, []) →
      SpInv rivers edges n root d [] →
      res.2 = [] ∧ res.1.length = n ∧ DistMono d res.1 ∧
      res.1.getD root 0 = 0 ∧
      (∀ x, x < n → res.1.getD x 0 ≠ INF →
        Relation.ReflTransGen (bfsAdj rivers edges) root x) ∧
      (∀ x, x < n → res.1.getD x 0 ≠ INF → Relaxed rivers edges res.1 x) ∧
      (∀ x, Relation.ReflTransGen (bfsAdj rivers edges) root x →
        x < n ∧ res.1.getD x 0 ≠ INF) := by
    intro d res hres hinv
    subst hres
    refine ⟨rfl, hinv.len, DistMono.rfl d, hinv.root_zero, hinv.fin_reach, ?_, ?_⟩
    · intro x hx hfin
      rcases hinv.relaxed x hx hfin with hm | hr
      · exact absurd hm (List.not_mem_nil x)
      · exact hr
    · intro x hreach
      induction hreach with
      | refl =>
          refine ⟨hinv.rootlt, ?_⟩
          rw [hinv.root_zero]
          exact fun he => absurd he (Nat.ne_of_lt INF_pos)
      | @tail b c hxy hadj ihr =>
          obtain ⟨hbn, hbfin⟩ := ihr
          obtain ⟨ridx, hridx, hother⟩ := hadj
          have hrel : Relaxed rivers edges d b := by
            rcases hinv.relaxed b hbn hbfin with hm | hr
            · exact absurd hm (List.not_mem_nil _)
            · exact hr
          refine ⟨by rw [← hother]; exact hedge b hbn ridx hridx, ?_⟩
          rw [← hother]
          exact (hrel ridx hridx).1
  intro fuel
  induction fuel with
  | zero =>
      intro d q hinv hfuel
      have hq : q = [] := List.length_eq_zero.mp (by omega)
      subst hq
      exact hterm d _ rfl hinv
  | succ fuel ih =>
      intro d q hinv hfuel
      cases q with
      | nil => exact hterm d _ rfl hinv
      | cons s rest =>
          have hslt : s < n := hinv.qlt s (by simp)
          have hsfin : d.getD s 0 ≠ INF := hinv.qfin s (by simp)
          have hreach : Relation.ReflTransGen (bfsAdj rivers edges) root s :=
            hinv.fin_reach s hslt hsfin
          have hrestle : ∀ y ∈ rest, d.getD s 0 ≤ d.getD y 0 :=
            (List.pairwise_cons.mp hinv.qsorted).1
          have hrestpw : List.Pairwise (fun a b => d.getD a 0 ≤ d.getD b 0) rest :=
            (List.pairwise_cons.mp hinv.qsorted).2
          obtain ⟨pushed, c1, c2, c3, c4, c5, c6, c7, c10⟩ :=
            spRelax_fold rivers edges n root s (d.getD s 0) hn hreach hslt
              (edges.getD s []) d rest hinv.len (fun _ h => h)
              (hedge s hslt) rfl hsfin (hinv.fin_bound s hslt hsfin)
              hinv.root_zero
              (fun x hx => hinv.qlt x (by simp [hx]))
              (fun x hx => hinv.qfin x (by simp [hx]))
              hinv.fin_reach hinv.fin_bound
              (fun x hx hfin => hinv.fin_le x hx hfin s (by simp))
              hrestle hinv.relaxed
          have hunf : spBfs rivers edges (fuel + 1) d (s :: rest) =
              spBfs rivers edges fuel
                ((edges.getD s []).foldl (spRelax rivers s (d.getD s 0)) (d, rest)).1
                ((edges.getD s []).foldl (spRelax rivers s (d.getD s 0)) (d, rest)).2 :=
            rfl
          set st := (edges.getD s []).foldl (spRelax rivers s (d.getD s 0)) (d, rest)
            with hstdef
          have hrootfin : d.getD root 0 ≠ INF := by
            rw [hinv.root_zero]
            exact fun he => absurd he (Nat.ne_of_lt INF_pos)
          have hsd1 : d.getD s 0 + 1 ≠ INF := by
            have h1 := hinv.fin_bound s hslt hsfin
            have h2 := finCount_le_length d
            rw [hinv.len] at h2
            omega
          have hfinle : finCount d + pushed.length ≤ n := by
            rw [← c4, ← hinv.len]
            have := finCount_le_length st.1
            rw [c1, ← hinv.len] at this
            exact this
          have hstval : ∀ x ∈ rest, st.1.getD x 0 = d.getD x 0 :=
            fun x hx => c3 x (hinv.qfin x (by simp [hx]))
          have hnewinv : SpInv rivers edges n root st.1 (rest ++ pushed) := by
            refine ⟨hinv.rootlt, c1, ?_, ?_, ?_, ?_, ?_, ?_, ?_, ?_⟩
            · rw [c3 root hrootfin]
              exact hinv.root_zero
            · intro x hx
              rcases List.mem_append.mp hx with hm | hm
              · exact hinv.qlt x (by simp [hm])
              · exact (c5 x hm).1
            · intro x hx
              rcases List.mem_append.mp hx with hm | hm
              · rw [hstval x hm]
                exact hinv.qfin x (by simp [hm])
              · rw [(c5 x hm).2.1]
                exact hsd1
            · intro x hx hfin
              rcases c6 x hfin with hold | hm
              · exact hinv.fin_reach x hx hold
              · exact hreach.tail (c5 x hm).2.2
            · intro x hx hfin
              rw [c4]
              rcases c6 x hfin with hold | hm
              · rw [c3 x hold]
                have := hinv.fin_bound x hx hold
                omega
              · rw [(c5 x hm).2.1]
                have h1 := hinv.fin_bound s hslt hsfin
                have h2 : 0 < pushed.length := List.length_pos_of_mem hm
                omega
            · intro x hx hfin
              rcases c10 x hx hfin with hm | hxs | hr
              · exact Or.inl hm
              · subst hxs
                refine Or.inr ?_
                intro ridx hridx
                have := c7 ridx hridx
                rw [c3 x hsfin]
                exact this
              · exact Or.inr hr
            · refine List.pairwise_append.mpr ⟨?_, ?_, ?_⟩
              · refine List.Pairwise.imp_of_mem ?_ hrestpw
                intro a b ha hb hab
                rw [hstval a ha, hstval b hb]
                exact hab
              · exact pairwise_le_of_const (fun x hx => (c5 x hx).2.1)
              · intro a ha b hb
                rw [hstval a ha, (c5 b hb).2.1]
                exact hinv.fin_le a (hinv.qlt a (by simp [ha]))
                  (hinv.qfin a (by simp [ha])) s (by simp)
            · intro x hx hfin y hy
              have hxval : st.1.getD x 0 ≤ d.getD s 0 + 1 := by
                rcases c6 x hfin with hold | hm
                · rw [c3 x hold]
                  exact hinv.fin_le x hx hold s (by simp)
                · rw [(c5 x hm).2.1]
              rcases List.mem_append.mp hy with hm | hm
              · rw [hstval y hm]
                have := hrestle y hm
                omega
              · rw [(c5 y hm).2.1]
                omega
          have hmeas : 2 * (n - finCount st.1) + (rest ++ pushed).length ≤ fuel := by
            rw [c4, List.length_append]
            simp only [List.length_cons] at hfuel
            have := hinv.fin_bound s hslt hsfin
            omega
          obtain ⟨r1, r2, r3, r4, r5, r6, r7⟩ := ih st.1 st.2
            (by rw [c2]; exact hnewinv) (by rw [c2]; exact hmeas)
          rw [hunf]
          exact ⟨r1, r2, c3.comp r3, r4, r5, r6, r7⟩

theorem getD_replicate {n i v : ℕ} (h : i < n) :
    (List.replicate n v).getD i 0 = v := by
  rw [List.getD_eq_getElem?_getD, List.getElem?_replicate, if_pos h]
  rfl

theorem finCount_replicate_INF (n : ℕ) : finCount (List.replicate n INF) = 0 := by
  induction n with
  | zero => rfl
  | succ k ih =>
      show finCount (INF :: List.replicate k INF) = 0
      simp only [finCount, List.countP_cons, bne_self_eq_false, cond_false] at ih ⊢
      simpa using ih

/-- The state seeded by `compute_shortest_paths` before the BFS loop
satisfies the loop invariant. -/
theorem spInv_init (rivers : List River) (edges : List (List ℕ)) (n mi : ℕ)
    (hmi : mi < n) :
    SpInv rivers edges n mi ((List.replicate n INF).set mi 0) [mi] := by
  have hmilen : mi < (List.replicate n INF).length := by
    rw [List.length_replicate]; exact hmi
  have hlen : ((List.replicate n INF).set mi 0).length = n := by
    rw [List.length_set, List.length_replicate]
  have hmi0 : ((List.replicate n INF).set mi 0).getD mi 0 = 0 :=
    getD_set_self hmilen
  have honly : ∀ x, x < n → ((List.replicate n INF).set mi 0).getD x 0 ≠ INF →
      x = mi := by
    intro x hx hfin
    by_contra hne
    rw [getD_set_other (fun he => hne he.symm), getD_replicate hx] at hfin
    exact hfin rfl
  have hfc : finCount ((List.replicate n INF).set mi 0) = 1 := by
    rw [finCount_set hmilen (getD_replicate hmi) (Nat.ne_of_lt INF_pos),
      finCount_replicate_INF]
  refine ⟨hmi, hlen, hmi0, ?_, ?_, ?_, ?_, ?_, ?_, ?_⟩
  · intro s hs
    rw [List.mem_singleton.mp hs]
    exact hmi
  · intro s hs
    rw [List.mem_singleton.mp hs, hmi0]
    exact Nat.ne_of_lt INF_pos
  · intro s hs hfin
    rw [honly s hs hfin]
  · intro s hs hfin
    have := honly s hs hfin
    subst this
    rw [hmi0, hfc]
    omega
  · intro s hs hfin
    exact Or.inl (by rw [honly s hs hfin]; simp)
  · exact List.pairwise_singleton _ _
  · intro x hx hfin y hy
    have := honly x hx hfin
    subst this
    rw [hmi0]
    omega

theorem other_index_cases (r : River) (s : ℕ) :
    r.other_index s = r.target_idx ∨ r.other_index s = r.source_idx := by
  unfold River.other_index
  split
  · exact Or.inl rfl
  · exact Or.inr rfl

/-- The incidence lists built by `compute_edges` induce exactly the
multigraph adjacency. -/
theorem bfsAdj_iff_riverAdj (m : InputMap)
    (hend : ∀ k, k < m.rivers.length →
      (m.rivers.getD k default).source_idx < m.sites.length ∧
      (m.rivers.getD k default).target_idx < m.sites.length)
    (b c : ℕ) :
    bfsAdj m.rivers (computeEdges m) b c ↔ riverAdj m.rivers b c := by
  constructor
  · rintro ⟨ridx, hmem, hother⟩
    by_cases hb : b < m.sites.length
    · obtain ⟨hlt, hinc⟩ := (mem_computeEdges m b ridx hb).mp hmem
      exact ⟨ridx, hlt,
        (other_index_endpoints (m.rivers.getD ridx default) b c).mp ⟨hinc, hother⟩⟩
    · exfalso
      rw [List.getD_eq_getElem?_getD,
        List.getElem?_eq_none (by rw [computeEdges_length]; omega)] at hmem
      exact absurd hmem (List.not_mem_nil ridx)
  · rintro ⟨k, hk, hcase⟩
    have hinc : (m.rivers.getD k default).source_idx = b ∨
        (m.rivers.getD k default).target_idx = b := by
      rcases hcase with ⟨h1, _⟩ | ⟨h1, _⟩
      · exact Or.inl h1
      · exact Or.inr h1
    have hb : b < m.sites.length := by
      rcases hinc with h1 | h1
      · rw [← h1]; exact (hend k hk).1
      · rw [← h1]; exact (hend k hk).2
    refine ⟨k, (mem_computeEdges m b k hb).mpr ⟨hk, hinc⟩, ?_⟩
    exact ((other_index_endpoints (m.rivers.getD k default) b c).mpr hcase).2

/-- Reachability over the incidence lists and over the river multigraph
coincide. -/
theorem reach_bridge (m : InputMap)
    (hend : ∀ k, k < m.rivers.length →
      (m.rivers.getD k default).source_idx < m.sites.length ∧
      (m.rivers.getD k default).target_idx < m.sites.length)
    (root x : ℕ) :
    Relation.ReflTransGen (bfsAdj m.rivers (computeEdges m)) root x ↔
      Relation.ReflTransGen (riverAdj m.rivers) root x := by
  constructor
  · intro h
    induction h with
    | refl => exact Relation.ReflTransGen.refl
    | tail hxy hadj ihr => exact ihr.tail ((bfsAdj_iff_riverAdj m hend _ _).mp hadj)
  · intro h
    induction h with
    | refl => exact Relation.ReflTransGen.refl
    | tail hxy hadj ihr => exact ihr.tail ((bfsAdj_iff_riverAdj m hend _ _).mpr hadj)

/-- Row extraction from `computeShortestPaths`. -/
theorem computeShortestPaths_getD (m : InputMap) (edges : List (List ℕ))
    (i : ℕ) (hi : i < m.mines.length) :
    (computeShortestPaths m edges).getD i [] =
      (spBfs m.rivers edges (2 * m.sites.length + 1)
        ((List.replicate m.sites.length INF).set
          (siteIndexFn m.sites (m.mines.getD i 0)) 0)
        [siteIndexFn m.sites (m.mines.getD i 0)]).1 := by
  unfold computeShortestPaths
  rw [List.getD_eq_getElem?_getD, List.getElem?_map, List.getElem?_eq_getElem hi,
    List.getD_eq_getElem?_getD, List.getElem?_eq_getElem hi]
  rfl

/-- The three row-level properties of the distance oracle: zero at the
mine, computed exactly on the connected component of the mine, and the
one-hop inequality across every river. -/
theorem spRow_props (m : InputMap) (i : ℕ) (hi : i < m.mines.length)
    (hn : m.sites.length < INF)
    (hend : ∀ k, k < m.rivers.length →
      (m.rivers.getD k default).source_idx < m.sites.length ∧
      (m.rivers.getD k default).target_idx < m.sites.length)
    (hmi : siteIndexFn m.sites (m.mines.getD i 0) < m.sites.length) :
    ((computeShortestPaths m (computeEdges m)).getD i []).getD
        (siteIndexFn m.sites (m.mines.getD i 0)) 0 = 0 ∧
    (∀ x, x < m.sites.length →
      (((computeShortestPaths m (computeEdges m)).getD i []).getD x 0 ≠ INF ↔
        Relation.ReflTransGen (riverAdj m.rivers)
          (siteIndexFn m.sites (m.mines.getD i 0)) x)) ∧
    (∀ k, k < m.rivers.length →
      (((computeShortestPaths m (computeEdges m)).getD i []).getD
          (m.rivers.getD k default).source_idx 0 ≠ INF →
        ((computeShortestPaths m (computeEdges m)).getD i []).getD
          (m.rivers.getD k default).target_idx 0 ≠ INF ∧
        ((computeShortestPaths m (computeEdges m)).getD i []).getD
          (m.rivers.getD k default).target_idx 0 ≤
        ((computeShortestPaths m (computeEdges m)).getD i []).getD
          (m.rivers.getD k default).source_idx 0 + 1) ∧
      (((computeShortestPaths m (computeEdges m)).getD i []).getD
          (m.rivers.getD k default).target_idx 0 ≠ INF →
        ((computeShortestPaths m (computeEdges m)).getD i []).getD
          (m.rivers.getD k default).source_idx 0 ≠ INF ∧
        ((computeShortestPaths m (computeEdges m)).getD i []).getD
          (m.rivers.getD k default).source_idx 0 ≤
        ((computeShortestPaths m (computeEdges m)).getD i []).getD
          (m.rivers.getD k default).target_idx 0 + 1)) := by
  have hedge : ∀ s, s < m.sites.length →
      ∀ ridx ∈ (computeEdges m).getD s [],
        (m.rivers.getD ridx default).other_index s < m.sites.length := by
    intro s hs ridx hmem
    obtain ⟨hlt, _⟩ := (mem_computeEdges m s ridx hs).mp hmem
    rcases other_index_cases (m.rivers.getD ridx default) s with h | h
    · rw [h]; exact (hend ridx hlt).2
    · rw [h]; exact (hend ridx hlt).1
  have hfc : finCount ((List.replicate m.sites.length INF).set
      (siteIndexFn m.sites (m.mines.getD i 0)) 0) = 1 := by
    rw [finCount_set (by rw [List.length_replicate]; exact hmi)
      (getD_replicate hmi) (Nat.ne_of_lt INF_pos), finCount_replicate_INF]
  obtain ⟨r1, r2, r3, r4, r5, r6, r7⟩ :=
    spBfs_run m.rivers (computeEdges m) m.sites.length
      (siteIndexFn m.sites (m.mines.getD i 0)) hn hedge
      (2 * m.sites.length + 1)
      ((List.replicate m.sites.length INF).set
        (siteIndexFn m.sites (m.mines.getD i 0)) 0)
      [siteIndexFn m.sites (m.mines.getD i 0)]
      (spInv_init m.rivers (computeEdges m) m.sites.length
        (siteIndexFn m.sites (m.mines.getD i 0)) hmi)
      (by rw [hfc]; simp only [List.length_singleton]; omega)
  rw [computeShortestPaths_getD m (computeEdges m) i hi]
  refine ⟨r4, ?_, ?_⟩
  · intro x hx
    constructor
    · intro hfin
      exact (reach_bridge m hend _ x).mp (r5 x hx hfin)
    · intro hreach
      exact (r7 x ((reach_bridge m hend _ x).mpr hreach)).2
  · intro k hk
    constructor
    · intro hfin
      have hmem : k ∈ (computeEdges m).getD
          (m.rivers.getD k default).source_idx [] :=
        (mem_computeEdges m _ k (hend k hk).1).mpr ⟨hk, Or.inl rfl⟩
      have hother : (m.rivers.getD k default).other_index
          (m.rivers.getD k default).source_idx =
          (m.rivers.getD k default).target_idx :=
        ((other_index_endpoints (m.rivers.getD k default) _ _).mpr
          (Or.inl ⟨rfl, rfl⟩)).2
      have := r6 _ (hend k hk).1 hfin k hmem
      rw [hother] at this
      exact this
    · intro hfin
      have hmem : k ∈ (computeEdges m).getD
          (m.rivers.getD k default).target_idx [] :=
        (mem_computeEdges m _ k (hend k hk).2).mpr ⟨hk, Or.inr rfl⟩
      have hother : (m.rivers.getD k default).other_index
          (m.rivers.getD k default).target_idx =
          (m.rivers.getD k default).source_idx :=
        ((other_index_endpoints (m.rivers.getD k default) _ _).mpr
          (Or.inr ⟨rfl, rfl⟩)).2
      have := r6 _ (hend k hk).2 hfin k hmem
      rw [hother] at this
      exact this

theorem strip_getD {l₁ l₂ : List River}
    (h : l₁.map River.strip = l₂.map River.strip) (k : ℕ) :
    (l₁.getD k default).strip = (l₂.getD k default).strip := by
  have hlen : l₁.length = l₂.length := by
    have := congrArg List.length h
    simpa using this
  rcases Nat.lt_or_ge k l₁.length with hk | hk
  · have h1 : (l₁.map River.strip)[k]? = (l₂.map River.strip)[k]? := by rw [h]
    rw [List.getElem?_map, List.getElem?_map, List.getElem?_eq_getElem hk,
      List.getElem?_eq_getElem (hlen ▸ hk)] at h1
    rw [List.getD_eq_getElem?_getD, List.getD_eq_getElem?_getD,
      List.getElem?_eq_getElem hk, List.getElem?_eq_getElem (hlen ▸ hk)]
    simpa using h1
  · rw [List.getD_eq_getElem?_getD, List.getD_eq_getElem?_getD,
      List.getElem?_eq_none (by omega), List.getElem?_eq_none (by omega)]

theorem strip_source_idx {r₁ r₂ : River} (h : r₁.strip = r₂.strip) :
    r₁.source_idx = r₂.source_idx := by
  have h2 := congrArg River.source_idx h
  exact h2

theorem strip_target_idx {r₁ r₂ : River} (h : r₁.strip = r₂.strip) :
    r₁.target_idx = r₂.target_idx := by
  have h2 := congrArg River.target_idx h
  exact h2

theorem strip_other_index {r₁ r₂ : River} (h : r₁.strip = r₂.strip) (s : ℕ) :
    r₁.other_index s = r₂.other_index s := by
  unfold River.other_index
  rw [strip_source_idx h, strip_target_idx h]

theorem bucketRivers_strip :
    ∀ (l₁ l₂ : List River) (idx : ℕ) (edges : List (List ℕ)),
      l₁.map River.strip = l₂.map River.strip →
      bucketRivers l₁ idx edges = bucketRivers l₂ idx edges := by
  intro l₁
  induction l₁ with
  | nil =>
      intro l₂ idx edges h
      have h2 := h.symm
      rw [List.map_nil] at h2
      rw [List.map_eq_nil_iff.mp h2]
  | cons r₁ t₁ ih =>
      intro l₂ idx edges h
      cases l₂ with
      | nil => simp at h
      | cons r₂ t₂ =>
          simp only [List.map_cons, List.cons.injEq] at h
          obtain ⟨hh, ht⟩ := h
          show bucketRivers t₁ (idx + 1)
              ((edges.modify (fun l => l ++ [idx]) r₁.source_idx).modify
                (fun l => l ++ [idx]) r₁.target_idx) = _
          rw [strip_source_idx hh, strip_target_idx hh]
          exact ih t₂ (idx + 1) _ ht

theorem computeEdges_strip (m₁ m₂ : InputMap) (hs : m₁.sites = m₂.sites)
    (hr : m₁.rivers.map River.strip = m₂.rivers.map River.strip) :
    computeEdges m₁ = computeEdges m₂ := by
  show (bucketRivers m₁.rivers 0 (List.replicate m₁.sites.length [])).enum.map
      (fun p => sortByKey (fun r => riverOtherIndex m₁.rivers r p.1) p.2) =
    (bucketRivers m₂.rivers 0 (List.replicate m₂.sites.length [])).enum.map
      (fun p => sortByKey (fun r => riverOtherIndex m₂.rivers r p.1) p.2)
  rw [hs, bucketRivers_strip m₁.rivers m₂.rivers 0 _ hr]
  have hfn : (fun p : ℕ × List ℕ =>
      sortByKey (fun r => riverOtherIndex m₁.rivers r p.1) p.2) =
      (fun p : ℕ × List ℕ =>
        sortByKey (fun r => riverOtherIndex m₂.rivers r p.1) p.2) := by
    funext p
    have : (fun r => riverOtherIndex m₁.rivers r p.1) =
        (fun r => riverOtherIndex m₂.rivers r p.1) := by
      funext r
      exact strip_other_index (strip_getD hr r) p.1
    rw [this]
  rw [hfn]

theorem spBfs_strip {l₁ l₂ : List River}
    (hr : l₁.map River.strip = l₂.map River.strip) (edges : List (List ℕ)) :
    ∀ fuel d q, spBfs l₁ edges fuel d q = spBfs l₂ edges fuel d q := by
  have hrel : ∀ s sd, spRelax l₁ s sd = spRelax l₂ s sd := by
    intro s sd
    funext st ridx
    unfold spRelax
    rw [strip_other_index (strip_getD hr ridx) s]
  intro fuel
  induction fuel with
  | zero => intro d q; rfl
  | succ fuel ih =>
      intro d q
      cases q with
      | nil => rfl
      | cons s rest =>
          show spBfs l₁ edges fuel
              ((edges.getD s []).foldl (spRelax l₁ s (d.getD s 0)) (d, rest)).1
              ((edges.getD s []).foldl (spRelax l₁ s (d.getD s 0)) (d, rest)).2 = _
          rw [hrel s (d.getD s 0)]
          exact ih _ _

theorem computeShortestPaths_strip (m₁ m₂ : InputMap)
    (hs : m₁.sites = m₂.sites) (hm : m₁.mines = m₂.mines)
    (hr : m₁.rivers.map River.strip = m₂.rivers.map River.strip)
    (edges : List (List ℕ)) :
    computeShortestPaths m₁ edges = computeShortestPaths m₂ edges := by
  unfold computeShortestPaths
  rw [hm, hs]
  simp only [spBfs_strip hr edges]

theorem indexRivers_strip (m₁ m₂ : InputMap) (hs : m₁.sites = m₂.sites)
    (hr : m₁.rivers.map River.strip = m₂.rivers.map River.strip) :
    (indexRivers m₁).rivers.map River.strip =
      (indexRivers m₂).rivers.map River.strip := by
  show (m₁.rivers.map (fun r =>
      { r with source_idx := siteIndexFn m₁.sites r.source,
               target_idx := siteIndexFn m₁.sites r.target })).map River.strip =
    (m₂.rivers.map (fun r =>
      { r with source_idx := siteIndexFn m₂.sites r.source,
               target_idx := siteIndexFn m₂.sites r.target })).map River.strip
  rw [hs]
  rw [List.map_map, List.map_map]
  have h1 : River.strip ∘ (fun r : River =>
      { r with source_idx := siteIndexFn m₂.sites r.source,
               target_idx := siteIndexFn m₂.sites r.target }) =
      (fun r : River =>
        { r with source_idx := siteIndexFn m₂.sites r.source,
                 target_idx := siteIndexFn m₂.sites r.target }) ∘ River.strip := by
    funext r
    rfl
  rw [h1]
  simp only [← List.map_map]
  rw [hr]

/-- The distance table of `Punter::new` depends only on sites, mines and
the ownership-stripped rivers of the input. -/
theorem shortest_paths_strip (input₁ input₂ : Input) (ai₁ ai₂ : PunterType)
    (hs : input₁.map.sites = input₂.map.sites)
    (hm : input₁.map.mines = input₂.map.mines)
    (hr : input₁.map.rivers.map River.strip =
      input₂.map.rivers.map River.strip) :
    (Punter.new input₁ ai₁).shortest_paths =
      (Punter.new input₂ ai₂).shortest_paths := by
  show computeShortestPaths (indexRivers input₁.map)
      (computeEdges (indexRivers input₁.map)) = _
  have hs' : (indexRivers input₁.map).sites = (indexRivers input₂.map).sites := hs
  have hm' : (indexRivers input₁.map).mines = (indexRivers input₂.map).mines := hm
  have hr' := indexRivers_strip input₁.map input₂.map hs hr
  rw [computeEdges_strip _ _ hs' hr']
  exact computeShortestPaths_strip _ _ hs' hm' hr' _

/-- After `index_rivers`, every river's dense endpoints index into the
site list, provided the raw endpoints are present ids. -/
theorem indexed_endpoints_lt (m : InputMap)
    (hriv : ∀ r ∈ m.rivers, siteIdPresent m.sites r.source ∧
      siteIdPresent m.sites r.target)
    (k : ℕ) (hk : k < (indexRivers m).rivers.length) :
    ((indexRivers m).rivers.getD k default).source_idx <
      (indexRivers m).sites.length ∧
    ((indexRivers m).rivers.getD k default).target_idx <
      (indexRivers m).sites.length := by
  have hlen : (indexRivers m).rivers.length = m.rivers.length := by
    show (m.rivers.map _).length = _
    rw [List.length_map]
  have hk' : k < m.rivers.length := by omega
  rw [indexRivers_getD m k hk']
  have hmem : m.rivers.getD k default ∈ m.rivers := by
    rw [List.getD_eq_getElem?_getD, List.getElem?_eq_getElem hk']
    exact List.getElem_mem hk'
  obtain ⟨h1, h2⟩ := hriv _ hmem
  exact ⟨(siteIndexFn_spec m.sites _ h1).1, (siteIndexFn_spec m.sites _ h2).1⟩

/-- C6: the distance table built at setup is zero at each mine's own
entry, satisfies the one-hop inequality across every river (the infinity
sentinel absorbing), holds the sentinel exactly at the sites unreachable
from the mine in the multigraph, and depends only on sites, mines and the
ownership-stripped rivers — never on river ownership. -/
theorem C6_distance_oracle (input : Input) (ai : PunterType)
    (hn : input.map.sites.length < INF)
    (hriv : ∀ r ∈ input.map.rivers, siteIdPresent input.map.sites r.source ∧
      siteIdPresent input.map.sites r.target)
    (hmines : ∀ mn ∈ input.map.mines, siteIdPresent input.map.sites mn) :
    (∀ i, i < input.map.mines.length →
      ((Punter.new input ai).shortest_paths.getD i []).getD
          (siteIndexFn input.map.sites (input.map.mines.getD i 0)) 0 = 0 ∧
      (∀ k, k < (Punter.new input ai).input.map.rivers.length →
        (((Punter.new input ai).shortest_paths.getD i []).getD
            ((Punter.new input ai).input.map.rivers.getD k default).source_idx
            0 ≠ INF →
          ((Punter.new input ai).shortest_paths.getD i []).getD
            ((Punter.new input ai).input.map.rivers.getD k default).target_idx
            0 ≠ INF ∧
          ((Punter.new input ai).shortest_paths.getD i []).getD
            ((Punter.new input ai).input.map.rivers.getD k default).target_idx
            0 ≤
          ((Punter.new input ai).shortest_paths.getD i []).getD
            ((Punter.new input ai).input.map.rivers.getD k default).source_idx
            0 + 1) ∧
        (((Punter.new input ai).shortest_paths.getD i []).getD
            ((Punter.new input ai).input.map.rivers.getD k default).target_idx
            0 ≠ INF →
          ((Punter.new input ai).shortest_paths.getD i []).getD
            ((Punter.new input ai).input.map.rivers.getD k default).source_idx
            0 ≠ INF ∧
          ((Punter.new input ai).shortest_paths.getD i []).getD
            ((Punter.new input ai).input.map.rivers.getD k default).source_idx
            0 ≤
          ((Punter.new input ai).shortest_paths.getD i []).getD
            ((Punter.new input ai).input.map.rivers.getD k default).target_idx
            0 + 1)) ∧
      (∀ x, x < input.map.sites.length →
        (((Punter.new input ai).shortest_paths.getD i []).getD x 0 ≠ INF ↔
          Relation.ReflTransGen
            (riverAdj (Punter.new input ai).input.map.rivers)
            (siteIndexFn input.map.sites (input.map.mines.getD i 0)) x))) ∧
    (∀ (input' : Input) (ai' : PunterType),
      input'.map.sites = input.map.sites →
      input'.map.mines = input.map.mines →
      input'.map.rivers.map River.strip = input.map.rivers.map River.strip →
      (Punter.new input' ai').shortest_paths =
        (Punter.new input ai).shortest_paths) := by
  refine ⟨?_, ?_⟩
  · intro i hi
    have hend : ∀ k, k < (indexRivers input.map).rivers.length →
        ((indexRivers input.map).rivers.getD k default).source_idx <
          (indexRivers input.map).sites.length ∧
        ((indexRivers input.map).rivers.getD k default).target_idx <
          (indexRivers input.map).sites.length :=
      indexed_endpoints_lt input.map hriv
    have hmn : input.map.mines.getD i 0 ∈ input.map.mines := getD_mem hi
    have hmi : siteIndexFn input.map.sites (input.map.mines.getD i 0) <
        input.map.sites.length :=
      (siteIndexFn_spec _ _ (hmines _ hmn)).1
    obtain ⟨p1, p2, p3⟩ := spRow_props (indexRivers input.map) i hi hn hend hmi
    exact ⟨p1, fun k hk => p3 k hk, fun x hx => p2 x hx⟩
  · intro input' ai' hs hm hr
    exact shortest_paths_strip input' input ai' ai hs hm hr

/-- C6, witness: the oracle properties instantiated on the sample
8-site map with its two mines. -/
theorem C6_witness :
    (sampleMap.sites.length < INF ∧
     (∀ r ∈ sampleMap.rivers, siteIdPresent sampleMap.sites r.source ∧
       siteIdPresent sampleMap.sites r.target) ∧
     (∀ mn ∈ sampleMap.mines, siteIdPresent sampleMap.sites mn)) ∧
    ((∀ i, i < sampleMap.mines.length →
      (samplePunter.shortest_paths.getD i []).getD
          (siteIndexFn sampleMap.sites (sampleMap.mines.getD i 0)) 0 = 0 ∧
      (∀ k, k < samplePunter.input.map.rivers.length →
        ((samplePunter.shortest_paths.getD i []).getD
            (samplePunter.input.map.rivers.getD k default).source_idx 0 ≠ INF →
          (samplePunter.shortest_paths.getD i []).getD
            (samplePunter.input.map.rivers.getD k default).target_idx 0 ≠ INF ∧
          (samplePunter.shortest_paths.getD i []).getD
            (samplePunter.input.map.rivers.getD k default).target_idx 0 ≤
          (samplePunter.shortest_paths.getD i []).getD
            (samplePunter.input.map.rivers.getD k default).source_idx 0 + 1) ∧
        ((samplePunter.shortest_paths.getD i []).getD
            (samplePunter.input.map.rivers.getD k default).target_idx 0 ≠ INF →
          (samplePunter.shortest_paths.getD i []).getD
            (samplePunter.input.map.rivers.getD k default).source_idx 0 ≠ INF ∧
          (samplePunter.shortest_paths.getD i []).getD
            (samplePunter.input.map.rivers.getD k default).source_idx 0 ≤
          (samplePunter.shortest_paths.getD i []).getD
            (samplePunter.input.map.rivers.getD k default).target_idx 0 + 1)) ∧
      (∀ x, x < sampleMap.sites.length →
        ((samplePunter.shortest_paths.getD i []).getD x 0 ≠ INF ↔
          Relation.ReflTransGen (riverAdj samplePunter.input.map.rivers)
            (siteIndexFn sampleMap.sites (sampleMap.mines.getD i 0)) x))) ∧
    (∀ (input' : Input) (ai' : PunterType),
      input'.map.sites = sampleMap.sites →
      input'.map.mines = sampleMap.mines →
      input'.map.rivers.map River.strip = sampleMap.rivers.map River.strip →
      (Punter.new input' ai').shortest_paths = samplePunter.shortest_paths)) :=
  ⟨⟨by decide, by decide, by decide⟩,
   C6_distance_oracle { punter := 1, punters := 2, map := sampleMap } .MCTS
     (by decide) (by decide) (by decide)⟩

theorem getD_set_self' {α : Type} {l : List α} {i : ℕ} {v d : α}
    (h : i < l.length) : (l.set i v).getD i d = v := by
  rw [List.getD_eq_getElem?_getD, List.getElem?_set_self h]
  rfl

theorem getD_set_other' {α : Type} {l : List α} {i j : ℕ} {v d : α}
    (h : i ≠ j) : (l.set i v).getD j d = l.getD j d := by
  rw [List.getD_eq_getElem?_getD, List.getD_eq_getElem?_getD,
    List.getElem?_set_ne h]

theorem getD_replicate' {α : Type} {n i : ℕ} {v d : α} (h : i < n) :
    (List.replicate n v).getD i d = v := by
  rw [List.getD_eq_getElem?_getD, List.getElem?_replicate, if_pos h]
  rfl

theorem trueCount_le_length (v : List Bool) : trueCount v ≤ v.length :=
  List.countP_le_length _

theorem trueCount_set {v : List Bool} {i : ℕ} (hi : i < v.length)
    (hold : v.getD i false = false) :
    trueCount (v.set i true) = trueCount v + 1 := by
  induction v generalizing i with
  | nil => simp at hi
  | cons x xs ih =>
      cases i with
      | zero =>
          simp only [List.getD_cons_zero] at hold
          subst hold
          simp [trueCount, List.countP_cons]
      | succ n =>
          simp only [List.getD_cons_succ] at hold
          have := ih (by simpa using hi) hold
          show trueCount (x :: xs.set n true) = _
          simp only [trueCount, List.countP_cons] at this ⊢
          omega

theorem trueCount_replicate_false (n : ℕ) :
    trueCount (List.replicate n false) = 0 := by
  induction n with
  | zero => rfl
  | succ k ih =>
      show trueCount (false :: List.replicate k false) = 0
      simp only [trueCount, List.countP_cons] at ih ⊢
      simpa using ih

theorem visSum_replicate_false (dist : ℕ → ℕ) (n m : ℕ) :
    visSum dist n (List.replicate m false) = 0 := by
  unfold visSum
  refine Finset.sum_eq_zero ?_
  intro x _
  rcases Nat.lt_or_ge x m with h | h
  · rw [getD_replicate' h]
    rfl
  · rw [List.getD_eq_getElem?_getD, List.getElem?_eq_none (by simpa using h)]
    rfl

theorem visSum_set (dist : ℕ → ℕ) (n : ℕ) {visited : List Bool} {x : ℕ}
    (hxn : x < n) (hxl : x < visited.length)
    (hold : visited.getD x false = false) :
    visSum dist n (visited.set x true) =
      visSum dist n visited + dist x * dist x := by
  unfold visSum
  have hx : x ∈ Finset.range n := Finset.mem_range.mpr hxn
  rw [← Finset.add_sum_erase _ _ hx, ← Finset.add_sum_erase _ _ hx, hold]
  have hsame : ∀ y ∈ (Finset.range n).erase x,
      (if (visited.set x true).getD y false then dist y * dist y else 0) =
      (if visited.getD y false then dist y * dist y else 0) := by
    intro y hy
    rw [getD_set_other' (fun he => (Finset.mem_erase.mp hy).1 he.symm)]
  rw [Finset.sum_congr rfl hsame, getD_set_self' hxl]
  have h1 : (if (true : Bool) = true then dist x * dist x else 0) =
      dist x * dist x := rfl
  have h0 : (if (false : Bool) = true then dist x * dist x else 0) = 0 := rfl
  rw [h1, h0]
  omega

theorem skip_cond_false_iff (r : River) (punter : ℕ) :
    ((r.owner.all (fun o => o ≠ punter) &&
      r.renter.all (fun o => o ≠ punter)) = false ↔
     (r.owner = some punter ∨ r.renter = some punter)) := by
  cases ho : r.owner with
  | none =>
      cases hr : r.renter with
      | none => simp [Option.all]
      | some b => by_cases hb : b = punter <;> simp [Option.all, hb]
  | some a =>
      cases hr : r.renter with
      | none => by_cases ha : a = punter <;> simp [Option.all, ha]
      | some b =>
          by_cases ha : a = punter <;> by_cases hb : b = punter <;>
            simp [Option.all, ha, hb]

/-- Effect of the inner `for` loop of the scorer BFS on one popped site
`s`: the pushed sites are exactly the newly marked ones, each a
previously unvisited owned-or-rented neighbour of `s`. -/
theorem scRelax_fold (p : Punter) (rivers : List River) (punter s n : ℕ)
    (dist : ℕ → ℕ) :
    ∀ (lst : List ℕ) (visited : List Bool) (rest : List ℕ),
      visited.length = n →
      (∀ ridx ∈ lst, ridx ∈ p.edges.getD s []) →
      (∀ ridx ∈ lst, (rivers.getD ridx default).other_index s < n) →
      (∀ x ∈ rest, visited.getD x false = true) →
      rest.Nodup →
      ∃ pushed,
        (lst.foldl (scRelax rivers punter s) (visited, rest)).1.length = n ∧
        (lst.foldl (scRelax rivers punter s) (visited, rest)).2 =
          rest ++ pushed ∧
        (∀ x, visited.getD x false = true →
          (lst.foldl (scRelax rivers punter s) (visited, rest)).1.getD x false =
            true) ∧
        trueCount (lst.foldl (scRelax rivers punter s) (visited, rest)).1 =
          trueCount visited + pushed.length ∧
        (∀ x ∈ pushed, x < n ∧ visited.getD x false = false ∧
          scAdj p rivers punter s x) ∧
        (∀ x, (lst.foldl (scRelax rivers punter s) (visited, rest)).1.getD x
            false = true → visited.getD x false = true ∨ x ∈ pushed) ∧
        (∀ ridx ∈ lst,
          ((rivers.getD ridx default).owner.all (fun o => o ≠ punter) &&
           (rivers.getD ridx default).renter.all (fun o => o ≠ punter)) =
            false →
          (lst.foldl (scRelax rivers punter s) (visited, rest)).1.getD
            ((rivers.getD ridx default).other_index s) false = true) ∧
        (rest ++ pushed).Nodup ∧
        visSum dist n (lst.foldl (scRelax rivers punter s) (visited, rest)).1 =
          visSum dist n visited +
            (pushed.map (fun x => dist x * dist x)).sum ∧
        (∀ x ∈ pushed,
          (lst.foldl (scRelax rivers punter s) (visited, rest)).1.getD x
            false = true) := by
  intro lst
  induction lst with
  | nil =>
      intro visited rest hvlen hsub hrange hrest hnodup
      refine ⟨[], hvlen, by simp, fun x hx => hx, by simp, by simp, ?_, ?_,
        by simpa using hnodup, by simp, by simp⟩
      · intro x hx
        exact Or.inl hx
      · intro ridx hr
        exact absurd hr (List.not_mem_nil ridx)
  | cons ridx rxs ih =>
      intro visited rest hvlen hsub hrange hrest hnodup
      rw [List.foldl_cons]
      by_cases hcond : ((rivers.getD ridx default).owner.all
          (fun o => o ≠ punter) &&
          (rivers.getD ridx default).renter.all (fun o => o ≠ punter)) = true
      · -- skip: the punter neither owns nor rents this river
        have hstep : scRelax rivers punter s (visited, rest) ridx =
            (visited, rest) := by
          unfold scRelax
          rw [if_pos hcond]
        rw [hstep]
        obtain ⟨pushed, c1, c2, c3, c4, c5, c6, c7, c8, c9, c10⟩ :=
          ih visited rest hvlen (fun r hr => hsub r (by simp [hr]))
            (fun r hr => hrange r (by simp [hr])) hrest hnodup
        refine ⟨pushed, c1, c2, c3, c4, c5, c6, ?_, c8, c9, c10⟩
        intro r hr hrc
        rcases List.mem_cons.mp hr with he | hm
        · subst he
          rw [hrc] at hcond
          exact absurd hcond (by simp)
        · exact c7 r hm hrc
      · have hcondf : ((rivers.getD ridx default).owner.all
            (fun o => o ≠ punter) &&
            (rivers.getD ridx default).renter.all (fun o => o ≠ punter)) =
            false := by
          cases hv : ((rivers.getD ridx default).owner.all
              (fun o => o ≠ punter) &&
              (rivers.getD ridx default).renter.all (fun o => o ≠ punter))
          · rfl
          · exact absurd hv hcond
        by_cases hvis : visited.getD
            ((rivers.getD ridx default).other_index s) false = true
        · -- traversable but the opposite endpoint is already visited
          have hstep : scRelax rivers punter s (visited, rest) ridx =
              (visited, rest) := by
            unfold scRelax
            rw [if_neg hcond, if_pos hvis]
          rw [hstep]
          obtain ⟨pushed, c1, c2, c3, c4, c5, c6, c7, c8, c9, c10⟩ :=
            ih visited rest hvlen (fun r hr => hsub r (by simp [hr]))
              (fun r hr => hrange r (by simp [hr])) hrest hnodup
          refine ⟨pushed, c1, c2, c3, c4, c5, c6, ?_, c8, c9, c10⟩
          intro r hr hrc
          rcases List.mem_cons.mp hr with he | hm
          · subst he
            exact c3 _ hvis
          · exact c7 r hm hrc
        · -- traversable and fresh: mark and push the opposite endpoint
          have hstep : scRelax rivers punter s (visited, rest) ridx =
              (visited.set ((rivers.getD ridx default).other_index s) true,
               rest ++ [(rivers.getD ridx default).other_index s]) := by
            unfold scRelax
            rw [if_neg hcond, if_neg hvis]
          rw [hstep]
          set nb := (rivers.getD ridx default).other_index s with hnbdef
          have hvisf : visited.getD nb false = false := by
            cases hv : visited.getD nb false
            · rfl
            · exact absurd hv hvis
          have hnbn : nb < n := hrange ridx (by simp)
          have hnbl : nb < visited.length := by omega
          have hmono : ∀ x, visited.getD x false = true →
              (visited.set nb true).getD x false = true := by
            intro x hx
            have hne : x ≠ nb := fun he => by
              rw [he, hvisf] at hx
              exact absurd hx (by simp)
            rw [getD_set_other' (fun he => hne he.symm)]
            exact hx
          have hnbrest : nb ∉ rest := fun hm => by
            rw [hrest nb hm] at hvisf
            exact absurd hvisf (by simp)
          obtain ⟨pushed', c1', c2', c3', c4', c5', c6', c7', c8', c9', c10'⟩ :=
            ih (visited.set nb true) (rest ++ [nb])
              (by rw [List.length_set]; exact hvlen)
              (fun r hr => hsub r (by simp [hr]))
              (fun r hr => hrange r (by simp [hr]))
              (by
                intro x hx
                rcases List.mem_append.mp hx with hm | hm
                · exact hmono x (hrest x hm)
                · rw [List.mem_singleton.mp hm]
                  exact getD_set_self' hnbl)
              (by
                rw [List.nodup_append]
                exact ⟨hnodup, List.nodup_singleton nb,
                  fun a ha hb => hnbrest ((List.mem_singleton.mp hb) ▸ ha)⟩)
          refine ⟨nb :: pushed', c1', ?_, ?_, ?_, ?_, ?_, ?_, ?_, ?_, ?_⟩
          · rw [c2']
            simp
          · intro x hx
            exact c3' x (hmono x hx)
          · rw [c4', trueCount_set hnbl hvisf]
            simp only [List.length_cons]
            omega
          · intro x hx
            rcases List.mem_cons.mp hx with he | hm
            · subst he
              exact ⟨hnbn, hvisf, ridx, hsub ridx (by simp), hcondf, rfl⟩
            · obtain ⟨hlt, hv2, hadj⟩ := c5' x hm
              refine ⟨hlt, ?_, hadj⟩
              by_cases hxnb : x = nb
              · rw [hxnb, getD_set_self' hnbl] at hv2
                exact absurd hv2 (by simp)
              · rw [getD_set_other' (fun he => hxnb he.symm)] at hv2
                exact hv2
          · intro x hx
            rcases c6' x hx with hv2 | hm
            · by_cases hxnb : x = nb
              · exact Or.inr (by simp [hxnb])
              · rw [getD_set_other' (fun he => hxnb he.symm)] at hv2
                exact Or.inl hv2
            · exact Or.inr (by simp [hm])
          · intro r hr hrc
            rcases List.mem_cons.mp hr with he | hm
            · subst he
              rw [← hnbdef]
              exact c3' nb (getD_set_self' hnbl)
            · exact c7' r hm hrc
          · have := c8'
            rw [List.append_assoc] at this
            simpa using this
          · rw [c9', visSum_set dist n hnbn hnbl hvisf]
            simp only [List.map_cons, List.sum_cons]
            omega
          · intro x hx
            rcases List.mem_cons.mp hx with he | hm
            · subst he
              exact c3' nb (getD_set_self' hnbl)
            · exact c10' x hm

end Icfp

namespace Icfp

/-- The state seeded by `compute_scores` for one mine satisfies the
scorer invariant. -/
theorem scInv_init (p : Punter) (rivers : List River)
    (punter mine_idx msi n : ℕ) (hmi : msi < n)
    (hfin0 : (p.shortest_paths.getD mine_idx []).getD msi 0 ≠ INF) :
    ScInv p rivers punter mine_idx msi n
      ((List.replicate n false).set msi true) [msi] := by
  have hmil : msi < (List.replicate n false).length := by
    rw [List.length_replicate]
    exact hmi
  have honly : ∀ x, ((List.replicate n false).set msi true).getD x false =
      true → x = msi := by
    intro x hx
    by_contra hne
    rw [getD_set_other' (fun he => hne he.symm)] at hx
    rcases Nat.lt_or_ge x n with h | h
    · rw [getD_replicate' h] at hx
      exact absurd hx (by simp)
    · rw [List.getD_eq_getElem?_getD,
        List.getElem?_eq_none (by simpa using h)] at hx
      exact absurd hx (by simp)
  refine ⟨hmi, by rw [List.length_set, List.length_replicate],
    getD_set_self' hmil, ?_, ?_, ?_, List.nodup_singleton msi, ?_, ?_⟩
  · intro s hs
    rw [List.mem_singleton.mp hs]
    exact hmi
  · intro s hs
    rw [List.mem_singleton.mp hs]
    exact getD_set_self' hmil
  · intro s hs
    rw [List.mem_singleton.mp hs]
    exact hfin0
  · intro x hx hvx
    rw [honly x hvx]
  · intro x hx hvx
    exact Or.inl (by rw [honly x hvx]; simp)

/-- Running the scorer BFS to completion: the assert never fires, the
queue drains, the final mask marks exactly the sites reachable through
this punter's rivers, and the accumulator holds the squared-distance sum
over the marked sites. -/
theorem scBfs_run (p : Punter) (rivers : List River)
    (punter mine_idx root n : ℕ)
    (hedge : ∀ s, s < n → ∀ ridx ∈ p.edges.getD s [],
      (rivers.getD ridx default).other_index s < n)
    (hfin : ∀ s x, s < n →
      (p.shortest_paths.getD mine_idx []).getD s 0 ≠ INF →
      scAdj p rivers punter s x →
      (p.shortest_paths.getD mine_idx []).getD x 0 ≠ INF) :
    ∀ fuel acc visited q,
      ScInv p rivers punter mine_idx root n visited q →
      acc + (q.map (fun x =>
        (p.shortest_paths.getD mine_idx []).getD x 0 *
        (p.shortest_paths.getD mine_idx []).getD x 0)).sum =
        visSum (fun x => (p.shortest_paths.getD mine_idx []).getD x 0) n
          visited →
      2 * (n - trueCount visited) + q.length ≤ fuel →
      ∃ st, scBfs p rivers punter mine_idx fuel ⟨acc, visited, q⟩ = some st ∧
        st.que = [] ∧
        st.visited.length = n ∧
        (∀ x, x < n → (st.visited.getD x false = true ↔
          Relation.ReflTransGen (scAdj p rivers punter) root x)) ∧
        st.acc = visSum
          (fun x => (p.shortest_paths.getD mine_idx []).getD x 0) n
          st.visited := by
  have hstep : ∀ s x, s < n → scAdj p rivers punter s x → x < n := by
    rintro s x hs ⟨ridx, hmem, _, hother⟩
    rw [← hother]
    exact hedge s hs ridx hmem
  have hterm : ∀ (acc : ℕ) (visited : List Bool),
      ScInv p rivers punter mine_idx root n visited [] →
      acc + (([] : List ℕ).map (fun x =>
        (p.shortest_paths.getD mine_idx []).getD x 0 *
        (p.shortest_paths.getD mine_idx []).getD x 0)).sum =
        visSum (fun x => (p.shortest_paths.getD mine_idx []).getD x 0) n
          visited →
      (ScState.que ⟨acc, visited, []⟩ = [] ∧
        (ScState.visited ⟨acc, visited, []⟩).length = n ∧
        (∀ x, x < n →
          ((ScState.visited ⟨acc, visited, []⟩).getD x false = true ↔
          Relation.ReflTransGen (scAdj p rivers punter) root x)) ∧
        ScState.acc ⟨acc, visited, []⟩ = visSum
          (fun x => (p.shortest_paths.getD mine_idx []).getD x 0) n
          (ScState.visited ⟨acc, visited, []⟩)) := by
    intro acc visited hinv hacc
    refine ⟨rfl, hinv.vlen, ?_, ?_⟩
    · intro x hx
      constructor
      · exact hinv.vis_reach x hx
      · intro hreach
        have : x < n ∧ visited.getD x false = true := by
          clear hx
          induction hreach with
          | refl => exact ⟨hinv.rootlt, hinv.root_vis⟩
          | @tail b c hxy hadj ihr =>
              obtain ⟨hbn, hbvis⟩ := ihr
              rcases hinv.vis_closed b hbn hbvis with hm | hcl
              · exact absurd hm (List.not_mem_nil b)
              · exact ⟨hstep b c hbn hadj, hcl c hadj⟩
        exact this.2
    · simpa using hacc
  intro fuel
  induction fuel with
  | zero =>
      intro acc visited q hinv hacc hfuel
      have hq : q = [] := List.length_eq_zero.mp (by omega)
      subst hq
      exact ⟨⟨acc, visited, []⟩, rfl, hterm acc visited hinv hacc⟩
  | succ fuel ih =>
      intro acc visited q hinv hacc hfuel
      cases q with
      | nil => exact ⟨⟨acc, visited, []⟩, rfl, hterm acc visited hinv hacc⟩
      | cons s rest =>
          have hslt : s < n := hinv.qlt s (by simp)
          have hsfin : (p.shortest_paths.getD mine_idx []).getD s 0 ≠ INF :=
            hinv.qfin s (by simp)
          obtain ⟨pushed, c1, c2, c3, c4, c5, c6, c7, c8, c9, c10⟩ :=
            scRelax_fold p rivers punter s n
              (fun x => (p.shortest_paths.getD mine_idx []).getD x 0)
              (p.edges.getD s []) visited rest hinv.vlen (fun _ h => h)
              (hedge s hslt)
              (fun x hx => hinv.qvis x (by simp [hx]))
              (List.Nodup.of_cons hinv.nodup)
          have hunf : scBfs p rivers punter mine_idx (fuel + 1)
              ⟨acc, visited, s :: rest⟩ =
              scBfs p rivers punter mine_idx fuel
                ⟨acc + (p.shortest_paths.getD mine_idx []).getD s 0 *
                  (p.shortest_paths.getD mine_idx []).getD s 0,
                 ((p.edges.getD s []).foldl (scRelax rivers punter s)
                   (visited, rest)).1,
                 ((p.edges.getD s []).foldl (scRelax rivers punter s)
                   (visited, rest)).2⟩ := by
            show (if (p.shortest_paths.getD mine_idx []).getD s 0 = INF
              then none else _) = _
            rw [if_neg hsfin]
          set F := (p.edges.getD s []).foldl (scRelax rivers punter s)
            (visited, rest) with hFdef
          have hnewinv : ScInv p rivers punter mine_idx root n F.1
              (rest ++ pushed) := by
            refine ⟨hinv.rootlt, c1, c3 root hinv.root_vis, ?_, ?_, ?_, c8,
              ?_, ?_⟩
            · intro x hx
              rcases List.mem_append.mp hx with hm | hm
              · exact hinv.qlt x (by simp [hm])
              · exact (c5 x hm).1
            · intro x hx
              rcases List.mem_append.mp hx with hm | hm
              · exact c3 x (hinv.qvis x (by simp [hm]))
              · exact c10 x hm
            · intro x hx
              rcases List.mem_append.mp hx with hm | hm
              · exact hinv.qfin x (by simp [hm])
              · exact hfin s x hslt hsfin (c5 x hm).2.2
            · intro x hx hvx
              rcases c6 x hvx with hold | hm
              · exact hinv.vis_reach x hx hold
              · exact (hinv.vis_reach s hslt
                  (hinv.qvis s (by simp))).tail (c5 x hm).2.2
            · intro x hx hvx
              rcases c6 x hvx with hold | hm
              · rcases hinv.vis_closed x hx hold with hmem | hcl
                · rcases List.mem_cons.mp hmem with he | hm2
                  · subst he
                    refine Or.inr ?_
                    rintro y ⟨ridx, hmem2, hcond, hother⟩
                    rw [← hother]
                    exact c7 ridx hmem2 hcond
                  · exact Or.inl (List.mem_append.mpr (Or.inl hm2))
                · refine Or.inr ?_
                  intro y hy
                  exact c3 y (hcl y hy)
              · exact Or.inl (List.mem_append.mpr (Or.inr hm))
          have hacc' : (acc + (p.shortest_paths.getD mine_idx []).getD s 0 *
              (p.shortest_paths.getD mine_idx []).getD s 0) +
              ((rest ++ pushed).map (fun x =>
                (p.shortest_paths.getD mine_idx []).getD x 0 *
                (p.shortest_paths.getD mine_idx []).getD x 0)).sum =
              visSum (fun x => (p.shortest_paths.getD mine_idx []).getD x 0)
                n F.1 := by
            rw [c9]
            simp only [List.map_cons, List.sum_cons] at hacc
            rw [List.map_append, List.sum_append]
            omega
          have hmeas : 2 * (n - trueCount F.1) + (rest ++ pushed).length ≤
              fuel := by
            rw [c4, List.length_append]
            have htc : trueCount visited + pushed.length ≤ n := by
              have h1 := trueCount_le_length F.1
              rw [c1] at h1
              omega
            simp only [List.length_cons] at hfuel
            omega
          obtain ⟨st, hst, hc⟩ := ih
            (acc + (p.shortest_paths.getD mine_idx []).getD s 0 *
              (p.shortest_paths.getD mine_idx []).getD s 0) F.1 F.2
            (by rw [c2]; exact hnewinv) (by rw [c2]; exact hacc')
            (by rw [c2]; exact hmeas)
          exact ⟨st, by rw [hunf]; exact hst, hc⟩

/-- The scorer BFS steps over the incidence lists coincide with
owned-or-rented adjacency in the rivers vector handed to
`compute_scores`. -/
theorem scAdj_iff_ownedAdj (input : Input) (ai : PunterType)
    (rivers : List River) (punter : ℕ)
    (hriv : ∀ r ∈ input.map.rivers, siteIdPresent input.map.sites r.source ∧
      siteIdPresent input.map.sites r.target)
    (hst : rivers.map River.strip =
      (indexRivers input.map).rivers.map River.strip)
    (b c : ℕ) :
    scAdj (Punter.new input ai) rivers punter b c ↔
      ownedAdj rivers punter b c := by
  have hlen : rivers.length = (indexRivers input.map).rivers.length := by
    have := congrArg List.length hst
    simpa using this
  constructor
  · rintro ⟨ridx, hmem, hcond, hother⟩
    by_cases hb : b < input.map.sites.length
    · obtain ⟨hlt, hinc⟩ :=
        (mem_computeEdges (indexRivers input.map) b ridx hb).mp hmem
      have hinc' : (rivers.getD ridx default).source_idx = b ∨
          (rivers.getD ridx default).target_idx = b := by
        rcases hinc with h | h
        · exact Or.inl (by rw [strip_source_idx (strip_getD hst ridx)]; exact h)
        · exact Or.inr (by rw [strip_target_idx (strip_getD hst ridx)]; exact h)
      exact ⟨ridx, by omega, (skip_cond_false_iff _ punter).mp hcond,
        (other_index_endpoints (rivers.getD ridx default) b c).mp
          ⟨hinc', hother⟩⟩
    · exfalso
      have hmem' : ridx ∈ (computeEdges (indexRivers input.map)).getD b [] :=
        hmem
      rw [List.getD_eq_getElem?_getD,
        List.getElem?_eq_none
          (by rw [computeEdges_length]; show input.map.sites.length ≤ b; omega)]
        at hmem'
      exact absurd hmem' (List.not_mem_nil ridx)
  · rintro ⟨k, hk, hown, hcase⟩
    have hkM : k < (indexRivers input.map).rivers.length := by omega
    have hcase' : (((indexRivers input.map).rivers.getD k default).source_idx
          = b ∧ ((indexRivers input.map).rivers.getD k default).target_idx =
          c) ∨
        (((indexRivers input.map).rivers.getD k default).target_idx = b ∧
          ((indexRivers input.map).rivers.getD k default).source_idx = c) := by
      rcases hcase with ⟨h1, h2⟩ | ⟨h1, h2⟩
      · exact Or.inl ⟨by rw [← strip_source_idx (strip_getD hst k)]; exact h1,
          by rw [← strip_target_idx (strip_getD hst k)]; exact h2⟩
      · exact Or.inr ⟨by rw [← strip_target_idx (strip_getD hst k)]; exact h1,
          by rw [← strip_source_idx (strip_getD hst k)]; exact h2⟩
    have hinc : ((indexRivers input.map).rivers.getD k default).source_idx =
        b ∨ ((indexRivers input.map).rivers.getD k default).target_idx = b := by
      rcases hcase' with ⟨h1, _⟩ | ⟨h1, _⟩
      · exact Or.inl h1
      · exact Or.inr h1
    have hb : b < input.map.sites.length := by
      have := indexed_endpoints_lt input.map hriv k hkM
      rcases hinc with h1 | h1
      · rw [← h1]; exact this.1
      · rw [← h1]; exact this.2
    exact ⟨k, (mem_computeEdges (indexRivers input.map) b k hb).mpr
        ⟨hkM, hinc⟩,
      (skip_cond_false_iff _ punter).mpr hown,
      ((other_index_endpoints (rivers.getD k default) b c).mpr hcase).2⟩

/-- Owned adjacency is in particular multigraph adjacency of the
indexed rivers. -/
theorem ownedAdj_imp_riverAdj (input : Input) (rivers : List River)
    (punter : ℕ)
    (hst : rivers.map River.strip =
      (indexRivers input.map).rivers.map River.strip)
    (u v : ℕ) (h : ownedAdj rivers punter u v) :
    riverAdj (indexRivers input.map).rivers u v := by
  obtain ⟨k, hk, _, hcase⟩ := h
  have hlen : rivers.length = (indexRivers input.map).rivers.length := by
    have := congrArg List.length hst
    simpa using this
  refine ⟨k, by omega, ?_⟩
  rcases hcase with ⟨h1, h2⟩ | ⟨h1, h2⟩
  · exact Or.inl ⟨by rw [← strip_source_idx (strip_getD hst k)]; exact h1,
      by rw [← strip_target_idx (strip_getD hst k)]; exact h2⟩
  · exact Or.inr ⟨by rw [← strip_target_idx (strip_getD hst k)]; exact h1,
      by rw [← strip_source_idx (strip_getD hst k)]; exact h2⟩

theorem mapM_some_of_forall {α β : Type} (f : α → Option β) (g : α → β) :
    ∀ l : List α, (∀ a ∈ l, f a = some (g a)) → l.mapM f = some (l.map g) := by
  intro l
  induction l with
  | nil => intro _; rfl
  | cons a t ih =>
      intro h
      rw [List.mapM_cons, h a (by simp), ih (fun b hb => h b (by simp [hb]))]
      rfl

theorem getD_map_range {g : ℕ → ℕ} {k i : ℕ} (h : i < k) :
    ((List.range k).map g).getD i 0 = g i := by
  rw [List.getD_eq_getElem?_getD, List.getElem?_map, List.getElem?_range h]
  rfl

/-- One mine's BFS contribution in `compute_scores`: the sum of squared
oracle distances over the sites reachable from the mine through this
punter's rivers. -/
theorem scoreMine_spec (input : Input) (ai : PunterType)
    (rivers : List River) (punter mine_idx : ℕ)
    (hn : input.map.sites.length < INF)
    (hriv : ∀ r ∈ input.map.rivers, siteIdPresent input.map.sites r.source ∧
      siteIdPresent input.map.sites r.target)
    (hmines : ∀ mn ∈ input.map.mines, siteIdPresent input.map.sites mn)
    (hst : rivers.map River.strip =
      (indexRivers input.map).rivers.map River.strip)
    (hmi : mine_idx < input.map.mines.length) :
    scoreMine (Punter.new input ai) rivers punter mine_idx
        (input.map.mines.getD mine_idx 0) =
      some (∑ x ∈ Finset.range input.map.sites.length,
        Set.indicator {y | Relation.ReflTransGen (ownedAdj rivers punter)
            (siteIndexFn input.map.sites (input.map.mines.getD mine_idx 0)) y}
          (fun y =>
            ((Punter.new input ai).shortest_paths.getD mine_idx []).getD y 0 *
            ((Punter.new input ai).shortest_paths.getD mine_idx []).getD y 0)
          x) := by
  have hend := indexed_endpoints_lt input.map hriv
  have hmn : input.map.mines.getD mine_idx 0 ∈ input.map.mines := getD_mem hmi
  have hmsi : siteIndexFn input.map.sites (input.map.mines.getD mine_idx 0) <
      input.map.sites.length :=
    (siteIndexFn_spec _ _ (hmines _ hmn)).1
  obtain ⟨p1, p2, p3⟩ :=
    spRow_props (indexRivers input.map) mine_idx hmi hn hend hmsi
  have hfin0 : ((Punter.new input ai).shortest_paths.getD mine_idx []).getD
      (siteIndexFn input.map.sites (input.map.mines.getD mine_idx 0)) 0 ≠
      INF := by
    have h0 : ((Punter.new input ai).shortest_paths.getD mine_idx []).getD
        (siteIndexFn input.map.sites (input.map.mines.getD mine_idx 0)) 0 =
        0 := p1
    rw [h0]
    exact Nat.ne_of_lt INF_pos
  have hedge : ∀ s, s < input.map.sites.length →
      ∀ ridx ∈ (Punter.new input ai).edges.getD s [],
        (rivers.getD ridx default).other_index s <
          input.map.sites.length := by
    intro s hs ridx hmem
    obtain ⟨hlt, _⟩ :=
      (mem_computeEdges (indexRivers input.map) s ridx hs).mp hmem
    rw [strip_other_index (strip_getD hst ridx) s]
    rcases other_index_cases ((indexRivers input.map).rivers.getD ridx default)
        s with h | h
    · rw [h]; exact (hend ridx hlt).2
    · rw [h]; exact (hend ridx hlt).1
  have hfin : ∀ s x, s < input.map.sites.length →
      ((Punter.new input ai).shortest_paths.getD mine_idx []).getD s 0 ≠
        INF →
      scAdj (Punter.new input ai) rivers punter s x →
      ((Punter.new input ai).shortest_paths.getD mine_idx []).getD x 0 ≠
        INF := by
    rintro s x hs hsfin ⟨ridx, hmem, hcond, hother⟩
    obtain ⟨hlt, hinc⟩ :=
      (mem_computeEdges (indexRivers input.map) s ridx hs).mp hmem
    have hother' : ((indexRivers input.map).rivers.getD ridx
        default).other_index s = x := by
      rw [← strip_other_index (strip_getD hst ridx) s]
      exact hother
    rcases (other_index_endpoints
        ((indexRivers input.map).rivers.getD ridx default) s x).mp
        ⟨hinc, hother'⟩ with ⟨h1, h2⟩ | ⟨h1, h2⟩
    · have hp := (p3 ridx hlt).1
      rw [h1, h2] at hp
      exact (hp hsfin).1
    · have hp := (p3 ridx hlt).2
      rw [h1, h2] at hp
      exact (hp hsfin).1
  have hmsil : siteIndexFn input.map.sites (input.map.mines.getD mine_idx 0) <
      (List.replicate input.map.sites.length false).length := by
    rw [List.length_replicate]
    exact hmsi
  have hinit := scInv_init (Punter.new input ai) rivers punter mine_idx
    (siteIndexFn input.map.sites (input.map.mines.getD mine_idx 0))
    input.map.sites.length hmsi hfin0
  have hacc0 : (0 : ℕ) +
      ([siteIndexFn input.map.sites (input.map.mines.getD mine_idx 0)].map
        (fun x =>
          ((Punter.new input ai).shortest_paths.getD mine_idx []).getD x 0 *
          ((Punter.new input ai).shortest_paths.getD mine_idx []).getD x
            0)).sum =
      visSum (fun x =>
          ((Punter.new input ai).shortest_paths.getD mine_idx []).getD x 0)
        input.map.sites.length
        ((List.replicate input.map.sites.length false).set
          (siteIndexFn input.map.sites (input.map.mines.getD mine_idx 0))
          true) := by
    rw [visSum_set _ input.map.sites.length hmsi hmsil
      (getD_replicate' hmsi), visSum_replicate_false]
    simp
  have hmeas : 2 * (input.map.sites.length -
      trueCount ((List.replicate input.map.sites.length false).set
        (siteIndexFn input.map.sites (input.map.mines.getD mine_idx 0))
        true)) +
      [siteIndexFn input.map.sites (input.map.mines.getD mine_idx 0)].length ≤
      2 * input.map.sites.length + 1 := by
    rw [trueCount_set hmsil (getD_replicate' hmsi), trueCount_replicate_false]
    simp only [List.length_singleton]
    omega
  obtain ⟨st, hrun, hque, hslen, hiff, haccf⟩ :=
    scBfs_run (Punter.new input ai) rivers punter mine_idx
      (siteIndexFn input.map.sites (input.map.mines.getD mine_idx 0))
      input.map.sites.length hedge hfin
      (2 * input.map.sites.length + 1) 0
      ((List.replicate input.map.sites.length false).set
        (siteIndexFn input.map.sites (input.map.mines.getD mine_idx 0)) true)
      [siteIndexFn input.map.sites (input.map.mines.getD mine_idx 0)]
      hinit hacc0 hmeas
  have hunf : scoreMine (Punter.new input ai) rivers punter mine_idx
      (input.map.mines.getD mine_idx 0) =
      (scBfs (Punter.new input ai) rivers punter mine_idx
        (2 * input.map.sites.length + 1)
        ⟨0, (List.replicate input.map.sites.length false).set
          (siteIndexFn input.map.sites (input.map.mines.getD mine_idx 0))
          true,
         [siteIndexFn input.map.sites (input.map.mines.getD mine_idx 0)]⟩).bind
        (fun st => some st.acc) := rfl
  rw [hunf, hrun]
  show some st.acc = _
  refine congrArg some ?_
  rw [haccf]
  have hbridge := scAdj_iff_ownedAdj input ai rivers punter hriv hst
  unfold visSum
  refine Finset.sum_congr rfl ?_
  intro x hx
  have hxn := Finset.mem_range.mp hx
  by_cases hvx : st.visited.getD x false = true
  · have hmem : x ∈ {y | Relation.ReflTransGen (ownedAdj rivers punter)
        (siteIndexFn input.map.sites (input.map.mines.getD mine_idx 0)) y} :=
      Relation.ReflTransGen.mono (fun a b hab => (hbridge a b).mp hab)
        ((hiff x hxn).mp hvx)
    rw [if_pos hvx, Set.indicator_of_mem hmem]
  · have hmem : x ∉ {y | Relation.ReflTransGen (ownedAdj rivers punter)
        (siteIndexFn input.map.sites (input.map.mines.getD mine_idx 0)) y} :=
      fun hmem => hvx ((hiff x hxn).mpr
        (Relation.ReflTransGen.mono (fun a b hab => (hbridge a b).mpr hab)
          hmem))
    rw [if_neg hvx, Set.indicator_of_not_mem hmem]

/-- The per-punter mine loop of `compute_scores`, for any suffix of the
mine list starting at ordinal `j`. -/
theorem scorePunter_go (input : Input) (ai : PunterType)
    (rivers : List River) (punter : ℕ)
    (hn : input.map.sites.length < INF)
    (hriv : ∀ r ∈ input.map.rivers, siteIdPresent input.map.sites r.source ∧
      siteIdPresent input.map.sites r.target)
    (hmines : ∀ mn ∈ input.map.mines, siteIdPresent input.map.sites mn)
    (hst : rivers.map River.strip =
      (indexRivers input.map).rivers.map River.strip) :
    ∀ (ms : List ℕ) (j : ℕ),
      j + ms.length ≤ input.map.mines.length →
      (∀ i, i < ms.length → ms.getD i 0 = input.map.mines.getD (j + i) 0) →
      scorePunter (Punter.new input ai) rivers punter j ms =
        some (∑ i ∈ Finset.range ms.length,
          ∑ x ∈ Finset.range input.map.sites.length,
            Set.indicator {y | Relation.ReflTransGen (ownedAdj rivers punter)
                (siteIndexFn input.map.sites
                  (input.map.mines.getD (j + i) 0)) y}
              (fun y =>
                ((Punter.new input ai).shortest_paths.getD (j + i) []).getD
                  y 0 *
                ((Punter.new input ai).shortest_paths.getD (j + i) []).getD
                  y 0) x) := by
  intro ms
  induction ms with
  | nil =>
      intro j _ _
      simp [scorePunter]
  | cons mn rest ih =>
      intro j hlen hidx
      have hmn : mn = input.map.mines.getD j 0 := by
        have := hidx 0 (by simp)
        simpa using this
      have hmi : j < input.map.mines.length := by
        simp only [List.length_cons] at hlen
        omega
      have hsm := scoreMine_spec input ai rivers punter j hn hriv hmines hst
        hmi
      have hrec := ih (j + 1)
        (by simp only [List.length_cons] at hlen; omega)
        (by
          intro i hi
          have := hidx (i + 1) (by simp only [List.length_cons]; omega)
          rw [List.getD_cons_succ] at this
          rw [this, show j + (i + 1) = j + 1 + i from by omega])
      have hunf : scorePunter (Punter.new input ai) rivers punter j
          (mn :: rest) =
          (scoreMine (Punter.new input ai) rivers punter j mn).bind
            (fun s => (scorePunter (Punter.new input ai) rivers punter
              (j + 1) rest).bind (fun r => some (s + r))) := rfl
      have hadd : ∀ i : ℕ, j + 1 + i = j + (i + 1) := fun i => by omega
      simp only [hadd] at hrec
      rw [hunf, hmn, hsm, hrec]
      show some _ = _
      refine congrArg some ?_
      rw [List.length_cons, Finset.sum_range_succ']
      simp only [Nat.add_zero]
      exact Nat.add_comm _ _

/-- `compute_scores` never fails and computes, for every punter, the
squared-distance sum over the owned-reachable sites of every mine. -/
theorem compute_scores_spec (input : Input) (ai : PunterType)
    (rivers : List River)
    (hn : input.map.sites.length < INF)
    (hriv : ∀ r ∈ input.map.rivers, siteIdPresent input.map.sites r.source ∧
      siteIdPresent input.map.sites r.target)
    (hmines : ∀ mn ∈ input.map.mines, siteIdPresent input.map.sites mn)
    (hst : rivers.map River.strip =
      (indexRivers input.map).rivers.map River.strip) :
    (Punter.new input ai).compute_scores rivers =
      some ((List.range input.punters).map (fun punter =>
        ∑ i ∈ Finset.range input.map.mines.length,
          ∑ x ∈ Finset.range input.map.sites.length,
            Set.indicator {y | Relation.ReflTransGen (ownedAdj rivers punter)
                (siteIndexFn input.map.sites (input.map.mines.getD i 0)) y}
              (fun y =>
                ((Punter.new input ai).shortest_paths.getD i []).getD y 0 *
                ((Punter.new input ai).shortest_paths.getD i []).getD y 0)
              x)) := by
  show (List.range input.punters).mapM (fun punter =>
      scorePunter (Punter.new input ai) rivers punter 0 input.map.mines) = _
  apply mapM_some_of_forall
  intro punter _
  have hgo := scorePunter_go input ai rivers punter hn hriv hmines hst
    input.map.mines 0 (by omega) (fun i hi => by rw [Nat.zero_add])
  rw [hgo]
  refine congrArg some ?_
  refine Finset.sum_congr rfl ?_
  intro i _
  rw [Nat.zero_add]

/-- C10: the scorer's internal assertion never fails.  Any site reachable
from a mine through rivers owned or rented by some punter has a finite
entry in the distance table, and `compute_scores` returns a result (it is
panic-free) for every ownership configuration of the board's rivers. -/
theorem C10_scorer_assert (input : Input) (ai : PunterType)
    (rivers : List River)
    (hn : input.map.sites.length < INF)
    (hriv : ∀ r ∈ input.map.rivers, siteIdPresent input.map.sites r.source ∧
      siteIdPresent input.map.sites r.target)
    (hmines : ∀ mn ∈ input.map.mines, siteIdPresent input.map.sites mn)
    (hst : rivers.map River.strip =
      (indexRivers input.map).rivers.map River.strip) :
    (∀ punter mine_idx x, mine_idx < input.map.mines.length →
      x < input.map.sites.length →
      Relation.ReflTransGen (ownedAdj rivers punter)
        (siteIndexFn input.map.sites (input.map.mines.getD mine_idx 0)) x →
      ((Punter.new input ai).shortest_paths.getD mine_idx []).getD x 0 ≠
        INF) ∧
    ∃ scores, (Punter.new input ai).compute_scores rivers = some scores := by
  refine ⟨?_, ⟨_, compute_scores_spec input ai rivers hn hriv hmines hst⟩⟩
  intro punter mine_idx x hmi hx hreach
  have hend := indexed_endpoints_lt input.map hriv
  have hmn : input.map.mines.getD mine_idx 0 ∈ input.map.mines := getD_mem hmi
  have hmsi : siteIndexFn input.map.sites (input.map.mines.getD mine_idx 0) <
      input.map.sites.length :=
    (siteIndexFn_spec _ _ (hmines _ hmn)).1
  obtain ⟨p1, p2, p3⟩ :=
    spRow_props (indexRivers input.map) mine_idx hmi hn hend hmsi
  have hreach' : Relation.ReflTransGen
      (riverAdj (indexRivers input.map).rivers)
      (siteIndexFn input.map.sites (input.map.mines.getD mine_idx 0)) x :=
    Relation.ReflTransGen.mono
      (fun a b hab => ownedAdj_imp_riverAdj input rivers punter hst a b hab)
      hreach
  exact (p2 x hx).mpr hreach'

/-- C10, witness: the assertion safety instantiated on the sample map
with the scenario-3 ownership (punter 1 owning river (1,3)). -/
theorem C10_witness :
    (sampleMap.sites.length < INF ∧
     (∀ r ∈ sampleMap.rivers, siteIdPresent sampleMap.sites r.source ∧
       siteIdPresent sampleMap.sites r.target) ∧
     (∀ mn ∈ sampleMap.mines, siteIdPresent sampleMap.sites mn) ∧
     scen3Rivers.map River.strip =
       (indexRivers sampleMap).rivers.map River.strip) ∧
    ((∀ punter mine_idx x, mine_idx < sampleMap.mines.length →
      x < sampleMap.sites.length →
      Relation.ReflTransGen (ownedAdj scen3Rivers punter)
        (siteIndexFn sampleMap.sites (sampleMap.mines.getD mine_idx 0)) x →
      (samplePunter.shortest_paths.getD mine_idx []).getD x 0 ≠ INF) ∧
    ∃ scores, samplePunter.compute_scores scen3Rivers = some scores) :=
  ⟨⟨by decide, by decide, by decide, by decide⟩,
   C10_scorer_assert { punter := 1, punters := 2, map := sampleMap } .MCTS
     scen3Rivers (by decide) (by decide) (by decide) (by decide)⟩

/-- C5: for every ownership configuration, `compute_scores` gives every
punter the sum, over mines and over the sites reachable from the mine
through rivers that punter owns or rents, of the squared oracle distance;
and on concrete scenario 3 (the sample 8-site map, punter 1 owning only
the river (1,3)), punter 1 scores exactly 1. -/
theorem C5_scorer :
    (∀ (input : Input) (ai : PunterType) (rivers : List River),
      input.map.sites.length < INF →
      (∀ r ∈ input.map.rivers, siteIdPresent input.map.sites r.source ∧
        siteIdPresent input.map.sites r.target) →
      (∀ mn ∈ input.map.mines, siteIdPresent input.map.sites mn) →
      rivers.map River.strip =
        (indexRivers input.map).rivers.map River.strip →
      ∃ scores, (Punter.new input ai).compute_scores rivers = some scores ∧
        scores.length = input.punters ∧
        (∀ punter, punter < input.punters →
          scores.getD punter 0 =
            ∑ i ∈ Finset.range input.map.mines.length,
              ∑ x ∈ Finset.range input.map.sites.length,
                Set.indicator
                  {y | Relation.ReflTransGen (ownedAdj rivers punter)
                    (siteIndexFn input.map.sites
                      (input.map.mines.getD i 0)) y}
                  (fun y =>
                    ((Punter.new input ai).shortest_paths.getD i []).getD
                      y 0 *
                    ((Punter.new input ai).shortest_paths.getD i []).getD
                      y 0) x)) ∧
    (samplePunter.compute_scores scen3Rivers).map (fun s => s.getD 1 0) =
      some 1 := by
  refine ⟨?_, by decide⟩
  intro input ai rivers hn hriv hmines hst
  refine ⟨_, compute_scores_spec input ai rivers hn hriv hmines hst, ?_, ?_⟩
  · rw [List.length_map, List.length_range]
  · intro punter hpu
    exact getD_map_range hpu

/-- C5, witness: the scorer characterization instantiated on the sample
map with the scenario-3 ownership. -/
theorem C5_witness :
    (sampleMap.sites.length < INF ∧
     (∀ r ∈ sampleMap.rivers, siteIdPresent sampleMap.sites r.source ∧
       siteIdPresent sampleMap.sites r.target) ∧
     (∀ mn ∈ sampleMap.mines, siteIdPresent sampleMap.sites mn) ∧
     scen3Rivers.map River.strip =
       (indexRivers sampleMap).rivers.map River.strip) ∧
    (∃ scores, samplePunter.compute_scores scen3Rivers = some scores ∧
      scores.length = 2 ∧
      (∀ punter, punter < 2 →
        scores.getD punter 0 =
          ∑ i ∈ Finset.range sampleMap.mines.length,
            ∑ x ∈ Finset.range sampleMap.sites.length,
              Set.indicator
                {y | Relation.ReflTransGen (ownedAdj scen3Rivers punter)
                  (siteIndexFn sampleMap.sites (sampleMap.mines.getD i 0)) y}
                (fun y =>
                  (samplePunter.shortest_paths.getD i []).getD y 0 *
                  (samplePunter.shortest_paths.getD i []).getD y 0) x)) :=
  ⟨⟨by decide, by decide, by decide, by decide⟩,
   C5_scorer.1 { punter := 1, punters := 2, map := sampleMap } .MCTS
     scen3Rivers (by decide) (by decide) (by decide) (by decide)⟩

end Icfp

namespace Icfp

theorem addAlong_fields (v : ℚ) (path : List ℕ) (T : MNode) :
    (addAlong v path T).count = T.count + 1 ∧
    (addAlong v path T).score = T.score + v ∧
    (addAlong v path T).play = T.play ∧
    (addAlong v path T).status = T.status := by
  cases path <;> cases T <;> exact ⟨rfl, rfl, rfl, rfl⟩

theorem withStatus_fields (t : MNode) (s : NodeStatus) :
    (t.withStatus s).score = t.score ∧ (t.withStatus s).count = t.count ∧
    (t.withStatus s).play = t.play ∧
    (t.withStatus s).children = t.children ∧
    (t.withStatus s).status = s := by
  cases t
  exact ⟨rfl, rfl, rfl, rfl, rfl⟩

/-- Backpropagation acts on every prefix of its path (the focus and all
its ancestors): the addressed node keeps its identity and gets exactly
`+1` on `n` and `+v` on `s`. -/
theorem addAlong_nodeAt (v : ℚ) :
    ∀ (q path : List ℕ) (T node : MNode), q <+: path →
      nodeAt q T = some node →
      ∃ node', nodeAt q (addAlong v path T) = some node' ∧
        node'.count = node.count + 1 ∧ node'.score = node.score + v := by
  intro q
  induction q with
  | nil =>
      intro path T node _ hT
      have hTn : T = node := by
        simpa [nodeAt] using hT
      subst hTn
      obtain ⟨h1, h2, _, _⟩ := addAlong_fields v path T
      exact ⟨addAlong v path T, rfl, h1, h2⟩
  | cons i q' ih =>
      intro path T node hpre hT
      obtain ⟨rest', hre⟩ := hpre
      subst hre
      cases T with
      | mk pl ch st sc cnt =>
          simp only [nodeAt, MNode.children, Option.bind_eq_some] at hT
          obtain ⟨cnode, hcn, hq'⟩ := hT
          obtain ⟨node', h1, h2, h3⟩ := ih (q' ++ rest') cnode node
            ⟨rest', rfl⟩ hq'
          refine ⟨node', ?_, h2, h3⟩
          show ((ch.modify (addAlong v (q' ++ rest')) i).get? i).bind
            (nodeAt q') = some node'
          rw [List.get?_eq_getElem?, List.getElem?_modify]
          rw [List.get?_eq_getElem?] at hcn
          rw [hcn]
          simp only [Option.map_some, if_pos rfl, Option.some_bind]
          exact h1

/-- C2 (amended): in every completed step, backpropagation adds 1 to the
count and the step's value to the score of the focus node and of every
ancestor up to the root; the value is the harness score (the
`terminal_score()`) when a child was expanded, but it is the leaf's own
cumulative `s` field when the leaf is terminal. -/
theorem C2_backprop_value (p : Punter) (o : Oracle) (c : ℝ) (t : MNode)
    (g : Harness) (res : StepResult)
    (h : step p o c t g = some res) :
    (res.expanded = true → Harness.score p res.game = some res.value) ∧
    (res.expanded = false → ∃ leaf, nodeAt res.focus t = some leaf ∧
      res.value = leaf.score) ∧
    (∃ pre, res.tree = addAlong res.value res.focus pre ∧
      ∀ q node, q <+: res.focus → nodeAt q pre = some node →
        ∃ node', nodeAt q res.tree = some node' ∧
          node'.count = node.count + 1 ∧
          node'.score = node.score + res.value) := by
  unfold step at h
  simp only [Option.bind_eq_bind, Option.bind_eq_some] at h
  obtain ⟨pg, hpg, leaf, hleaf, ex, hex, h⟩ := h
  split at h
  · -- a child was expanded: the value is the simulated harness score
    simp only [Option.bind_eq_bind, Option.bind_eq_some] at h
    obtain ⟨g2, hg2, v, hv, h⟩ := h
    simp only [Option.pure_def, Option.some_inj] at h
    subst h
    refine ⟨fun _ => hv, ?_, ?_⟩
    · intro h'
      simp at h'
    · refine ⟨_, rfl, ?_⟩
      intro q node hq hnode
      exact addAlong_nodeAt v q _ _ node hq hnode
  · -- terminal leaf: the value is the leaf's own cumulative score
    split at h
    · simp only [Option.pure_def, Option.some_inj] at h
      subst h
      refine ⟨?_, ?_, ?_⟩
      · intro h'
        simp at h'
      · intro _
        refine ⟨leaf, hleaf, ?_⟩
        unfold expandNode at hex
        simp only [Option.bind_eq_bind, Option.bind_eq_some] at hex
        obtain ⟨moves, hmoves, hex2⟩ := hex
        split at hex2
        · simp only [Option.pure_def, Option.some_inj, Prod.mk.injEq] at hex2
          obtain ⟨hleaf', _⟩ := hex2
          show _ = leaf.score
          rw [← hleaf']
          exact (withStatus_fields leaf .Done).1
        · simp only [Option.bind_eq_bind, Option.bind_eq_some] at hex2
          obtain ⟨pl, hpl, hex3⟩ := hex2
          split at hex3
          · cases hex3
          · simp only [Option.pure_def, Option.some_inj, Prod.mk.injEq]
              at hex3
            cases hex3.2
      · refine ⟨_, rfl, ?_⟩
        intro q node hq hnode
        exact addAlong_nodeAt _ q _ _ node hq hnode
    · cases h

/-- C2, witness: a concrete completed step on the 2-site board. -/
theorem C2_witness :
    ∃ res, step tinyPunter detOracle 1.4 (MNode.new none)
        (resetHarness tinyPunter) = some res ∧
      ((res.expanded = true →
        Harness.score tinyPunter res.game = some res.value) ∧
       (res.expanded = false → ∃ leaf,
         nodeAt res.focus (MNode.new none) = some leaf ∧
         res.value = leaf.score) ∧
       (∃ pre, res.tree = addAlong res.value res.focus pre ∧
         ∀ q node, q <+: res.focus → nodeAt q pre = some node →
           ∃ node', nodeAt q res.tree = some node' ∧
             node'.count = node.count + 1 ∧
             node'.score = node.score + res.value)) := by
  have h : (step tinyPunter detOracle 1.4 (MNode.new none)
      (resetHarness tinyPunter)).isSome = true := by decide
  exact ⟨Option.get _ h, (Option.some_get h).symm,
    C2_backprop_value tinyPunter detOracle 1.4 (MNode.new none)
      (resetHarness tinyPunter) _ (Option.some_get h).symm⟩

end Icfp

namespace Icfp

theorem HOk.ne_notStarted {g : Harness} (h : HOk g) :
    g.status ≠ .NotStarted := by
  rcases h.1 with h1 | ⟨h1, _⟩ <;> rw [h1] <;> intro h2 <;> cases h2

theorem HOk_reset (p : Punter) : HOk (resetHarness p) := by
  refine ⟨Or.inl rfl, ?_⟩
  intro x hx
  have hx' : x ∈ (Finset.range p.input.map.rivers.length).filter
      (fun x => (p.input.map.rivers.getD x default).owner = none) := hx
  rw [Finset.mem_filter, Finset.mem_range] at hx'
  exact hx'

theorem HOk_move (p : Punter) {g : Harness} (hok : HOk g) {a : ℕ}
    (ha : a ∈ g.available_rivers) :
    ∃ g', Harness.make_move p g a = some g' ∧ HOk g' ∧
      g'.available_rivers = g.available_rivers.erase a := by
  obtain ⟨hstat, hmem⟩ := hok
  have hplay : g.status = .Playing := by
    rcases hstat with h | ⟨_, hav⟩
    · exact h
    · exact absurd (hav ▸ ha) (Finset.not_mem_empty a)
  obtain ⟨hlt, hown⟩ := hmem a ha
  have hget : g.rivers.get? a = some (g.rivers.getD a default) := by
    rw [List.get?_eq_getElem?, List.getElem?_eq_getElem hlt,
      List.getD_eq_getElem?_getD, List.getElem?_eq_getElem hlt]
    rfl
  have hadd : (g.rivers.getD a default).add_owner g.current_punter =
      some { g.rivers.getD a default with owner := some g.current_punter } := by
    unfold River.add_owner
    rw [hown]
    rfl
  refine ⟨{ status := if g.available_rivers.erase a = ∅ then .Finished
              else g.status,
            current_punter := (g.current_punter + 1) % p.input.punters,
            rivers := g.rivers.set a
              { g.rivers.getD a default with owner := some g.current_punter },
            available_rivers := g.available_rivers.erase a }, ?_, ?_, rfl⟩
  · unfold Harness.make_move
    rw [if_pos hplay, hget]
    simp only [Option.bind_eq_bind, Option.some_bind, hadd, Option.pure_def]
  · constructor
    · by_cases he : g.available_rivers.erase a = ∅
      · refine Or.inr ⟨?_, he⟩
        show (if g.available_rivers.erase a = ∅ then GameStatus.Finished
          else g.status) = .Finished
        rw [if_pos he]
      · refine Or.inl ?_
        show (if g.available_rivers.erase a = ∅ then GameStatus.Finished
          else g.status) = .Playing
        rw [if_neg he]
        exact hplay
    · intro x hx
      have hxa : x ≠ a := (Finset.mem_erase.mp hx).1
      have hxg : x ∈ g.available_rivers := (Finset.mem_erase.mp hx).2
      obtain ⟨h1, h2⟩ := hmem x hxg
      refine ⟨by rw [List.length_set]; exact h1, ?_⟩
      rw [getD_set_other' (fun he => hxa he.symm)]
      exact h2

theorem mem_foldl_erase : ∀ (l : List ℕ) (s : Finset ℕ) (x : ℕ),
    (x ∈ l.foldl Finset.erase s ↔ x ∈ s ∧ x ∉ l) := by
  intro l
  induction l with
  | nil =>
      intro s x
      simp
  | cons a t ih =>
      intro s x
      rw [List.foldl_cons, ih, Finset.mem_erase]
      constructor
      · rintro ⟨⟨hxa, hs⟩, ht⟩
        exact ⟨hs, by simp [hxa, ht]⟩
      · rintro ⟨hs, hmemx⟩
        simp only [List.mem_cons, not_or] at hmemx
        exact ⟨⟨hmemx.1, hs⟩, hmemx.2⟩

theorem sumCounts_append (l₁ l₂ : List MNode) :
    sumCounts (l₁ ++ l₂) = sumCounts l₁ + sumCounts l₂ := by
  simp [sumCounts]

theorem sumCounts_modify : ∀ (l : List MNode) (K : MNode → MNode) (i : ℕ)
    (hi : i < l.length), (K l[i]).count = l[i].count + 1 →
    sumCounts (l.modify K i) = sumCounts l + 1 := by
  intro l
  induction l with
  | nil =>
      intro K i hi
      simp at hi
  | cons x xs ih =>
      intro K i hi hK
      cases i with
      | zero =>
          simp only [List.getElem_cons_zero] at hK
          show sumCounts (K x :: xs) = sumCounts (x :: xs) + 1
          simp only [sumCounts, List.map_cons, List.sum_cons] at hK ⊢
          rw [hK]
          ring
      | succ n =>
          simp only [List.getElem_cons_succ] at hK
          have hn : n < xs.length := by simpa using hi
          have := ih K n hn hK
          show sumCounts (x :: xs.modify K n) = sumCounts (x :: xs) + 1
          simp only [sumCounts, List.map_cons, List.sum_cons] at this ⊢
          rw [this]
          ring

theorem mapPlay_modify (l : List MNode) (K : MNode → MNode) (i : ℕ)
    (hi : i < l.length) (hp : (K l[i]).play = l[i].play) :
    (l.modify K i).map MNode.play = l.map MNode.play := by
  apply List.ext_getElem?
  intro j
  rw [List.getElem?_map, List.getElem?_map, List.getElem?_modify]
  by_cases hij : i = j
  · subst hij
    rw [List.getElem?_eq_getElem hi]
    simp [hp]
  · cases hj : l[j]? with
    | none => simp
    | some c => simp [hij]

theorem modify_modify {α : Type} (l : List α) (f g : α → α) (i : ℕ) :
    (l.modify f i).modify g i = l.modify (fun x => g (f x)) i := by
  apply List.ext_getElem?
  intro j
  rw [List.getElem?_modify, List.getElem?_modify, List.getElem?_modify]
  by_cases hij : i = j <;> cases hj : l[j]? <;> simp [hij]

theorem mapM_play_of_all_some : ∀ (l : List MNode),
    (∀ i (h : i < l.length), ∃ a, (l[i]).play = some a) →
    l.mapM MNode.play = some ((l.map MNode.play).reduceOption) ∧
    l.map MNode.play = ((l.map MNode.play).reduceOption).map some := by
  intro l
  induction l with
  | nil => intro _; exact ⟨rfl, rfl⟩
  | cons x xs ih =>
      intro h
      obtain ⟨a, ha⟩ := h 0 (by simp)
      simp only [List.getElem_cons_zero] at ha
      obtain ⟨ih1, ih2⟩ := ih (fun i hi => by
        have := h (i + 1) (by simpa using Nat.succ_lt_succ hi)
        simpa using this)
      constructor
      · rw [List.mapM_cons, ha, ih1]
        simp only [List.map_cons, ha, List.reduceOption_cons_of_some]
        rfl
      · simp only [List.map_cons, ha, List.reduceOption_cons_of_some,
          List.map_cons]
        rw [← ih2]

theorem selectGo_descend (p : Punter) (o : Oracle) (c : ℝ) :
    ∀ fuel t g path gl, selectGo p o c fuel t g = some (path, gl) →
      descend p path t g = some gl := by
  intro fuel
  induction fuel with
  | zero =>
      intro t g path gl h
      simp [selectGo] at h
  | succ fuel ih =>
      intro t g path gl h
      unfold selectGo at h
      split at h
      · -- the node is Expanded: ask the selector
        split at h
        · -- selector returned none: stop here
          have h1 : path = [] ∧ gl = g := by
            have h2 := h.symm
            simp only [Option.some_inj, Prod.mk.injEq] at h2
            exact h2
          rw [h1.1, h1.2]
          rfl
        · rename_i ival heqsel
          split at h
          · rename_i hlt
            split at h
            · cases h
            · rename_i a hplay
              simp only [Option.bind_eq_bind, Option.bind_eq_some] at h
              obtain ⟨g', hg', pg, hpg, h⟩ := h
              simp only [Option.pure_def, Option.some_inj, Prod.mk.injEq] at h
              obtain ⟨h1, h2⟩ := h
              subst h1
              subst h2
              show descend p (ival :: pg.1) t g = some pg.2
              unfold descend
              rw [List.get?_eq_get hlt]
              simp only [Option.bind_eq_bind, Option.some_bind, hplay, hg']
              exact ih _ _ pg.1 pg.2 hpg
          · cases h
      · -- Done or Expandable: this is the leaf
        have h1 : path = [] ∧ gl = g := by
          have h2 := h.symm
          simp only [Option.some_inj, Prod.mk.injEq] at h2
          exact h2
        rw [h1.1, h1.2]
        rfl

/-- Extract the invariant of the node addressed by a select path,
together with its replayed harness. -/
theorem treeInv_at (p : Punter) :
    ∀ (path : List ℕ) (b : Bool) (g : Harness) (t : MNode) (gl : Harness)
      (leaf : MNode),
      TreeInv p b g t → nodeAt path t = some leaf →
      descend p path t g = some gl →
      (path = [] → leaf = t ∧ gl = g) ∧
      (path ≠ [] → TreeInv p false gl leaf) := by
  intro path
  induction path with
  | nil =>
      intro b g t gl leaf hinv hleaf hdes
      have h1 : t = leaf := by simpa [nodeAt] using hleaf
      have h2 : g = gl := by simpa [descend] using hdes
      exact ⟨fun _ => ⟨h1.symm, h2.symm⟩, fun hne => absurd rfl hne⟩
  | cons i rest ih =>
      intro b g t gl leaf hinv hleaf hdes
      refine ⟨fun he => (List.cons_ne_nil i rest he).elim, fun _ => ?_⟩
      cases t with
      | mk pl ch st sc cnt =>
          simp only [nodeAt, MNode.children, Option.bind_eq_some] at hleaf
          obtain ⟨cnode, hcn, hrest⟩ := hleaf
          unfold descend at hdes
          simp only [MNode.children, Option.bind_eq_bind, Option.bind_eq_some]
            at hdes
          obtain ⟨cnode', hcn', a, hplay, g₁, hmv, hrec⟩ := hdes
          rw [hcn] at hcn'
          have hcc : cnode' = cnode := by
            simpa using hcn'.symm
          rw [hcc] at hplay hrec
          rw [TreeInv] at hinv
          obtain ⟨_, hch, _⟩ := hinv
          simp only [MNode.children] at hch
          have hlt : i < ch.length := by
            by_contra hge
            rw [List.get?_eq_getElem?,
              List.getElem?_eq_none (by omega)] at hcn
            cases hcn
          have hcnget : ch[i] = cnode := by
            rw [List.get?_eq_getElem?, List.getElem?_eq_getElem hlt] at hcn
            simpa using hcn
          obtain ⟨a', g'', hplay', hmem', hmv', hcinv⟩ := hch i hlt
          rw [hcnget] at hplay' hcinv
          rw [hplay] at hplay'
          have haa : a' = a := by simpa using hplay'.symm
          subst haa
          rw [hmv] at hmv'
          have hgg : g'' = g₁ := by simpa using hmv'.symm
          rw [hgg] at hcinv
          cases rest with
          | nil =>
              have h1 : cnode = leaf := by simpa [nodeAt] using hrest
              have h2 : g₁ = gl := by simpa [descend] using hrec
              rw [← h1, ← h2]
              exact hcinv
          | cons j rest' =>
              exact (ih false g₁ cnode gl leaf hcinv hrest hrec).2 (by simp)

/-- Every addressed non-root node satisfies the non-root invariant for
some replayed harness. -/
theorem treeInv_nodeAt (p : Punter) :
    ∀ (q : List ℕ) (b : Bool) (g : Harness) (t node : MNode),
      TreeInv p b g t → nodeAt q t = some node → q ≠ [] →
      ∃ g', TreeInv p false g' node := by
  intro q
  induction q with
  | nil =>
      intro _ _ _ _ _ _ hne
      exact absurd rfl hne
  | cons i rest ih =>
      intro b g t node hinv hnode _
      cases t with
      | mk pl ch st sc cnt =>
          simp only [nodeAt, MNode.children, Option.bind_eq_some] at hnode
          obtain ⟨cnode, hcn, hrest⟩ := hnode
          rw [TreeInv] at hinv
          obtain ⟨_, hch, _⟩ := hinv
          simp only [MNode.children] at hch
          have hlt : i < ch.length := by
            by_contra hge
            rw [List.get?_eq_getElem?,
              List.getElem?_eq_none (by omega)] at hcn
            cases hcn
          have hcnget : ch[i] = cnode := by
            rw [List.get?_eq_getElem?, List.getElem?_eq_getElem hlt] at hcn
            simpa using hcn
          obtain ⟨a, g', hplay, hmem, hmv, hcinv⟩ := hch i hlt
          rw [hcnget] at hcinv
          cases rest with
          | nil =>
              have h1 : cnode = node := by simpa [nodeAt] using hrest
              exact ⟨g', h1 ▸ hcinv⟩
          | cons j rest' =>
              exact ih false g' cnode node hcinv hrest (by simp)

theorem modify_append_last {α : Type} (l : List α) (x : α) (f : α → α) :
    (l ++ [x]).modify f l.length = l ++ [f x] := by
  induction l with
  | nil => rfl
  | cons y ys ih =>
      show y :: (ys ++ [x]).modify f ys.length = y :: (ys ++ [f x])
      rw [ih]

theorem withChildren_fields (t : MNode) (ch : List MNode) :
    (t.withChildren ch).children = ch ∧ (t.withChildren ch).play = t.play ∧
    (t.withChildren ch).status = t.status ∧
    (t.withChildren ch).score = t.score ∧
    (t.withChildren ch).count = t.count := by
  cases t
  exact ⟨rfl, rfl, rfl, rfl, rfl⟩

theorem addAlong_children (v : ℚ) (i : ℕ) (rest : List ℕ) (t : MNode) :
    (addAlong v (i :: rest) t).children =
      t.children.modify (addAlong v rest) i := by
  cases t
  rfl

/-- The terminal branch of `expand` (no moves remain at the leaf's
position): the leaf is marked `Done`, stays childless, and any
backpropagation bump preserves the invariant. -/
theorem expand_done_inv (p : Punter) (o : Oracle)
    (bb : Bool) (gl : Harness) (leaf leaf' : MNode) (v : ℚ)
    (hinv : TreeInv p bb gl leaf)
    (hex : expandNode o leaf gl = some (leaf', none)) :
    TreeInv p bb gl (addAlong v [] leaf') ∧
    (addAlong v [] leaf').count = leaf.count + 1 ∧
    (addAlong v [] leaf').play = leaf.play := by
  rw [TreeInv] at hinv
  obtain ⟨hok, hch, hnd, hdone, hexp, hexpandable, hcnt1, hcnt, hcnt0⟩ := hinv
  unfold expandNode at hex
  simp only [Option.bind_eq_bind, Option.bind_eq_some] at hex
  obtain ⟨moves, hmoves, hex2⟩ := hex
  have hmeq : moves = gl.available_rivers := by
    unfold Harness.available_actions at hmoves
    rw [if_neg hok.ne_notStarted] at hmoves
    simpa using hmoves.symm
  split at hex2
  · rename_i hcard0
    simp only [Option.pure_def, Option.some_inj, Prod.mk.injEq] at hex2
    obtain ⟨hleaf', _⟩ := hex2
    have havail : gl.available_rivers = ∅ := by
      rw [← hmeq]
      exact Finset.card_eq_zero.mp hcard0
    have hchn : leaf.children = [] := by
      cases hc : leaf.children with
      | nil => rfl
      | cons c cs =>
          exfalso
          obtain ⟨a, g', _, hmem, _, _⟩ := hch 0 (by rw [hc]; simp)
          rw [havail] at hmem
          exact Finset.not_mem_empty a hmem
    cases leaf with
    | mk lp lch lst lsc lcnt =>
        simp only [MNode.children] at hchn
        subst hchn
        have hl' : leaf' = MNode.mk lp [] .Done lsc lcnt := hleaf'.symm
        subst hl'
        have hNT : addAlong v [] (MNode.mk lp [] NodeStatus.Done lsc lcnt) =
            MNode.mk lp [] NodeStatus.Done (lsc + v) (lcnt + 1) := rfl
        refine ⟨?_, by rw [hNT]; rfl, by rw [hNT]; rfl⟩
        rw [TreeInv, hNT]
        refine ⟨hok, ?_, ?_, fun _ => ⟨rfl, havail⟩, ?_, ?_, ?_, ?_, ?_⟩
        · intro i h
          simp [MNode.children] at h
        · simp [playsOf, MNode.children]
        · intro h
          simp [MNode.status] at h
        · intro h _
          simp [MNode.status] at h
        · intro hb
          have := hcnt1 hb
          simp only [MNode.count] at this ⊢
          linarith
        · intro h
          simp [MNode.children] at h
        · intro _ hne
          exact absurd rfl hne
  · rename_i hcard
    simp only [Option.bind_eq_bind, Option.bind_eq_some] at hex2
    obtain ⟨pl, hpl, hex3⟩ := hex2
    split at hex3
    · cases hex3
    · simp only [Option.pure_def, Option.some_inj, Prod.mk.injEq] at hex3
      cases hex3.2

/-- The expanding branch of `expand`: a fresh available river is pushed
as a new child, the leaf's status is advanced when it was the last one,
and the backpropagation bump along the new child re-establishes the
invariant with one more visit at the leaf. -/
theorem expand_child_inv (p : Punter) (o : Oracle) (hov : ValidOracle o)
    (bb : Bool) (gl : Harness) (leaf leaf' : MNode) (ci : ℕ) (v : ℚ)
    (hinv : TreeInv p bb gl leaf)
    (hex : expandNode o leaf gl = some (leaf', some ci)) :
    TreeInv p bb gl (addAlong v [ci] leaf') ∧
    (addAlong v [ci] leaf').count = leaf.count + 1 ∧
    (addAlong v [ci] leaf').play = leaf.play := by
  rw [TreeInv] at hinv
  obtain ⟨hok, hch, hnd, hdone, hexp, hexpandable, hcnt1, hcnt, hcnt0⟩ := hinv
  unfold expandNode at hex
  simp only [Option.bind_eq_bind, Option.bind_eq_some] at hex
  obtain ⟨moves, hmoves, hex2⟩ := hex
  have hmeq : moves = gl.available_rivers := by
    unfold Harness.available_actions at hmoves
    rw [if_neg hok.ne_notStarted] at hmoves
    simpa using hmoves.symm
  split at hex2
  · simp only [Option.pure_def, Option.some_inj, Prod.mk.injEq] at hex2
    cases hex2.2
  · rename_i hcard
    simp only [Option.bind_eq_bind, Option.bind_eq_some] at hex2
    obtain ⟨pl, hpl, hex2⟩ := hex2
    have hallsome : ∀ i (h : i < leaf.children.length),
        ∃ a, (leaf.children[i]).play = some a := by
      intro i h
      obtain ⟨a, g', hp, _⟩ := hch i h
      exact ⟨a, hp⟩
    obtain ⟨hmapm, hmapsome⟩ := mapM_play_of_all_some leaf.children hallsome
    have hpleq : pl = playsOf leaf := by
      rw [hpl] at hmapm
      simpa [playsOf] using hmapm
    subst hpleq
    set AM := (playsOf leaf).foldl Finset.erase moves with hAMdef
    set a := o.pick AM with hadef
    set newch := MNode.new (some a) with hnewchdef
    set T1 := if AM.card = 1 then leaf.withStatus .Expanded else leaf
      with hT1def
    split at hex2
    · cases hex2
    · rename_i hAMcard
      simp only [Option.pure_def, Option.some_inj, Prod.mk.injEq] at hex2
      obtain ⟨hleaf', hci⟩ := hex2
      have hAMne : AM.Nonempty :=
        Finset.card_pos.mp (Nat.pos_of_ne_zero hAMcard)
      have hamem : a ∈ AM := hov AM hAMne
      obtain ⟨hamoves, hanot⟩ := (mem_foldl_erase (playsOf leaf) moves a).mp
        (by rw [← hAMdef]; exact hamem)
      have haavail : a ∈ gl.available_rivers := hmeq ▸ hamoves
      obtain ⟨gch, hgch, hokch, _⟩ := HOk_move p hok haavail
      have havailne : gl.available_rivers ≠ ∅ := by
        rw [← hmeq]
        intro he
        rw [he] at hcard
        exact hcard rfl
      have hstne : leaf.status ≠ .Done := by
        intro hst
        exact havailne (hdone hst).2
      have hT1ch : T1.children = leaf.children := by
        rw [hT1def]
        by_cases hc : AM.card = 1
        · rw [if_pos hc]
          exact (withStatus_fields leaf .Expanded).2.2.2.1
        · rw [if_neg hc]
      have hT1st : T1.status =
          (if AM.card = 1 then NodeStatus.Expanded else leaf.status) := by
        rw [hT1def]
        by_cases hc : AM.card = 1
        · rw [if_pos hc, if_pos hc]
          exact (withStatus_fields leaf .Expanded).2.2.2.2
        · rw [if_neg hc, if_neg hc]
      have hT1pl : T1.play = leaf.play := by
        rw [hT1def]
        by_cases hc : AM.card = 1
        · rw [if_pos hc]
          exact (withStatus_fields leaf .Expanded).2.2.1
        · rw [if_neg hc]
      have hT1cnt : T1.count = leaf.count := by
        rw [hT1def]
        by_cases hc : AM.card = 1
        · rw [if_pos hc]
          exact (withStatus_fields leaf .Expanded).2.1
        · rw [if_neg hc]
      have hcieq : ci = leaf.children.length := by
        rw [← hci, hT1ch]
      have hleq : leaf' = T1.withChildren (T1.children ++ [newch]) :=
        hleaf'.symm
      have hl'ch : leaf'.children = leaf.children ++ [newch] := by
        rw [hleq, (withChildren_fields T1 _).1, hT1ch]
      have hl'st : leaf'.status =
          (if AM.card = 1 then NodeStatus.Expanded else leaf.status) := by
        rw [hleq, (withChildren_fields T1 _).2.2.1, hT1st]
      have hl'pl : leaf'.play = leaf.play := by
        rw [hleq, (withChildren_fields T1 _).2.1, hT1pl]
      have hl'cnt : leaf'.count = leaf.count := by
        rw [hleq, (withChildren_fields T1 _).2.2.2.2, hT1cnt]
      have hbump : addAlong v [] newch =
          MNode.mk (some a) [] .Expandable (0 + v) (0 + 1) := rfl
      have hNTch : (addAlong v [ci] leaf').children =
          leaf.children ++ [MNode.mk (some a) [] .Expandable (0 + v) (0 + 1)]
          := by
        rw [addAlong_children, hl'ch, hcieq, modify_append_last, hbump]
      have hNTst : (addAlong v [ci] leaf').status =
          (if AM.card = 1 then NodeStatus.Expanded else leaf.status) := by
        rw [(addAlong_fields v [ci] leaf').2.2.2, hl'st]
      have hNTcnt : (addAlong v [ci] leaf').count = leaf.count + 1 := by
        rw [(addAlong_fields v [ci] leaf').1, hl'cnt]
      have hNTpl : (addAlong v [ci] leaf').play = leaf.play := by
        rw [(addAlong_fields v [ci] leaf').2.2.1, hl'pl]
      have hplaysNT : playsOf (addAlong v [ci] leaf') =
          playsOf leaf ++ [a] := by
        show ((addAlong v [ci] leaf').children.map MNode.play).reduceOption
          = _
        rw [hNTch, List.map_append, List.reduceOption_append]
        rfl
      refine ⟨?_, hNTcnt, hNTpl⟩
      rw [TreeInv]
      refine ⟨hok, ?_, ?_, ?_, ?_, ?_, ?_, ?_, ?_⟩
      · -- children: old ones unchanged, the new one is the picked river
        intro i h
        simp only [hNTch] at h ⊢
        rw [List.length_append, List.length_singleton] at h
        rcases Nat.lt_or_ge i leaf.children.length with hiL | hiL
        · rw [List.getElem_append_left hiL]
          exact hch i hiL
        · have hieq : i = leaf.children.length := by omega
          rw [List.getElem_concat_length _ _ _ hieq]
          refine ⟨a, gch, rfl, haavail, hgch, ?_⟩
          rw [TreeInv]
          refine ⟨hokch, ?_, ?_, ?_, ?_, ?_, ?_, ?_, ?_⟩
          · intro j hj
            simp [MNode.children] at hj
          · simp [playsOf, MNode.children]
          · intro hst
            simp [MNode.status] at hst
          · intro hst
            simp [MNode.status] at hst
          · intro _ hne
            exact absurd rfl hne
          · intro _
            show (1 : ℚ) ≤ 0 + 1
            norm_num
          · intro hne
            exact absurd rfl hne
          · intro _ _
            show (0 : ℚ) + 1 = if (false : Bool) = true then (0 : ℚ) else 1
            norm_num
      · rw [hplaysNT]
        rw [List.nodup_append]
        refine ⟨hnd, List.nodup_singleton a, ?_⟩
        intro x hx hxa
        rw [List.mem_singleton] at hxa
        subst hxa
        exact hanot hx
      · intro hst
        rw [hNTst] at hst
        by_cases hc1 : AM.card = 1
        · rw [if_pos hc1] at hst
          exact absurd hst (by decide)
        · rw [if_neg hc1] at hst
          exact absurd (hdone hst).2 havailne
      · intro hst
        rw [hNTst] at hst
        rw [hplaysNT]
        by_cases hc1 : AM.card = 1
        · refine ⟨?_, havailne⟩
          intro x hx
          by_cases hxe : x ∈ playsOf leaf
          · exact List.mem_append.mpr (Or.inl hxe)
          · have hxm : x ∈ moves := by rw [hmeq]; exact hx
            have hxAM : x ∈ AM := by
              rw [hAMdef]
              exact (mem_foldl_erase (playsOf leaf) moves x).mpr ⟨hxm, hxe⟩
            obtain ⟨b, hb⟩ := Finset.card_eq_one.mp hc1
            rw [hb, Finset.mem_singleton] at hxAM
            have hab : a ∈ ({b} : Finset ℕ) := by rw [← hb]; exact hamem
            rw [Finset.mem_singleton] at hab
            refine List.mem_append.mpr (Or.inr ?_)
            rw [hxAM, ← hab]
            exact List.mem_singleton.mpr rfl
        · rw [if_neg hc1] at hst
          exfalso
          have hAMempty : AM = ∅ := by
            rw [hAMdef]
            apply Finset.eq_empty_iff_forall_not_mem.mpr
            intro x hx
            obtain ⟨hxm, hxp⟩ := (mem_foldl_erase (playsOf leaf) moves x).mp hx
            exact hxp ((hexp hst).1 x (by rw [← hmeq]; exact hxm))
          rw [hAMempty] at hAMcard
          exact hAMcard rfl
      · intro hst _
        rw [hNTst] at hst
        by_cases hc1 : AM.card = 1
        · rw [if_pos hc1] at hst
          exact absurd hst (by decide)
        · have hcard2 : 2 ≤ AM.card := by
            have h0 : AM.card ≠ 0 := hAMcard
            omega
          have hpos : 0 < (AM.erase a).card := by
            rw [Finset.card_erase_of_mem hamem]
            omega
          obtain ⟨x, hx⟩ := Finset.card_pos.mp hpos
          obtain ⟨hxa, hxAM⟩ := Finset.mem_erase.mp hx
          obtain ⟨hxm, hxp⟩ := (mem_foldl_erase (playsOf leaf) moves x).mp
            (by rw [← hAMdef]; exact hxAM)
          refine ⟨x, by rw [← hmeq]; exact hxm, ?_⟩
          rw [hplaysNT]
          intro hmem2
          rcases List.mem_append.mp hmem2 with h | h
          · exact hxp h
          · exact hxa (List.mem_singleton.mp h)
      · intro hb
        rw [hNTcnt]
        have := hcnt1 hb
        linarith
      · intro _
        rw [hNTcnt, hNTch, sumCounts_append]
        have hsingle :
            sumCounts [MNode.mk (some a) [] .Expandable (0 + v) (0 + 1)] =
            0 + 1 := by
          simp [sumCounts, MNode.count]
        rw [hsingle]
        by_cases hemp : leaf.children = []
        · rw [hemp]
          have h0 := hcnt0 hemp hstne
          rw [h0]
          show _ = _ + (sumCounts [] + (0 + 1))
          simp [sumCounts]
        · have h1 := hcnt hemp
          rw [h1]
          ring
      · intro hchn _
        exfalso
        rw [hNTch] at hchn
        simp at hchn

/-- Replacing the selected leaf's subtree and backpropagating along the
focus path preserves the invariant of every ancestor, adding exactly one
visit to each. -/
theorem treeInv_update (p : Punter) (v : ℚ) (suffix : List ℕ)
    (leafNew : MNode) :
    ∀ (path : List ℕ) (b : Bool) (g : Harness) (t leaf : MNode)
      (gl : Harness),
      TreeInv p b g t →
      nodeAt path t = some leaf →
      descend p path t g = some gl →
      (path = [] → TreeInv p b gl (addAlong v suffix leafNew)) →
      (path ≠ [] → TreeInv p false gl (addAlong v suffix leafNew)) →
      (addAlong v suffix leafNew).count = leaf.count + 1 →
      (addAlong v suffix leafNew).play = leaf.play →
      TreeInv p b g (addAlong v (path ++ suffix)
        (updateAt (fun _ => leafNew) path t)) ∧
      (addAlong v (path ++ suffix)
        (updateAt (fun _ => leafNew) path t)).count = t.count + 1 ∧
      (addAlong v (path ++ suffix)
        (updateAt (fun _ => leafNew) path t)).play = t.play := by
  intro path
  induction path with
  | nil =>
      intro b g t leaf gl hinv hleaf hdes hnew1 hnew2 hcount hplay
      have h1 : t = leaf := by simpa [nodeAt] using hleaf
      have h2 : g = gl := by simpa [descend] using hdes
      refine ⟨?_, ?_, ?_⟩
      · show TreeInv p b g (addAlong v suffix leafNew)
        rw [h2]
        exact hnew1 rfl
      · show (addAlong v suffix leafNew).count = t.count + 1
        rw [h1]
        exact hcount
      · show (addAlong v suffix leafNew).play = t.play
        rw [h1]
        exact hplay
  | cons i rest ih =>
      intro b g t leaf gl hinv hleaf hdes hnew1 hnew2 hcount hplay
      cases t with
      | mk pl ch st sc cnt =>
          simp only [nodeAt, MNode.children, Option.bind_eq_some] at hleaf
          obtain ⟨cnode, hcn, hrest⟩ := hleaf
          unfold descend at hdes
          simp only [MNode.children, Option.bind_eq_bind, Option.bind_eq_some]
            at hdes
          obtain ⟨cnode', hcn', a, hplaya, g₁, hmv, hrec⟩ := hdes
          rw [hcn] at hcn'
          have hcc : cnode' = cnode := by
            simpa using hcn'.symm
          rw [hcc] at hplaya hrec
          rw [TreeInv] at hinv
          obtain ⟨hok, hch, hnd, hdone, hexp, hexpandable, hcnt1, hcnt,
            hcnt0⟩ := hinv
          simp only [MNode.children] at hch
          have hlt : i < ch.length := by
            by_contra hge
            rw [List.get?_eq_getElem?,
              List.getElem?_eq_none (by omega)] at hcn
            cases hcn
          have hcnget : ch[i] = cnode := by
            rw [List.get?_eq_getElem?, List.getElem?_eq_getElem hlt] at hcn
            simpa using hcn
          obtain ⟨a', g'', hplay', hmem', hmv', hcinv⟩ := hch i hlt
          rw [hcnget] at hplay' hcinv
          rw [hplaya] at hplay'
          have haa : a' = a := by simpa using hplay'.symm
          rw [haa] at hmem' hmv'
          rw [hmv] at hmv'
          have hgg : g'' = g₁ := by simpa using hmv'.symm
          rw [hgg] at hcinv
          obtain ⟨ihInv, ihCnt, ihPlay⟩ := ih false g₁ cnode leaf gl hcinv
            hrest hrec (fun _ => hnew2 (by simp)) (fun _ => hnew2 (by simp))
            hcount hplay
          rw [← hcnget] at ihInv ihCnt ihPlay hplaya
          have hT' : addAlong v ((i :: rest) ++ suffix)
              (updateAt (fun _ => leafNew) (i :: rest)
                (MNode.mk pl ch st sc cnt)) =
              MNode.mk pl (ch.modify (fun c => addAlong v (rest ++ suffix)
                (updateAt (fun _ => leafNew) rest c)) i) st (sc + v)
                (cnt + 1) := by
            show MNode.mk pl ((ch.modify (updateAt (fun _ => leafNew) rest)
                i).modify (addAlong v (rest ++ suffix)) i) st (sc + v)
                (cnt + 1) = _
            rw [modify_modify]
          rw [hT']
          have hmp : (ch.modify (fun c => addAlong v (rest ++ suffix)
              (updateAt (fun _ => leafNew) rest c)) i).map MNode.play =
              ch.map MNode.play :=
            mapPlay_modify ch _ i hlt ihPlay
          have hsum : sumCounts (ch.modify (fun c =>
              addAlong v (rest ++ suffix)
                (updateAt (fun _ => leafNew) rest c)) i) =
              sumCounts ch + 1 :=
            sumCounts_modify ch _ i hlt ihCnt
          refine ⟨?_, rfl, rfl⟩
          rw [TreeInv]
          refine ⟨hok, ?_, ?_, ?_, ?_, ?_, ?_, ?_, ?_⟩
          · intro j hj
            simp only [MNode.children] at hj ⊢
            have hjl : j < ch.length := by
              rw [List.length_modify] at hj
              exact hj
            rw [List.getElem_modify]
            by_cases hij : i = j
            · subst hij
              rw [if_pos rfl]
              refine ⟨a, g₁, ihPlay.trans hplaya, hmem', hmv, ihInv⟩
            · rw [if_neg hij]
              exact hch j hjl
          · show ((ch.modify (fun c => addAlong v (rest ++ suffix)
              (updateAt (fun _ => leafNew) rest c)) i).map
                MNode.play).reduceOption.Nodup
            rw [hmp]
            exact hnd
          · intro hst
            exfalso
            have hchnil : ch = [] := (hdone hst).1
            rw [hchnil] at hlt
            simp at hlt
          · intro hst
            obtain ⟨h1, h2⟩ := hexp hst
            refine ⟨?_, h2⟩
            intro x hx
            show x ∈ ((ch.modify (fun c => addAlong v (rest ++ suffix)
              (updateAt (fun _ => leafNew) rest c)) i).map
                MNode.play).reduceOption
            rw [hmp]
            exact h1 x hx
          · intro hst _
            obtain ⟨x, hx1, hx2⟩ := hexpandable hst (by
              intro hnil
              have : ch = [] := hnil
              rw [this] at hlt
              simp at hlt)
            refine ⟨x, hx1, ?_⟩
            show x ∉ ((ch.modify (fun c => addAlong v (rest ++ suffix)
              (updateAt (fun _ => leafNew) rest c)) i).map
                MNode.play).reduceOption
            rw [hmp]
            exact hx2
          · intro hb
            have h1 : (1 : ℚ) ≤ cnt := hcnt1 hb
            show (1 : ℚ) ≤ cnt + 1
            linarith
          · intro _
            have hc : cnt = (if b then (0 : ℚ) else 1) + sumCounts ch :=
              hcnt (by
                intro hnil
                have : ch = [] := hnil
                rw [this] at hlt
                simp at hlt)
            show cnt + 1 = (if b then (0 : ℚ) else 1) +
              sumCounts (ch.modify (fun c => addAlong v (rest ++ suffix)
                (updateAt (fun _ => leafNew) rest c)) i)
            rw [hsum, hc]
            ring
          · intro hnil _
            exfalso
            have hnil' : ch.modify (fun c => addAlong v (rest ++ suffix)
              (updateAt (fun _ => leafNew) rest c)) i = [] := hnil
            have h0 := List.length_modify (fun c => addAlong v
              (rest ++ suffix) (updateAt (fun _ => leafNew) rest c)) i ch
            rw [hnil'] at h0
            simp at h0
            rw [← h0] at hlt
            simp at hlt

/-- A fresh root at the reset harness satisfies the root invariant with
zero visits. -/
theorem treeInv_init (p : Punter) :
    TreeInv p true (resetHarness p) (MNode.new none) := by
  rw [TreeInv]
  refine ⟨HOk_reset p, ?_, ?_, ?_, ?_, ?_, ?_, ?_, ?_⟩
  · intro i h
    simp [MNode.new, MNode.children] at h
  · simp [playsOf, MNode.new, MNode.children]
  · intro h
    exact absurd h (by decide)
  · intro h
    exact absurd h (by decide)
  · intro _ h
    exact absurd rfl h
  · intro hb
    simp at hb
  · intro h
    exact absurd rfl h
  · intro _ _
    rfl

/-- One completed `MCTS::step` preserves the tree invariant and adds
exactly one visit at the root. -/
theorem step_preserve (p : Punter) (o : Oracle) (hov : ValidOracle o)
    (c : ℝ) (b : Bool) (g : Harness) (t : MNode) (res : StepResult)
    (hinv : TreeInv p b g t)
    (hstep : step p o c t g = some res) :
    TreeInv p b g res.tree ∧ res.tree.count = t.count + 1 := by
  unfold step at hstep
  simp only [Option.bind_eq_bind, Option.bind_eq_some] at hstep
  obtain ⟨pg, hpg, leaf, hleaf, ex, hex, hrest⟩ := hstep
  have hdes : descend p pg.1 t g = some pg.2 :=
    selectGo_descend p o c t.size t g pg.1 pg.2 hpg
  have hat := treeInv_at p pg.1 b g t pg.2 leaf hinv hleaf hdes
  obtain ⟨leaf', oci⟩ := ex
  cases oci with
  | some ci =>
      simp only [Option.bind_eq_bind, Option.bind_eq_some, Option.pure_def,
        Option.some_inj] at hrest
      obtain ⟨g2, hg2, v, hv, hres⟩ := hrest
      by_cases hpe : pg.1 = []
      · obtain ⟨hlt, hgg⟩ := hat.1 hpe
        have hleafinv : TreeInv p b pg.2 leaf := by
          rw [hlt, hgg]
          exact hinv
        obtain ⟨hni, hnc, hnp⟩ :=
          expand_child_inv p o hov b pg.2 leaf leaf' ci v hleafinv hex
        obtain ⟨hui, huc, hup⟩ := treeInv_update p v [ci] leaf' pg.1 b g t
          leaf pg.2 hinv hleaf hdes (fun _ => hni)
          (fun hne => absurd hpe hne) hnc hnp
        rw [← hres]
        exact ⟨hui, huc⟩
      · have hleafinv : TreeInv p false pg.2 leaf := hat.2 hpe
        obtain ⟨hni, hnc, hnp⟩ :=
          expand_child_inv p o hov false pg.2 leaf leaf' ci v hleafinv hex
        obtain ⟨hui, huc, hup⟩ := treeInv_update p v [ci] leaf' pg.1 b g t
          leaf pg.2 hinv hleaf hdes (fun he => absurd he hpe)
          (fun _ => hni) hnc hnp
        rw [← hres]
        exact ⟨hui, huc⟩
  | none =>
      simp only [Option.pure_def] at hrest
      split at hrest
      · simp only [Option.some_inj] at hrest
        by_cases hpe : pg.1 = []
        · obtain ⟨hlt, hgg⟩ := hat.1 hpe
          have hleafinv : TreeInv p b pg.2 leaf := by
            rw [hlt, hgg]
            exact hinv
          obtain ⟨hni, hnc, hnp⟩ :=
            expand_done_inv p o b pg.2 leaf leaf' leaf'.score hleafinv hex
          obtain ⟨hui, huc, hup⟩ := treeInv_update p leaf'.score [] leaf'
            pg.1 b g t leaf pg.2 hinv hleaf hdes (fun _ => hni)
            (fun hne => absurd hpe hne) hnc hnp
          rw [List.append_nil] at hui huc
          rw [← hrest]
          exact ⟨hui, huc⟩
        · have hleafinv : TreeInv p false pg.2 leaf := hat.2 hpe
          obtain ⟨hni, hnc, hnp⟩ :=
            expand_done_inv p o false pg.2 leaf leaf' leaf'.score hleafinv
              hex
          obtain ⟨hui, huc, hup⟩ := treeInv_update p leaf'.score [] leaf'
            pg.1 b g t leaf pg.2 hinv hleaf hdes
            (fun he => absurd he hpe) (fun _ => hni) hnc hnp
          rw [List.append_nil] at hui huc
          rw [← hrest]
          exact ⟨hui, huc⟩
      · cases hrest

/-- The `move_mcts` loop invariant: after `k` completed iterations the
root satisfies the invariant and has been visited exactly `k` times. -/
theorem mctsLoop_inv (p : Punter) (o : Oracle) (hov : ValidOracle o)
    (c : ℝ) :
    ∀ (k : ℕ) (m : MCTS), mctsLoop p o (MCTS.new c) k = some m →
      TreeInv p true (resetHarness p) m.root ∧ m.root.count = (k : ℚ) := by
  intro k
  induction k with
  | zero =>
      intro m h
      have hm : MCTS.new c = m := by simpa [mctsLoop] using h
      rw [← hm]
      exact ⟨treeInv_init p, by simp [MCTS.new, MNode.new, MNode.count]⟩
  | succ k ih =>
      intro m h
      unfold mctsLoop at h
      simp only [Option.bind_eq_bind, Option.bind_eq_some, Option.pure_def,
        Option.some_inj] at h
      obtain ⟨m', hm', r, hr, hm⟩ := h
      obtain ⟨hinv, hcnt⟩ := ih m' hm'
      obtain ⟨hinv', hcnt'⟩ := step_preserve p o hov m'.c true
        (resetHarness p) m'.root r hinv hr
      rw [← hm]
      refine ⟨hinv', ?_⟩
      show r.tree.count = ((k + 1 : ℕ) : ℚ)
      rw [hcnt', hcnt]
      push_cast
      ring

/-- C3 (amended): after any number `k` of completed MCTS iterations the
root's visit count equals `k`; the root with children has count equal to
the plain sum of its children's counts (no creation visit at the root);
and every non-root node has count at least 1 and, when it has children,
count equal to 1 plus the sum of its children's counts. -/
theorem C3_visit_counts (p : Punter) (o : Oracle) (hov : ValidOracle o)
    (k : ℕ) (t : MNode) (h : mctsIter p o k = some t) :
    t.count = (k : ℚ) ∧
    (t.children ≠ [] → t.count = sumCounts t.children) ∧
    ∀ q node, nodeAt q t = some node → q ≠ [] →
      (1 : ℚ) ≤ node.count ∧
      (node.children ≠ [] → node.count = 1 + sumCounts node.children) := by
  unfold mctsIter at h
  simp only [Option.map_eq_some'] at h
  obtain ⟨m, hm, hroot⟩ := h
  obtain ⟨hinv, hcnt⟩ := mctsLoop_inv p o hov 1.4 k m hm
  rw [← hroot]
  refine ⟨hcnt, ?_, ?_⟩
  · intro hne
    rw [TreeInv] at hinv
    obtain ⟨_, _, _, _, _, _, _, h8, _⟩ := hinv
    rw [h8 hne]
    simp
  · intro q node hnode hqne
    obtain ⟨g', hninv⟩ := treeInv_nodeAt p q true (resetHarness p) m.root
      node hinv hnode hqne
    rw [TreeInv] at hninv
    obtain ⟨_, _, _, _, _, _, h7, h8, _⟩ := hninv
    refine ⟨h7 rfl, ?_⟩
    intro hcne
    rw [h8 hcne]
    simp

/-- C3 witness: one completed iteration on the one-river board grows a
tree whose root has exactly one visit and whose nodes satisfy the count
identities. -/
theorem C3_witness :
    ValidOracle detOracle ∧
    ∃ t, mctsIter tinyPunter detOracle 1 = some t ∧
      (t.count = ((1 : ℕ) : ℚ) ∧
       (t.children ≠ [] → t.count = sumCounts t.children) ∧
       ∀ q node, nodeAt q t = some node → q ≠ [] →
         (1 : ℚ) ≤ node.count ∧
         (node.children ≠ [] →
           node.count = 1 + sumCounts node.children)) := by
  have h : (mctsIter tinyPunter detOracle 1).isSome = true := by decide
  exact ⟨detOracle_valid, Option.get _ h, (Option.some_get h).symm,
    C3_visit_counts tinyPunter detOracle detOracle_valid 1 _
      (Option.some_get h).symm⟩

end Icfp
